import Mathlib

/-!
# datalist: a shallow embedding of `datalist.c`

The lexer (`next_token` and its helpers), the escape decoder
(`push_token_string`), token coercion (`push_token`) and the recursive-descent
parser (`push_value`, `parse_flat`, `parse_seq`, `parse_map`, `parse_list`,
`parse_outer`, `lparse`) are translated function by function.

Conventions of the embedding

* A source buffer is a `List Nat` of byte values.  Lua strings are followed by
  a NUL byte, so a read at or past the end of the buffer yields `0`
  (`lex_state.byte`).
* `lex_state` is passed and returned explicitly; `LS->sz` is the length of the
  buffer.
* The Lua stack is not modelled: a function that pushes a value returns it, and
  a function that fills the table at `index` takes the table and returns it.
* `invalid` raises a Lua error and never returns; it is `Except.error`.
* The parser loops `for (;;)` and the recursion through `push_value` take a
  fuel argument; `none` means that the fuel ran out before the C function
  returned.  The lexer loops are bounded by the length of the buffer.
* `strtoull` and `strtod` belong to the C library; they are modelled after
  ISO C in the "C" locale.
-/

namespace Datalist

/-! ## Bytes -/

/-- The bytes of an ASCII text. -/
def bytes (s : String) : List Nat := s.toList.map Char.toNat

/-- C `strchr(s, c) != NULL`: the terminating NUL of `s` is part of the string,
so `c == 0` is always found. -/
def strchr (s : List Nat) (c : Nat) : Bool := c == 0 || s.contains c

/-- C `isspace` in the "C" locale: space, `\t`, `\n`, `\v`, `\f`, `\r`. -/
def isspace (c : Nat) : Bool := c == 32 || (9 ≤ c && c ≤ 13)

/-- C `isdigit`. -/
def isdigit (c : Nat) : Bool := 48 ≤ c && c ≤ 57

/-- C `isxdigit`. -/
def isxdigit (c : Nat) : Bool :=
  (48 ≤ c && c ≤ 57) || (97 ≤ c && c ≤ 102) || (65 ≤ c && c ≤ 70)

/-- C `isalnum` in the "C" locale. -/
def isalnum (c : Nat) : Bool :=
  (48 ≤ c && c ≤ 57) || (97 ≤ c && c ≤ 122) || (65 ≤ c && c ≤ 90)

/-- C `tolower` in the "C" locale. -/
def tolower (c : Nat) : Nat := if 65 ≤ c ∧ c ≤ 90 then c + 32 else c

/-! ## Tokens and the lexer state -/

/-- The constant `#define MAX_DEPTH 256`. -/
def MAX_DEPTH : Nat := 256

/-- The type `enum token_type`. -/
inductive token_type
  | TOKEN_BRACKET
  | TOKEN_SYMBOL
  | TOKEN_LAYER
  | TOKEN_STRING
  | TOKEN_ESCAPESTRING
  | TOKEN_ATOM
  | TOKEN_EOF
deriving DecidableEq, Repr

open token_type

/-- The type `struct token`: the fields `from` and `to` are `from_` and `to_`. -/
structure token where
  type : token_type
  from_ : Nat
  to_ : Nat
deriving DecidableEq, Repr

/-- The type `struct lex_state`; `sz` is the length of `source`. -/
structure lex_state where
  source : List Nat
  position : Nat
  t : token
deriving DecidableEq, Repr

/-- The field `LS->sz`. -/
def lex_state.sz (LS : lex_state) : Nat := LS.source.length

/-- The byte `LS->source[i]`; the byte after the buffer is the NUL that ends a Lua
string. -/
def lex_state.byte (LS : lex_state) (i : Nat) : Nat := LS.source.getD i 0

/-! ## Lexer -/

/-- The loop of `skip_line_comment`; the first argument bounds `endptr - ptr`.
Returns the state and the returned `ptr`. -/
def skip_line_comment_loop (LS : lex_state) : Nat → Nat → lex_state × Nat
  | 0, ptr => (LS, ptr)
  | n + 1, ptr =>
    if LS.byte ptr = 13 ∨ LS.byte ptr = 10 then
      ({ LS with position := ptr }, ptr)
    else
      skip_line_comment_loop LS n (ptr + 1)

/-- The function `skip_line_comment`. -/
def skip_line_comment (LS : lex_state) : lex_state × Nat :=
  skip_line_comment_loop LS (LS.sz - LS.position) LS.position

/-- The loop of `parse_layer`; the first argument is `endptr - ptr`.  When the
run of `c` reaches the end of the buffer the loop ends without writing the
token or the position. -/
def parse_layer_loop (LS : lex_state) (c : Nat) : Nat → Nat → lex_state
  | 0, _ => LS
  | n + 1, ptr =>
    if LS.byte ptr ≠ c then
      { LS with
        t := { type := if ptr - LS.position = 1 then TOKEN_ATOM else TOKEN_LAYER,
               from_ := LS.position, to_ := ptr },
        position := ptr }
    else
      parse_layer_loop LS c n (ptr + 1)

/-- The function `parse_layer` (the returned pointer is not used by the caller). -/
def parse_layer (LS : lex_state) : lex_state :=
  parse_layer_loop LS (LS.byte LS.position) (LS.sz - (LS.position + 1)) (LS.position + 1)

/-- The `separator` string of `parse_atom`: `" \t\r\n,#{}[]():=\"'"`. -/
def atom_separator : List Nat :=
  [32, 9, 13, 10, 44, 35, 123, 125, 91, 93, 40, 41, 58, 61, 34, 39]

/-- The loop of `parse_atom`; the first argument is `endptr - ptr`.  At the end
of the buffer only `t.to` is written, the position is left where it was. -/
def parse_atom_loop (LS : lex_state) : Nat → Nat → lex_state
  | 0, _ => { LS with t := { LS.t with to_ := LS.sz } }
  | n + 1, ptr =>
    if strchr atom_separator (LS.byte ptr) then
      { LS with t := { LS.t with to_ := ptr }, position := ptr }
    else
      parse_atom_loop LS n (ptr + 1)

/-- The function `parse_atom`. -/
def parse_atom (LS : lex_state) : lex_state :=
  parse_atom_loop
    { LS with t := { LS.t with type := TOKEN_ATOM, from_ := LS.position } }
    (LS.sz - LS.position) LS.position

/-- The loop of `parse_string`; the first argument bounds the number of
iterations (each one advances `ptr`). -/
def parse_string_loop (open_string : Nat) : Nat → lex_state → Nat → Bool × lex_state
  | 0, LS, _ => (false, LS)
  | n + 1, LS, ptr =>
    if ptr < LS.sz then
      if LS.byte ptr = open_string then
        (true, { LS with t := { LS.t with to_ := ptr }, position := ptr + 1 })
      else if LS.byte ptr = 13 ∨ LS.byte ptr = 10 then
        (false, LS)
      else if LS.byte ptr = 92 then
        parse_string_loop open_string n
          { LS with t := { LS.t with type := TOKEN_ESCAPESTRING } } (ptr + 2)
      else
        parse_string_loop open_string n LS (ptr + 1)
    else
      (false, LS)

/-- The function `parse_string`. -/
def parse_string (LS : lex_state) : Bool × lex_state :=
  parse_string_loop (LS.byte LS.position) (LS.sz - LS.position)
    { LS with t := { LS.t with type := TOKEN_STRING, from_ := LS.position + 1 } }
    (LS.position + 1)

/-- The loop of `next_token`; the first argument bounds the number of
iterations (each one advances `ptr`).  The Boolean is the returned `int`. -/
def next_token_loop : Nat → lex_state → Nat → Bool × lex_state
  | 0, LS, _ => (true, { LS with t := { LS.t with type := TOKEN_EOF }, position := LS.sz })
  | n + 1, LS0, ptr =>
    if ptr < LS0.sz then
      let LS : lex_state := { LS0 with position := ptr }
      let c := LS.byte ptr
      if c = 45 ∧ LS.byte (ptr + 1) = 45 then
        next_token_loop n (skip_line_comment LS).1 (skip_line_comment LS).2
      else if c = 32 ∨ c = 9 ∨ c = 13 ∨ c = 10 ∨ c = 44 then
        next_token_loop n LS (ptr + 1)
      else if c = 123 ∨ c = 125 ∨ c = 91 ∨ c = 93 ∨ c = 40 ∨ c = 41 then
        (true, { LS with
                 t := { type := TOKEN_BRACKET, from_ := ptr, to_ := ptr + 1 },
                 position := ptr + 1 })
      else if c = 58 ∨ c = 61 then
        (true, { LS with
                 t := { type := TOKEN_SYMBOL, from_ := ptr, to_ := ptr + 1 },
                 position := ptr + 1 })
      else if c = 35 ∨ c = 42 then
        (true, parse_layer LS)
      else if c = 34 ∨ c = 39 then
        parse_string LS
      else
        (true, parse_atom LS)
    else
      (true, { LS0 with t := { LS0.t with type := TOKEN_EOF }, position := LS0.sz })

/-- The function `next_token`. -/
def next_token (LS : lex_state) : Bool × lex_state :=
  next_token_loop (LS.sz - LS.position + 1) LS LS.position

/-! ## Lua values -/

/-- A key of a Lua table: an integer index or a string. -/
inductive Key
  | idx (i : Int)
  | str (s : List Nat)
deriving DecidableEq, Repr

/-- A Lua value as the parser builds it.  A `number` is the `double` that
`strtod` returns for the recorded text; the conversion itself is not
modelled.  A table is the list of its entries with non-nil values, each key
once, in the order of first assignment. -/
inductive Value
  | nil
  | boolean (b : Bool)
  | integer (i : Int)
  | number (text : List Nat)
  | string (s : List Nat)
  | table (entries : List (Key × Value))
deriving Repr

mutual
/-- Equality of Lua values is decidable. -/
def Value.decEq : (a b : Value) → Decidable (a = b)
  | .nil, .nil => isTrue rfl
  | .boolean x, .boolean y =>
    if h : x = y then isTrue (congrArg Value.boolean h)
    else isFalse (fun e => h (Value.boolean.inj e))
  | .integer x, .integer y =>
    if h : x = y then isTrue (congrArg Value.integer h)
    else isFalse (fun e => h (Value.integer.inj e))
  | .number x, .number y =>
    if h : x = y then isTrue (congrArg Value.number h)
    else isFalse (fun e => h (Value.number.inj e))
  | .string x, .string y =>
    if h : x = y then isTrue (congrArg Value.string h)
    else isFalse (fun e => h (Value.string.inj e))
  | .table x, .table y =>
    match entries_decEq x y with
    | isTrue h => isTrue (congrArg Value.table h)
    | isFalse h => isFalse (fun e => h (Value.table.inj e))
  | .nil, .boolean _ => isFalse nofun
  | .nil, .integer _ => isFalse nofun
  | .nil, .number _ => isFalse nofun
  | .nil, .string _ => isFalse nofun
  | .nil, .table _ => isFalse nofun
  | .boolean _, .nil => isFalse nofun
  | .boolean _, .integer _ => isFalse nofun
  | .boolean _, .number _ => isFalse nofun
  | .boolean _, .string _ => isFalse nofun
  | .boolean _, .table _ => isFalse nofun
  | .integer _, .nil => isFalse nofun
  | .integer _, .boolean _ => isFalse nofun
  | .integer _, .number _ => isFalse nofun
  | .integer _, .string _ => isFalse nofun
  | .integer _, .table _ => isFalse nofun
  | .number _, .nil => isFalse nofun
  | .number _, .boolean _ => isFalse nofun
  | .number _, .integer _ => isFalse nofun
  | .number _, .string _ => isFalse nofun
  | .number _, .table _ => isFalse nofun
  | .string _, .nil => isFalse nofun
  | .string _, .boolean _ => isFalse nofun
  | .string _, .integer _ => isFalse nofun
  | .string _, .number _ => isFalse nofun
  | .string _, .table _ => isFalse nofun
  | .table _, .nil => isFalse nofun
  | .table _, .boolean _ => isFalse nofun
  | .table _, .integer _ => isFalse nofun
  | .table _, .number _ => isFalse nofun
  | .table _, .string _ => isFalse nofun
termination_by structural a => a

/-- Equality of the entry lists of tables is decidable. -/
def entries_decEq : (a b : List (Key × Value)) → Decidable (a = b)
  | [], [] => isTrue rfl
  | [], _ :: _ => isFalse nofun
  | _ :: _, [] => isFalse nofun
  | (k, v) :: a, (k', v') :: b =>
    if hk : k = k' then
      match Value.decEq v v' with
      | isTrue hv =>
        match entries_decEq a b with
        | isTrue ht => isTrue (by rw [hk, hv, ht])
        | isFalse ht => isFalse (fun e => ht (List.cons.inj e).2)
      | isFalse hv => isFalse (fun e => hv (Prod.mk.inj (List.cons.inj e).1).2)
    else isFalse (fun e => hk (Prod.mk.inj (List.cons.inj e).1).1)
termination_by structural a => a
end

instance : DecidableEq Value := Value.decEq

/-- The entries of a Lua table. -/
abbrev Table := List (Key × Value)

/-- Is the value `nil`? -/
def Value.isNil : Value → Bool
  | .nil => true
  | _ => false

/-- The read `t[k]` (a missing key reads as `nil`). -/
def lua_get (tbl : Table) (k : Key) : Value :=
  match tbl.find? (fun e => e.1 == k) with
  | some e => e.2
  | none => Value.nil

/-- The assignment `t[k] = v`: assigning `nil` removes the entry, assigning to an existing key
overwrites its value, assigning to a new key adds an entry. -/
def lua_set (tbl : Table) (k : Key) (v : Value) : Table :=
  if v.isNil then tbl.filter (fun e => !(e.1 == k))
  else if tbl.any (fun e => e.1 == k) then
    tbl.map (fun e => if e.1 == k then (k, v) else e)
  else tbl ++ [(k, v)]

/-- The call `lua_seti(L, index, n)` with the value on top of the stack. -/
def lua_seti (tbl : Table) (n : Int) (v : Value) : Table := lua_set tbl (Key.idx n) v

/-- The call `lua_settable(L, index)` with a string key and a value on top of the
stack. -/
def lua_settable (tbl : Table) (key : List Nat) (v : Value) : Table :=
  lua_set tbl (Key.str key) v

/-- A `lua_Integer` from a machine word: the value modulo `2^64`, read as two's
complement. -/
def to_lua_Integer (u : Nat) : Int :=
  if u % 2 ^ 64 < 2 ^ 63 then (u % 2 ^ 64 : Nat) else ((u % 2 ^ 64 : Nat) : Int) - 2 ^ 64

/-! ## Errors -/

/-- How a call can fail: `luaL_error` with the message `Line <line> : <msg>`,
or a failed `assert`. -/
inductive Error
  | raised (line : Nat) (msg : String)
  | aborted (assertion : String)
deriving DecidableEq, Repr

/-- The function `invalid`: the line is one plus the number of `\n` before `LS->t.from`. -/
def invalid (LS : lex_state) (err : String) : Error :=
  Error.raised (1 + (LS.source.take LS.t.from_).count 10) err

/-! ## C library: `strtoull` and `strtod` -/

/-- The length of an optional sign (`+` or `-`) at the head of `s`. -/
def sign_len (s : List Nat) : Nat :=
  if s.head? = some 45 ∨ s.head? = some 43 then 1 else 0

/-- C `strtoull(s, &endptr, 10)`: the converted value and `endptr - s`.  Leading
white space and one sign are accepted; without digits nothing is converted; a
value that does not fit is `ULLONG_MAX`; a leading `-` negates modulo
`2^64`. -/
def strtoull (s : List Nat) : Nat × Nat :=
  let ws := (s.takeWhile isspace).length
  let s1 := s.drop ws
  let ds := (s1.drop (sign_len s1)).takeWhile isdigit
  if ds.isEmpty then (0, 0)
  else
    let v := ds.foldl (fun a d => a * 10 + (d - 48)) 0
    let r := if 2 ^ 64 ≤ v then 2 ^ 64 - 1
             else if s1.head? = some 45 then (2 ^ 64 - v) % 2 ^ 64 else v
    (r, ws + sign_len s1 + ds.length)

/-- The length of an exponent part `e[+-]ddd` (marker `m`, lower case) at the
head of `s`, or `0` when there is none. -/
def strtod_exponent (m : Nat) (s : List Nat) : Nat :=
  if s.head?.map tolower = some m then
    let ds := ((s.drop 1).drop (sign_len (s.drop 1))).takeWhile isdigit
    if ds.isEmpty then 0 else 1 + sign_len (s.drop 1) + ds.length
  else 0

/-- The length of the mantissa `ddd[.ddd]` at the head of `s` (digits chosen by
`dig`) together with the number of digits in it. -/
def strtod_mantissa (dig : Nat → Bool) (s : List Nat) : Nat × Nat :=
  let d1 := (s.takeWhile dig).length
  if (s.drop d1).head? = some 46 then
    let d2 := ((s.drop (d1 + 1)).takeWhile dig).length
    (d1 + 1 + d2, d1 + d2)
  else (d1, d1)

/-- Does `s` begin with the lower-case word `w`, letter case ignored? -/
def starts_with_ci : List Nat → List Nat → Bool
  | [], _ => true
  | _ :: _, [] => false
  | a :: w, c :: s => tolower c == a && starts_with_ci w s

/-- The number of bytes that C `strtod` converts after white space and sign:
`inf`, `infinity`, `nan`, `nan(chars)`, a hexadecimal or a decimal floating
constant. -/
def strtod_body (s : List Nat) : Nat :=
  if starts_with_ci (bytes "infinity") s then 8
  else if starts_with_ci (bytes "inf") s then 3
  else if starts_with_ci (bytes "nan") s then
    if (s.drop 3).head? = some 40 then
      let cs := (s.drop 4).takeWhile (fun c => isalnum c || c == 95)
      if ((s.drop 4).drop cs.length).head? = some 41 then 3 + 1 + cs.length + 1 else 3
    else 3
  else if starts_with_ci (bytes "0x") s ∧ 0 < (strtod_mantissa isxdigit (s.drop 2)).2 then
    2 + (strtod_mantissa isxdigit (s.drop 2)).1 +
      strtod_exponent 112 (s.drop (2 + (strtod_mantissa isxdigit (s.drop 2)).1))
  else if (strtod_mantissa isdigit s).2 = 0 then 0
  else (strtod_mantissa isdigit s).1 + strtod_exponent 101 (s.drop (strtod_mantissa isdigit s).1)

/-- C `strtod(s, &endptr)`: only `endptr - s` is modelled. -/
def strtod_len (s : List Nat) : Nat :=
  let ws := (s.takeWhile isspace).length
  let s1 := s.drop ws
  let n := strtod_body (s1.drop (sign_len s1))
  if n = 0 then 0 else ws + sign_len s1 + n

/-! ## Escape decoder -/

/-- The function `to_hex`. -/
def to_hex (c : Nat) : Int :=
  if 48 ≤ c ∧ c ≤ 57 then (c : Int) - 48
  else if 97 ≤ c ∧ c ≤ 102 then (c : Int) - 97 + 10
  else if 65 ≤ c ∧ c ≤ 70 then (c : Int) - 65 + 10
  else -1

/-- What `push_token_string` does: it pushes the decoded string and returns 0,
or returns 1, or one of its assertions fails. -/
inductive decode_result
  | pushed (buffer : List Nat)
  | failed
  | assert_failed (assertion : String)
deriving DecidableEq, Repr

/-- The `for` loop of `push_token_string` over the `sz` bytes at offset `ptr`
of `src`: `i` is the loop index, `buffer` the `n` bytes written so far.  The
first argument bounds the number of iterations (each one advances `i`). -/
def push_token_string_loop (src : List Nat) (ptr sz : Nat) :
    Nat → Nat → List Nat → decode_result
  | 0, _, buffer => decode_result.pushed buffer
  | fuel + 1, i, buffer =>
    if i < sz then
      if src.getD (ptr + i) 0 ≠ 92 then
        push_token_string_loop src ptr sz fuel (i + 1) (buffer ++ [src.getD (ptr + i) 0])
      else
        let i := i + 1
        if ¬ i < sz then decode_result.assert_failed "i < sz"
        else
          let c := src.getD (ptr + i) 0
          if 48 ≤ c ∧ c ≤ 57 then
            let dec := c - 48
            let c2 := src.getD (ptr + i + 1) 0
            let two : Bool := i + 1 < sz && (48 ≤ c2 && c2 ≤ 57)
            let dec := if two then dec * 10 + c2 - 48 else dec
            let i := if two then i + 1 else i
            let c3 := src.getD (ptr + i + 1) 0
            let three : Bool :=
              i + 1 < sz && (48 ≤ c3 && c3 ≤ 57) && (dec * 10 + c3 - 48 ≤ 255)
            let dec := if three then dec * 10 + c3 - 48 else dec
            let i := if three then i + 1 else i
            push_token_string_loop src ptr sz fuel (i + 1) (buffer ++ [dec])
          else if c = 120 ∨ c = 88 then
            if i + 2 ≥ sz then decode_result.failed
            else
              let hex := to_hex (src.getD (ptr + i + 1) 0)
              if hex < 0 then decode_result.failed
              else
                let hex2 := to_hex (src.getD (ptr + i + 2) 0)
                let hex := if hex2 > 0 then hex * 16 + hex2 else hex
                push_token_string_loop src ptr sz fuel (i + 3) (buffer ++ [hex.toNat])
          else if c = 110 then
            push_token_string_loop src ptr sz fuel (i + 1) (buffer ++ [10])
          else if c = 114 then
            push_token_string_loop src ptr sz fuel (i + 1) (buffer ++ [13])
          else if c = 116 then
            push_token_string_loop src ptr sz fuel (i + 1) (buffer ++ [9])
          else if c = 97 then
            push_token_string_loop src ptr sz fuel (i + 1) (buffer ++ [7])
          else if c = 98 then
            push_token_string_loop src ptr sz fuel (i + 1) (buffer ++ [8])
          else if c = 118 then
            push_token_string_loop src ptr sz fuel (i + 1) (buffer ++ [11])
          else if c = 39 then
            push_token_string_loop src ptr sz fuel (i + 1) (buffer ++ [39])
          else if c = 34 then
            push_token_string_loop src ptr sz fuel (i + 1) (buffer ++ [34])
          else decode_result.failed
    else decode_result.pushed buffer

/-- The function `push_token_string(L, ptr, sz)` on the `sz` bytes at offset `ptr` of
`src`. -/
def push_token_string (src : List Nat) (ptr sz : Nat) : decode_result :=
  if ¬ sz > 0 then decode_result.assert_failed "sz > 0"
  else push_token_string_loop src ptr sz sz 0 []

/-! ## Token coercion -/

/-- The `sz` bytes at offset `ptr` of the buffer (`lua_pushlstring(L, ptr, sz)`,
`memcmp(ptr, str, sz)`). -/
def span (src : List Nat) (ptr sz : Nat) : List Nat := (src.drop ptr).take sz

/-- The test `IS_KEYWORD(ptr, sz, str)`: `sizeof(str "") == sz+1 && memcmp(ptr, str, sz) == 0`. -/
def IS_KEYWORD (src : List Nat) (ptr sz : Nat) (str : String) : Bool :=
  (bytes str).length + 1 == sz + 1 && span src ptr sz == bytes str

/-- The loop `for (i=2;i<sz;i++)` of `push_token` over the bytes after `0x`:
`some v` when every byte is a hex digit (`hex` stays 1), `none` otherwise.  The
value is kept as a natural number; it is reduced to 64 bits when pushed. -/
def hex_integer : List Nat → Nat → Option Nat
  | [], v => some v
  | c :: cs, v =>
    if 48 ≤ c ∧ c ≤ 57 then hex_integer cs (v * 16 + (c - 48))
    else if 97 ≤ c ∧ c ≤ 102 then hex_integer cs (v * 16 + (c - 97 + 10))
    else if 65 ≤ c ∧ c ≤ 70 then hex_integer cs (v * 16 + (c - 65 + 10))
    else none

/-- The block of `push_token` guarded by `strchr("0123456789+-.", ptr[0])`:
`some v` when it pushes `v` and returns, `none` when it falls through. -/
def push_token_number (src : List Nat) (ptr sz : Nat) : Option Value :=
  if sz = 1 then
    let c := src.getD ptr 0
    if 48 ≤ c ∧ c ≤ 57 then some (Value.integer ((c : Int) - 48))
    else some (Value.string (span src ptr 1))
  else
    let hex : Option Nat :=
      if sz ≥ 3 ∧ src.getD ptr 0 = 48 ∧ (src.getD (ptr + 1) 0 = 120 ∨ src.getD (ptr + 1) 0 = 88)
      then hex_integer (span src (ptr + 2) (sz - 2)) 0
      else none
    match hex with
    | some v => some (Value.integer (to_lua_Integer v))
    | none =>
      if (strtoull (src.drop ptr)).2 = sz then
        some (Value.integer (to_lua_Integer (strtoull (src.drop ptr)).1))
      else if strtod_len (src.drop ptr) = sz then
        some (Value.number (span src ptr sz))
      else none

/-- The part of `push_token` after the two string cases: number, keyword or
raw string.  It cannot fail. -/
def push_token_plain (src : List Nat) (t : token) : Value :=
  let ptr := t.from_
  let sz := t.to_ - t.from_
  let num : Option Value :=
    if strchr (bytes "0123456789+-.") (src.getD ptr 0) then push_token_number src ptr sz
    else none
  match num with
  | some v => v
  | none =>
    if t.type = TOKEN_ATOM ∧
        (IS_KEYWORD src ptr sz "true" ∨ IS_KEYWORD src ptr sz "yes" ∨ IS_KEYWORD src ptr sz "on")
    then Value.boolean true
    else if t.type = TOKEN_ATOM ∧
        (IS_KEYWORD src ptr sz "false" ∨ IS_KEYWORD src ptr sz "no" ∨ IS_KEYWORD src ptr sz "off")
    then Value.boolean false
    else if t.type = TOKEN_ATOM ∧ IS_KEYWORD src ptr sz "nil" then Value.nil
    else Value.string (span src ptr sz)

/-- The function `push_token(L, LS, t)`: the pushed value, or the error it raises. -/
def push_token (LS : lex_state) (t : token) : Except Error Value :=
  if t.type = TOKEN_STRING then
    Except.ok (Value.string (span LS.source t.from_ (t.to_ - t.from_)))
  else if t.type = TOKEN_ESCAPESTRING then
    match push_token_string LS.source t.from_ (t.to_ - t.from_) with
    | decode_result.pushed buffer => Except.ok (Value.string buffer)
    | decode_result.failed => Except.error (invalid LS "Invalid quote string")
    | decode_result.assert_failed a => Except.error (Error.aborted a)
  else Except.ok (push_token_plain LS.source t)

/-- The function `push_key`: the raw bytes of the key token. -/
def push_key (LS : lex_state) (key : token) : List Nat :=
  span LS.source key.from_ (key.to_ - key.from_)

/-! ## Parser -/

/-- Equality of outcomes is decidable. -/
instance Except.decEq {ε α : Type} [DecidableEq ε] [DecidableEq α] : DecidableEq (Except ε α)
  | Except.ok a, Except.ok b =>
    if h : a = b then isTrue (congrArg Except.ok h) else isFalse (fun e => h (Except.ok.inj e))
  | Except.error a, Except.error b =>
    if h : a = b then isTrue (congrArg Except.error h)
    else isFalse (fun e => h (Except.error.inj e))
  | Except.ok _, Except.error _ => isFalse nofun
  | Except.error _, Except.ok _ => isFalse nofun


/-- The outcome of a call with fuel: `none` when the fuel ran out, otherwise
the result of the call or the error it raised. -/
abbrev Run (α : Type) := Option (Except Error α)

/-- The function `read_key(L, LS, key)`: the returned `int`, `*key` and the lexer state.
`*key` is written only when the first token is an Atom. -/
def read_key (LS : lex_state) (key : token) : Except Error (Int × token × lex_state) :=
  match next_token LS with
  | (false, LS1) => Except.error (invalid LS1 "Invalid token")
  | (true, LS1) =>
    if LS1.t.type ≠ TOKEN_ATOM then Except.ok (1, key, LS1)
    else
      match next_token LS1 with
      | (false, LS2) => Except.error (invalid LS2 "Invalid token")
      | (true, LS2) =>
        if LS2.t.type ≠ TOKEN_SYMBOL then Except.ok (2, LS1.t, LS2)
        else Except.ok (0, LS1.t, LS2)

mutual

/-- The function `push_value(L, index, LS, depth, close_bracket)`: `none` inside the result
is the return value 0 (closed, nothing pushed), `some v` is the return value 1
with `v` pushed. -/
def push_value : Nat → lex_state → Nat → Nat → Run (Option Value × lex_state)
  | 0, _, _, _ => none
  | fuel + 1, LS, depth, close_bracket =>
    if LS.t.type = TOKEN_EOF then
      if close_bracket = 0 then some (Except.ok (none, LS))
      else some (Except.error (invalid LS "Not closed"))
    else if LS.t.type = TOKEN_BRACKET then
      let b := LS.byte LS.t.from_
      if b = 41 ∨ b = 125 ∨ b = 93 then
        if b ≠ close_bracket then some (Except.error (invalid LS "Invalid closed bracket"))
        else some (Except.ok (none, LS))
      else if b = 123 ∨ b = 91 ∨ b = 40 then
        match parse_list fuel [] LS (depth + 1) with
        | none => none
        | some (Except.error e) => some (Except.error e)
        | some (Except.ok (tbl, LS1)) => some (Except.ok (some (Value.table tbl), LS1))
      else some (Except.error (invalid LS "Invalid bracket"))
    else if LS.t.type = TOKEN_LAYER then
      some (Except.error (invalid LS "Invalid layer symbol"))
    else
      match push_token LS LS.t with
      | Except.error e => some (Except.error e)
      | Except.ok v => some (Except.ok (some v, LS))
termination_by structural fuel => fuel

/-- The function `parse_flat`; the last argument is the local `tbl_idx`, 1 on entry. -/
def parse_flat : Nat → Table → lex_state → Nat → Int → Run (Table × lex_state)
  | 0, _, _, _, _ => none
  | fuel + 1, tbl, LS, depth, tbl_idx =>
    match next_token LS with
    | (false, LS1) => some (Except.error (invalid LS1 "Invalid token"))
    | (true, LS1) =>
      match push_value fuel LS1 depth 41 with
      | none => none
      | some (Except.error e) => some (Except.error e)
      | some (Except.ok (none, LS2)) => some (Except.ok (tbl, LS2))
      | some (Except.ok (some v, LS2)) =>
        parse_flat fuel (lua_seti tbl tbl_idx v) LS2 depth (tbl_idx + 1)
termination_by structural fuel => fuel

/-- The function `parse_seq(L, index, LS, depth, n, close_bracket)`. -/
def parse_seq : Nat → Table → lex_state → Nat → Int → Nat → Run (Table × lex_state)
  | 0, _, _, _, _, _ => none
  | fuel + 1, tbl, LS, depth, n, close_bracket =>
    match push_value fuel LS depth close_bracket with
    | none => none
    | some (Except.error e) => some (Except.error e)
    | some (Except.ok (none, LS1)) => some (Except.ok (tbl, LS1))
    | some (Except.ok (some v, LS1)) =>
      match next_token LS1 with
      | (false, LS2) => some (Except.error (invalid LS2 "Invalid token"))
      | (true, LS2) =>
        if LS2.t.type = TOKEN_SYMBOL then some (Except.error (invalid LS2 "Invalid symbol"))
        else parse_seq fuel (lua_seti tbl n v) LS2 depth (n + 1) close_bracket
termination_by structural fuel => fuel

/-- The loop `for (;;)` of the `pair` branch of `parse_map` (`[ ... ]`): `key`
is the key read last, the last argument is the local `tbl_idx`. -/
def parse_map_pairs : Nat → Table → lex_state → Nat → token → Int → Run (Table × lex_state)
  | 0, _, _, _, _, _ => none
  | fuel + 1, tbl, LS, depth, key, tbl_idx =>
    match next_token LS with
    | (false, LS1) => some (Except.error (invalid LS1 "Invalid token"))
    | (true, LS1) =>
      match push_value fuel LS1 depth 93 with
      | none => none
      | some (Except.error e) => some (Except.error e)
      | some (Except.ok (none, LS2)) => some (Except.error (invalid LS2 "No value"))
      | some (Except.ok (some v, LS2)) =>
        let entry := lua_seti (lua_seti [] 1 (Value.string (push_key LS key))) 2 v
        let tbl1 := lua_seti tbl tbl_idx (Value.table entry)
        match read_key LS2 key with
        | Except.error e => some (Except.error e)
        | Except.ok (n, key1, LS3) =>
          if n ≠ 0 then
            if LS3.byte LS3.t.from_ = 93 then some (Except.ok (tbl1, LS3))
            else some (Except.error (invalid LS3 "Need key"))
          else parse_map_pairs fuel tbl1 LS3 depth key1 (tbl_idx + 1)
termination_by structural fuel => fuel

/-- The loop `for (;;)` of the other branch of `parse_map` (`{ ... }`): `key`
is the key read last. -/
def parse_map_fields : Nat → Table → lex_state → Nat → token → Run (Table × lex_state)
  | 0, _, _, _, _ => none
  | fuel + 1, tbl, LS, depth, key =>
    match next_token LS with
    | (false, LS1) => some (Except.error (invalid LS1 "Invalid token"))
    | (true, LS1) =>
      match push_value fuel LS1 depth 125 with
      | none => none
      | some (Except.error e) => some (Except.error e)
      | some (Except.ok (none, LS2)) => some (Except.error (invalid LS2 "No value"))
      | some (Except.ok (some v, LS2)) =>
        let tbl1 := lua_settable tbl (push_key LS key) v
        match read_key LS2 key with
        | Except.error e => some (Except.error e)
        | Except.ok (n, key1, LS3) =>
          if n ≠ 0 then
            if LS3.byte LS3.t.from_ = 125 then some (Except.ok (tbl1, LS3))
            else some (Except.error (invalid LS3 "Need key"))
          else parse_map_fields fuel tbl1 LS3 depth key1
termination_by structural fuel => fuel

/-- The function `parse_map(L, index, LS, depth, pair)`.  The local `key` is not
initialised; it is read only after `read_key` has written it. -/
def parse_map : Nat → Table → lex_state → Nat → Bool → Run (Table × lex_state)
  | 0, _, _, _, _ => none
  | fuel + 1, tbl, LS, depth, pair =>
    match read_key LS LS.t with
    | Except.error e => some (Except.error e)
    | Except.ok (n, key, LS1) =>
      if n > 0 then
        if n = 2 then
          match push_token LS1 key with
          | Except.error e => some (Except.error e)
          | Except.ok v => parse_seq fuel (lua_seti tbl 1 v) LS1 depth n (if pair then 93 else 125)
        else parse_seq fuel tbl LS1 depth n (if pair then 93 else 125)
      else if pair then parse_map_pairs fuel tbl LS1 depth key 1
      else parse_map_fields fuel tbl LS1 depth key
termination_by structural fuel => fuel

/-- The function `parse_list(L, index, LS, depth)`. -/
def parse_list : Nat → Table → lex_state → Nat → Run (Table × lex_state)
  | 0, _, _, _ => none
  | fuel + 1, tbl, LS, depth =>
    if depth ≥ MAX_DEPTH then some (Except.error (invalid LS "Too depth of brackets"))
    else if LS.t.type ≠ TOKEN_BRACKET then
      some (Except.error (Error.aborted "LS->t.type == TOKEN_BRACKET"))
    else if LS.byte LS.t.from_ = 40 then parse_flat fuel tbl LS depth 1
    else if LS.byte LS.t.from_ = 91 then parse_map fuel tbl LS depth true
    else if LS.byte LS.t.from_ = 123 then parse_map fuel tbl LS depth false
    else some (Except.error (invalid LS "Invalid bracket"))
termination_by structural fuel => fuel

end

/-- The loop `for (;;)` of the `pair` branch of `parse_outer` (`kv_sep == ':'`). -/
def parse_outer_pairs :
    Nat → Table → lex_state → Nat → token → Nat → Int → Run (Table × lex_state)
  | 0, _, _, _, _, _, _ => none
  | fuel + 1, tbl, LS, depth, key, kv_sep, tbl_idx =>
    match next_token LS with
    | (false, LS1) => some (Except.error (invalid LS1 "Invalid token"))
    | (true, LS1) =>
      match push_value fuel LS1 depth 0 with
      | none => none
      | some (Except.error e) => some (Except.error e)
      | some (Except.ok (none, LS2)) => some (Except.error (invalid LS2 "No value"))
      | some (Except.ok (some v, LS2)) =>
        let entry := lua_seti (lua_seti [] 1 (Value.string (push_key LS key))) 2 v
        let tbl1 := lua_seti tbl tbl_idx (Value.table entry)
        match read_key LS2 key with
        | Except.error e => some (Except.error e)
        | Except.ok (n, key1, LS3) =>
          if n ≠ 0 then
            if LS3.t.type = TOKEN_EOF then some (Except.ok (tbl1, LS3))
            else some (Except.error (invalid LS3 "Need key"))
          else if LS3.byte LS3.t.from_ ≠ kv_sep then
            some (Except.error (invalid LS3 "Invalid separator"))
          else parse_outer_pairs fuel tbl1 LS3 depth key1 kv_sep (tbl_idx + 1)

/-- The loop `for (;;)` of the map branch of `parse_outer`. -/
def parse_outer_fields :
    Nat → Table → lex_state → Nat → token → Nat → Run (Table × lex_state)
  | 0, _, _, _, _, _ => none
  | fuel + 1, tbl, LS, depth, key, kv_sep =>
    match next_token LS with
    | (false, LS1) => some (Except.error (invalid LS1 "Invalid token"))
    | (true, LS1) =>
      match push_value fuel LS1 depth 0 with
      | none => none
      | some (Except.error e) => some (Except.error e)
      | some (Except.ok (none, LS2)) => some (Except.error (invalid LS2 "No value"))
      | some (Except.ok (some v, LS2)) =>
        let tbl1 := lua_settable tbl (push_key LS key) v
        match read_key LS2 key with
        | Except.error e => some (Except.error e)
        | Except.ok (n, key1, LS3) =>
          if n ≠ 0 then
            if LS3.t.type = TOKEN_EOF then some (Except.ok (tbl1, LS3))
            else some (Except.error (invalid LS3 "Need key"))
          else if LS3.byte LS3.t.from_ ≠ kv_sep then
            some (Except.error (invalid LS3 "Invalid separator"))
          else parse_outer_fields fuel tbl1 LS3 depth key1 kv_sep

/-- The function `parse_outer(L, LS, index)`; `depth` is the local set to 1. -/
def parse_outer (fuel : Nat) (tbl : Table) (LS : lex_state) : Run (Table × lex_state) :=
  let depth := 1
  match read_key LS LS.t with
  | Except.error e => some (Except.error e)
  | Except.ok (n, key, LS1) =>
    if n > 0 then
      if n = 2 then
        match push_token LS1 key with
        | Except.error e => some (Except.error e)
        | Except.ok v => parse_seq fuel (lua_seti tbl 1 v) LS1 depth n 0
      else parse_seq fuel tbl LS1 depth n 0
    else
      let kv_sep := LS1.byte LS1.t.from_
      if kv_sep = 58 then parse_outer_pairs fuel tbl LS1 depth key kv_sep 1
      else parse_outer_fields fuel tbl LS1 depth key kv_sep

/-- The function `lparse`: parse the string `src` into a fresh table and return the table.
`LS.t` is not initialised by `lparse`; its initial content is the argument
`t0`. -/
def lparse (fuel : Nat) (t0 : token) (src : List Nat) : Run Value :=
  match parse_outer fuel [] { source := src, position := 0, t := t0 } with
  | none => none
  | some (Except.error e) => some (Except.error e)
  | some (Except.ok (tbl, _)) => some (Except.ok (Value.table tbl))

/-! ## Documents and the values they denote

The definitions of this section are not part of `datalist.c`: they describe
the inputs and the expected results that the theorems below speak about. -/

/-- The text of a scalar written as one Atom: a non-empty run of bytes none of
which ends an Atom, which does not begin with `*` and does not begin a comment
(`--`). -/
def atom_text (v : List Nat) : Bool :=
  !v.isEmpty && v.all (fun x => !strchr atom_separator x) && v.head? != some 42 &&
    !(v.take 2 == [45, 45])

/-- The value that token coercion gives to an Atom whose text is `v`. -/
def scalar_value (v : List Nat) : Value :=
  push_token_plain v { type := TOKEN_ATOM, from_ := 0, to_ := v.length }

/-- A Lua sequence: the values stored at the indices `i`, `i+1`, ... (a `nil`
value leaves its index unset). -/
def sequence_from : Int → List Value → Table
  | _, [] => []
  | i, v :: vs => (if v.isNil then [] else [(Key.idx i, v)]) ++ sequence_from (i + 1) vs

/-- The parser returns: with enough fuel `lparse` yields the outcome `r`,
whatever the initial content of the token. -/
def Returns (src : List Nat) (r : Except Error Value) : Prop :=
  ∃ fuel, ∀ t0, lparse fuel t0 src = some r

/-- The parser never returns: no amount of fuel yields an outcome. -/
def Diverges (src : List Nat) : Prop :=
  ∀ fuel t0, lparse fuel t0 src = none

/-- The rest of a flat list after an element: `,v` for each further element,
then `)`. -/
def flat_rest : List (List Nat) → List Nat
  | [] => [41]
  | v :: vs => 44 :: v ++ flat_rest vs

/-- The document `(v1,v2,...,vn)`. -/
def flat_document : List (List Nat) → List Nat
  | [] => [40, 41]
  | v :: vs => 40 :: v ++ flat_rest vs

/-- One `key sep value` entry of a keyed container: the text of the key Atom,
the separator byte and the text of the value Atom. -/
structure entry where
  key : List Nat
  sep : Nat
  value : List Nat
deriving DecidableEq, Repr

/-- A well-formed entry: Atom key, separator `:` or `=`, Atom value. -/
def entry_ok (e : entry) : Bool :=
  atom_text e.key && (e.sep == 58 || e.sep == 61) && atom_text e.value

/-- The rest of a keyed container after an entry: ` key sep value` for each
further entry, then the closing bracket. -/
def keyed_rest (close : Nat) : List entry → List Nat
  | [] => [close]
  | e :: es => 32 :: e.key ++ e.sep :: e.value ++ keyed_rest close es

/-- The document `<open>k1 s1 v1 k2 s2 v2 ... <close>` (no blank around the
separators, one blank between entries). -/
def keyed_document (open_bracket close : Nat) : List entry → List Nat
  | [] => [open_bracket, close]
  | e :: es => open_bracket :: e.key ++ e.sep :: e.value ++ keyed_rest close es

/-- The table `{key, value}` of one pair (a `nil` value leaves index 2 unset). -/
def pair_entry (k : List Nat) (v : Value) : Table :=
  (Key.idx 1, Value.string k) :: (if v.isNil then [] else [(Key.idx 2, v)])

/-- The pair list of the entries, stored at the indices `i`, `i+1`, ... -/
def pair_list_from : Int → List entry → Table
  | _, [] => []
  | i, e :: es =>
    (Key.idx i, Value.table (pair_entry e.key (scalar_value e.value))) ::
      pair_list_from (i + 1) es

/-- The map of the entries, assigned in source order on top of `tbl`. -/
def map_store : Table → List entry → Table
  | tbl, [] => tbl
  | tbl, e :: es => map_store (lua_settable tbl e.key (scalar_value e.value)) es

/-- The value of the last entry whose key is `key`, `nil` when there is
none. -/
def last_value (key : List Nat) (es : List entry) : Value :=
  match es.reverse.find? (fun e => e.key == key) with
  | some e => scalar_value e.value
  | none => Value.nil

/-- The root-level text `k1 s1 v1 k2 s2 v2 ... ` (one blank after each
entry). -/
def root_entries : List entry → List Nat
  | [] => []
  | e :: es => e.key ++ e.sep :: e.value ++ 32 :: root_entries es

/-- The text `v1,v2,...,vn,`: every element is followed by a comma. -/
def comma_list : List (List Nat) → List Nat
  | [] => []
  | v :: vs => v ++ 44 :: comma_list vs

/-- The document `<open>v1,v2,...,vn,` that ends before the container is
closed. -/
def unclosed_document (open_bracket : Nat) (vs : List (List Nat)) : List Nat :=
  open_bracket :: comma_list vs

/-- An opening bracket: `(`, `[` or `{`. -/
def opening (b : Nat) : Bool := b == 40 || b == 91 || b == 123

/-- The closing bracket that matches an opening bracket. -/
def close_of (b : Nat) : Nat := if b = 40 then 41 else if b = 91 then 93 else 125

/-- The document made of the opening brackets `bs` followed by the matching
closing brackets. -/
def nest_document (bs : List Nat) : List Nat := bs ++ (bs.reverse.map close_of)

/-- The table built for `n` nested empty containers: each one holds the next
at index 1, the innermost is empty. -/
def nested_table : Nat → Table
  | 0 => []
  | n + 1 => [(Key.idx 1, Value.table (nested_table n))]

/-- The document `<open>k1 s1 v1 ... kn sn vn k s` that ends after the
separator of a key, before its value. -/
def unclosed_keyed_document (open_bracket : Nat) (es : List entry) (k : List Nat) (s : Nat) :
    List Nat :=
  open_bracket :: (root_entries es ++ k ++ [s])

/-- The value of a hexadecimal digit: `0`..`9`, `a`..`f`, `A`..`F`. -/
def hex_digit_value (c : Nat) : Nat :=
  if c ≤ 57 then c - 48 else if 97 ≤ c then c - 97 + 10 else c - 65 + 10

/-- The characters that end an Atom according to the lexer's contract: space,
tab, CR, LF, comma, the six brackets, `:`, `=`, `'`, `"` and `#`. -/
def atom_stop : List Nat :=
  [32, 9, 13, 10, 44, 40, 41, 91, 93, 123, 125, 58, 61, 39, 34, 35]

/-- The number that a digit string denotes in positional notation: a digit
with `k` digits after it counts `base ^ k` times its value. -/
def positional_value (base : Nat) (digit : Nat → Nat) : List Nat → Nat
  | [] => 0
  | d :: ds => digit d * base ^ ds.length + positional_value base digit ds

/-! ## Theorems -/

/-! ### Lists -/

theorem getD_of_drop {src : List Nat} {p x : Nat} {r : List Nat}
    (h : src.drop p = x :: r) : src.getD p 0 = x := by
  have h1 : (src.drop p).getD 0 0 = x := by rw [h]; rfl
  simpa [List.getD_eq_getElem?_getD, List.getElem?_drop] using h1

theorem lt_of_drop {src : List Nat} {p x : Nat} {r : List Nat}
    (h : src.drop p = x :: r) : p < src.length := by
  by_contra hc
  rw [List.drop_eq_nil_of_le (by omega)] at h
  cases h

theorem drop_succ_of_drop {src : List Nat} {p x : Nat} {r : List Nat}
    (h : src.drop p = x :: r) : src.drop (p + 1) = r := by
  have : src.drop (p + 1) = (src.drop p).drop 1 := by rw [List.drop_drop]
  rw [this, h]; rfl

theorem drop_add_of_drop {src : List Nat} {p : Nat} {v r : List Nat}
    (h : src.drop p = v ++ r) : src.drop (p + v.length) = r := by
  have : src.drop (p + v.length) = (src.drop p).drop v.length := by
    rw [List.drop_drop]
  rw [this, h, List.drop_left]

/-! ### Lexer -/

theorem next_token_loop_position (n : Nat) (src : List Nat) (q q' : Nat) (t : token) (ptr : Nat) :
    next_token_loop n ⟨src, q, t⟩ ptr = next_token_loop n ⟨src, q', t⟩ ptr := by
  cases n with
  | zero => rfl
  | succ n => simp only [next_token_loop, lex_state.sz]

theorem next_token_eof (src : List Nat) (p : Nat) (t : token) (h : src.length ≤ p) :
    next_token ⟨src, p, t⟩ = (true, ⟨src, src.length, { t with type := TOKEN_EOF }⟩) := by
  simp only [next_token, next_token_loop, lex_state.sz]
  rw [if_neg (by omega)]

theorem next_token_skip {src : List Nat} {p c : Nat} {r : List Nat} (t : token)
    (h : src.drop p = c :: r) (hc : c = 32 ∨ c = 9 ∨ c = 13 ∨ c = 10 ∨ c = 44) :
    next_token ⟨src, p, t⟩ = next_token ⟨src, p + 1, t⟩ := by
  have hlt := lt_of_drop h
  have hb := getD_of_drop h
  have e : src.length - p + 1 = (src.length - (p + 1) + 1) + 1 := by omega
  simp only [next_token, lex_state.sz]
  rw [e, next_token_loop]
  simp only [lex_state.sz, lex_state.byte, hb]
  rw [if_pos hlt, if_neg (by rintro ⟨h1, _⟩; omega), if_pos hc]
  exact next_token_loop_position _ _ _ _ _ _

theorem next_token_bracket {src : List Nat} {p c : Nat} {r : List Nat} (t : token)
    (h : src.drop p = c :: r)
    (hc : c = 123 ∨ c = 125 ∨ c = 91 ∨ c = 93 ∨ c = 40 ∨ c = 41) :
    next_token ⟨src, p, t⟩ =
      (true, ⟨src, p + 1, ⟨TOKEN_BRACKET, p, p + 1⟩⟩) := by
  have hlt := lt_of_drop h
  have hb := getD_of_drop h
  simp only [next_token, lex_state.sz, next_token_loop, lex_state.byte, hb]
  rw [if_pos hlt, if_neg (by rintro ⟨h1, _⟩; omega), if_neg (by omega), if_pos hc]

theorem next_token_symbol {src : List Nat} {p c : Nat} {r : List Nat} (t : token)
    (h : src.drop p = c :: r) (hc : c = 58 ∨ c = 61) :
    next_token ⟨src, p, t⟩ =
      (true, ⟨src, p + 1, ⟨TOKEN_SYMBOL, p, p + 1⟩⟩) := by
  have hlt := lt_of_drop h
  have hb := getD_of_drop h
  simp only [next_token, lex_state.sz, next_token_loop, lex_state.byte, hb]
  rw [if_pos hlt, if_neg (by rintro ⟨h1, _⟩; omega), if_neg (by omega), if_neg (by omega),
    if_pos hc]

theorem atom_text_ne_nil {v : List Nat} (h : atom_text v = true) : v ≠ [] := by
  intro hv; subst hv; simp [atom_text] at h

theorem atom_text_not_sep {v : List Nat} (h : atom_text v = true) :
    ∀ x ∈ v, strchr atom_separator x = false := by
  simp only [atom_text, Bool.and_eq_true, List.all_eq_true, Bool.not_eq_true'] at h
  exact h.1.1.2

theorem strchr_sep_iff (c : Nat) :
    strchr atom_separator c = true ↔
      c = 0 ∨ c = 32 ∨ c = 9 ∨ c = 13 ∨ c = 10 ∨ c = 44 ∨ c = 35 ∨ c = 123 ∨ c = 125 ∨
      c = 91 ∨ c = 93 ∨ c = 40 ∨ c = 41 ∨ c = 58 ∨ c = 61 ∨ c = 34 ∨ c = 39 := by
  simp [strchr, atom_separator]

theorem parse_atom_loop_spec (c : Nat) (r : List Nat) (hc : strchr atom_separator c = true) :
    ∀ (v : List Nat) (LS : lex_state) (p n : Nat),
      LS.source.drop p = v ++ c :: r → (∀ x ∈ v, strchr atom_separator x = false) →
      v.length < n →
      parse_atom_loop LS n p =
        { LS with t := { LS.t with to_ := p + v.length }, position := p + v.length } := by
  intro v
  induction v with
  | nil =>
    intro LS p n h _ hn
    obtain ⟨m, rfl⟩ : ∃ m, n = m + 1 := ⟨n - 1, by simp at hn; omega⟩
    have hb : LS.byte p = c := getD_of_drop h
    simp [parse_atom_loop, hb, hc]
  | cons x v ih =>
    intro LS p n h hv hn
    obtain ⟨m, rfl⟩ : ∃ m, n = m + 1 := ⟨n - 1, by simp at hn; omega⟩
    have hb : LS.byte p = x := getD_of_drop h
    have hx : strchr atom_separator x = false := hv x (by simp)
    rw [parse_atom_loop, hb, hx]
    simp only [Bool.false_eq_true, if_false]
    rw [ih LS (p + 1) m (drop_succ_of_drop h) (fun y hy => hv y (by simp [hy]))
      (by simp at hn; omega)]
    simp only [List.length_cons]
    have : p + 1 + v.length = p + (v.length + 1) := by omega
    rw [this]

theorem next_token_atom {src : List Nat} {p c : Nat} {v r : List Nat} (t : token)
    (h : src.drop p = v ++ c :: r) (hv : atom_text v = true)
    (hc : strchr atom_separator c = true) :
    next_token ⟨src, p, t⟩ =
      (true, ⟨src, p + v.length, ⟨TOKEN_ATOM, p, p + v.length⟩⟩) := by
  obtain ⟨x, w, rfl⟩ : ∃ x w, v = x :: w := by
    cases v with
    | nil => exact absurd rfl (atom_text_ne_nil hv)
    | cons x w => exact ⟨x, w, rfl⟩
  have hns := atom_text_not_sep hv
  have hx : strchr atom_separator x = false := hns x (by simp)
  have hx' := (strchr_sep_iff x).not.mp (by simp [hx])
  have hlt := lt_of_drop (show src.drop p = x :: (w ++ c :: r) from h)
  have hb := getD_of_drop (show src.drop p = x :: (w ++ c :: r) from h)
  have h42 : x ≠ 42 := by
    intro h42; subst h42; simp [atom_text] at hv
  have hcom : ¬ (x = 45 ∧ src.getD (p + 1) 0 = 45) := by
    rintro ⟨h1, h2⟩
    subst h1
    cases w with
    | nil =>
      have := getD_of_drop (drop_succ_of_drop (show src.drop p = 45 :: ([] ++ c :: r) from h))
      rw [this] at h2
      subst h2
      simp [strchr, atom_separator] at hc
    | cons y w =>
      have := getD_of_drop
        (drop_succ_of_drop (show src.drop p = 45 :: ((y :: w) ++ c :: r) from h))
      rw [this] at h2
      subst h2
      simp [atom_text] at hv
  simp only [next_token, lex_state.sz, next_token_loop, lex_state.byte, hb]
  rw [if_pos hlt, if_neg hcom, if_neg (by omega), if_neg (by omega), if_neg (by omega),
    if_neg (by omega), if_neg (by omega)]
  have hlen : (x :: w).length < src.length - p := by
    have := congrArg List.length h
    simp at this
    simp
    omega
  rw [parse_atom]
  simp only [lex_state.sz]
  rw [parse_atom_loop_spec c r hc (x :: w) _ p _ h hns hlen]

/-! ### Token coercion does not look past the separator -/

theorem takeWhile_append_stop (f : Nat → Bool) (c : Nat) (r : List Nat) (hc : f c = false) :
    ∀ v : List Nat, (v ++ c :: r).takeWhile f = v.takeWhile f := by
  intro v
  induction v with
  | nil => simp [List.takeWhile, hc]
  | cons x v ih =>
    simp only [List.cons_append, List.takeWhile_cons]
    split
    · simp [ih]
    · rfl

theorem takeWhile_length_le (f : Nat → Bool) (v : List Nat) :
    (v.takeWhile f).length ≤ v.length := by
  induction v with
  | nil => simp
  | cons x v ih =>
    simp only [List.takeWhile_cons]
    split
    · simp; omega
    · simp

theorem drop_append_le (v r : List Nat) (n : Nat) (h : n ≤ v.length) :
    (v ++ r).drop n = v.drop n ++ r := by
  rw [List.drop_append_eq_append_drop]
  have : n - v.length = 0 := by omega
  rw [this]; rfl

theorem head?_append_cons (v r : List Nat) (c : Nat) :
    (v ++ c :: r).head? = if v = [] then some c else v.head? := by
  cases v <;> simp

theorem sign_len_le (v : List Nat) : sign_len v ≤ v.length := by
  cases v with
  | nil => simp [sign_len]
  | cons x v => simp only [sign_len]; split <;> simp

theorem sign_len_append (v r : List Nat) (c : Nat) (h45 : c ≠ 45) (h43 : c ≠ 43) :
    sign_len (v ++ c :: r) = sign_len v := by
  cases v with
  | nil => simp [sign_len, h45, h43]
  | cons x v => simp [sign_len]

theorem starts_with_ci_append (c : Nat) (r : List Nat) :
    ∀ (w v : List Nat), (∀ a ∈ w, tolower c ≠ a) →
      starts_with_ci w (v ++ c :: r) = starts_with_ci w v := by
  intro w
  induction w with
  | nil => intro v _; cases v <;> rfl
  | cons a w ih =>
    intro v hw
    cases v with
    | nil =>
      have := hw a (by simp)
      simp [starts_with_ci, this]
    | cons y v =>
      have := ih v (fun b hb => hw b (by simp [hb]))
      show (tolower y == a && starts_with_ci w (v ++ c :: r)) = _
      rw [this]
      rfl

theorem starts_with_ci_length :
    ∀ (w v : List Nat), starts_with_ci w v = true → w.length ≤ v.length := by
  intro w
  induction w with
  | nil => intro v _; simp
  | cons a w ih =>
    intro v h
    cases v with
    | nil => simp [starts_with_ci] at h
    | cons y v =>
      simp only [starts_with_ci, Bool.and_eq_true] at h
      have := ih v h.2
      simp; omega

theorem strtod_mantissa_le (dig : Nat → Bool) (v : List Nat) :
    (strtod_mantissa dig v).1 ≤ v.length := by
  have hle := takeWhile_length_le dig v
  simp only [strtod_mantissa]
  split
  · rename_i heq
    have h2 := takeWhile_length_le dig (v.drop ((v.takeWhile dig).length + 1))
    have h3 : (v.takeWhile dig).length < v.length := by
      by_contra hc
      rw [List.drop_eq_nil_of_le (by omega)] at heq
      simp at heq
    simp only [List.length_drop] at h2
    simp only
    omega
  · exact hle

theorem strtod_mantissa_append (dig : Nat → Bool) (c : Nat) (r v : List Nat)
    (hc : dig c = false) (h46 : c ≠ 46) :
    strtod_mantissa dig (v ++ c :: r) = strtod_mantissa dig v := by
  have hle := takeWhile_length_le dig v
  simp only [strtod_mantissa, takeWhile_append_stop dig c r hc]
  rw [drop_append_le _ _ _ hle, head?_append_cons]
  by_cases hd : v.drop (v.takeWhile dig).length = []
  · simp [hd, h46]
  · have h3 : (v.takeWhile dig).length + 1 ≤ v.length := by
      by_contra hcon
      exact hd (List.drop_eq_nil_of_le (by omega))
    rw [if_neg hd, drop_append_le _ _ _ h3, takeWhile_append_stop dig c r hc]

theorem strtod_exponent_append (m c : Nat) (r v : List Nat)
    (hm : tolower c ≠ m) (hd : isdigit c = false) (h45 : c ≠ 45) (h43 : c ≠ 43) :
    strtod_exponent m (v ++ c :: r) = strtod_exponent m v := by
  cases v with
  | nil => simp [strtod_exponent, hm]
  | cons y v =>
    simp only [strtod_exponent, List.cons_append, List.head?_cons, List.drop_succ_cons,
      List.drop_zero, sign_len_append v r c h45 h43]
    rw [drop_append_le _ _ _ (sign_len_le v), takeWhile_append_stop isdigit c r hd]

/-- A byte that ends an Atom and is not `(`. -/
theorem stop_byte_cases {c : Nat} (h : strchr atom_separator c = true) (h40 : c ≠ 40) :
    c = 0 ∨ c = 32 ∨ c = 9 ∨ c = 13 ∨ c = 10 ∨ c = 44 ∨ c = 35 ∨ c = 123 ∨ c = 125 ∨
      c = 91 ∨ c = 93 ∨ c = 41 ∨ c = 58 ∨ c = 61 ∨ c = 34 ∨ c = 39 := by
  have := (strchr_sep_iff c).mp h
  omega

theorem strtod_body_append (c : Nat) (r v : List Nat)
    (hc : strchr atom_separator c = true) (h40 : c ≠ 40) (hv : ∀ x ∈ v, x ≠ 40) :
    strtod_body (v ++ c :: r) = strtod_body v := by
  have hcs := stop_byte_cases hc h40
  have hlow : tolower c = c := by
    simp only [tolower]; split
    · omega
    · rfl
  have hdig : isdigit c = false := by
    simp only [isdigit, Bool.and_eq_false_iff, decide_eq_false_iff_not]; omega
  have hxdig : isxdigit c = false := by
    simp only [isxdigit, Bool.or_eq_false_iff, Bool.and_eq_false_iff, decide_eq_false_iff_not]
    omega
  have hw : ∀ w : String, (∀ a ∈ bytes w, isalnum a = true) →
      ∀ u, starts_with_ci (bytes w) (u ++ c :: r) = starts_with_ci (bytes w) u := by
    intro w hw u
    apply starts_with_ci_append
    intro a ha
    rw [hlow]
    have := hw a ha
    rintro rfl
    simp only [isalnum, Bool.or_eq_true, Bool.and_eq_true, decide_eq_true_eq] at this
    omega
  simp only [strtod_body]
  rw [hw "infinity" (by decide), hw "inf" (by decide), hw "nan" (by decide), hw "0x" (by decide)]
  by_cases h1 : starts_with_ci (bytes "infinity") v = true
  · simp [h1]
  rw [if_neg h1, if_neg h1]
  by_cases h2 : starts_with_ci (bytes "inf") v = true
  · simp [h2]
  rw [if_neg h2, if_neg h2]
  by_cases h3 : starts_with_ci (bytes "nan") v = true
  · rw [if_pos h3, if_pos h3]
    have hl : 3 ≤ v.length := starts_with_ci_length _ _ h3
    rw [drop_append_le _ _ _ hl, head?_append_cons]
    have e1 : ¬ (if v.drop 3 = [] then some c else (v.drop 3).head?) = some 40 := by
      split
      · simp [h40]
      · intro h
        have : (40 : Nat) ∈ v.drop 3 := by
          cases hd : v.drop 3 with
          | nil => simp [hd] at h
          | cons y u => simp [hd] at h; simp [h]
        exact hv 40 (List.mem_of_mem_drop this) rfl
    have e2 : ¬ (v.drop 3).head? = some 40 := by
      intro h
      have : (40 : Nat) ∈ v.drop 3 := by
        cases hd : v.drop 3 with
        | nil => simp [hd] at h
        | cons y u => simp [hd] at h; simp [h]
      exact hv 40 (List.mem_of_mem_drop this) rfl
    rw [if_neg e1, if_neg e2]
  rw [if_neg h3, if_neg h3]
  by_cases h4 : starts_with_ci (bytes "0x") v = true
  · have hl : 2 ≤ v.length := starts_with_ci_length _ _ h4
    have hm := strtod_mantissa_le isxdigit (v.drop 2)
    simp only [List.length_drop] at hm
    rw [drop_append_le _ _ _ hl, strtod_mantissa_append isxdigit c r _ hxdig (by omega),
      drop_append_le _ _ _ (by omega),
      strtod_exponent_append 112 c r _ (by omega) hdig (by omega) (by omega)]
    rw [strtod_mantissa_append isdigit c r _ hdig (by omega),
      drop_append_le _ _ _ (strtod_mantissa_le isdigit v),
      strtod_exponent_append 101 c r _ (by omega) hdig (by omega) (by omega)]
  · have hm := strtod_mantissa_le isdigit v
    simp only [h4, Bool.false_eq_true, false_and, if_false]
    rw [strtod_mantissa_append isdigit c r _ hdig (by omega),
      drop_append_le _ _ _ hm,
      strtod_exponent_append 101 c r _ (by omega) hdig (by omega) (by omega)]

theorem strtoull_append (x c : Nat) (w r : List Nat) (hx : isspace x = false)
    (hc : strchr atom_separator c = true) :
    strtoull (x :: w ++ c :: r) = strtoull (x :: w) := by
  have hcs := (strchr_sep_iff c).mp hc
  have hdig : isdigit c = false := by
    simp only [isdigit, Bool.and_eq_false_iff, decide_eq_false_iff_not]; omega
  have e1 : (x :: w ++ c :: r).takeWhile isspace = [] := by simp [List.takeWhile, hx]
  have e2 : (x :: w).takeWhile isspace = [] := by simp [List.takeWhile, hx]
  simp only [strtoull, e1, e2, List.length_nil, List.drop_zero]
  rw [sign_len_append (x :: w) r c (by omega) (by omega),
    drop_append_le _ _ _ (sign_len_le (x :: w)), takeWhile_append_stop isdigit c r hdig]
  simp

theorem strtod_len_append (x c : Nat) (w r : List Nat) (hx : isspace x = false)
    (hc : strchr atom_separator c = true) (h40 : c ≠ 40) (hv : ∀ y ∈ x :: w, y ≠ 40) :
    strtod_len (x :: w ++ c :: r) = strtod_len (x :: w) := by
  have hcs := (strchr_sep_iff c).mp hc
  have e1 : (x :: w ++ c :: r).takeWhile isspace = [] := by simp [List.takeWhile, hx]
  have e2 : (x :: w).takeWhile isspace = [] := by simp [List.takeWhile, hx]
  simp only [strtod_len, e1, e2, List.length_nil, List.drop_zero]
  rw [sign_len_append (x :: w) r c (by omega) (by omega),
    drop_append_le _ _ _ (sign_len_le (x :: w)),
    strtod_body_append c r _ hc h40 (fun y hy => hv y (List.mem_of_mem_drop hy))]

theorem getD_drop_add (src : List Nat) (p i : Nat) :
    (src.drop p).getD i 0 = src.getD (p + i) 0 := by
  simp [List.getD_eq_getElem?_getD, List.getElem?_drop]

theorem span_drop (src : List Nat) (p q n : Nat) :
    span (src.drop p) q n = span src (p + q) n := by
  simp only [span, List.drop_drop]

theorem push_token_number_shift (src : List Nat) (p n : Nat) :
    push_token_number src p n = push_token_number (src.drop p) 0 n := by
  simp only [push_token_number, getD_drop_add, span_drop, Nat.add_zero, List.drop_drop,
    Nat.zero_add]

theorem push_token_plain_shift (src : List Nat) (ty : token_type) (p n : Nat) :
    push_token_plain src ⟨ty, p, p + n⟩ = push_token_plain (src.drop p) ⟨ty, 0, n⟩ := by
  simp only [push_token_plain, IS_KEYWORD, getD_drop_add, span_drop, Nat.add_zero,
    Nat.add_sub_cancel_left, Nat.sub_zero, ← push_token_number_shift]

theorem span_append_self (v r : List Nat) : span (v ++ r) 0 v.length = v := by
  simp [span]

theorem span_self (v : List Nat) : span v 0 v.length = v := by
  simp [span]

theorem push_token_number_local (x c : Nat) (w r : List Nat) (hx : isspace x = false)
    (hc : strchr atom_separator c = true) (h40 : c ≠ 40) (hv : ∀ y ∈ x :: w, y ≠ 40) :
    push_token_number (x :: w ++ c :: r) 0 (x :: w).length =
      push_token_number (x :: w) 0 (x :: w).length := by
  have hs1 : span (x :: w ++ c :: r) 0 (x :: w).length = x :: w := span_append_self _ _
  have hs2 : span (x :: w) 0 (x :: w).length = x :: w := span_self _
  simp only [push_token_number, List.drop_zero, strtoull_append x c w r hx hc,
    strtod_len_append x c w r hx hc h40 hv, hs1, hs2]
  by_cases h1 : (x :: w).length = 1
  · rw [if_pos h1, if_pos h1]
    simp only [List.cons_append, List.getD_cons_zero, span, List.drop_zero, List.take_succ_cons,
      List.take_zero]
  · rw [if_neg h1, if_neg h1]
    by_cases h3 : (x :: w).length ≥ 3
    · obtain ⟨y, z, u, rfl⟩ : ∃ y z u, w = y :: z :: u := by
        match w, h3 with
        | y :: z :: u, _ => exact ⟨y, z, u, rfl⟩
      have hs3 : span (x :: (y :: z :: u) ++ c :: r) (0 + 2) ((x :: y :: z :: u).length - 2) =
          span (x :: y :: z :: u) (0 + 2) ((x :: y :: z :: u).length - 2) := by
        simp [span]
      rw [hs3]
      rfl
    · have e : ∀ (P : Prop), ((x :: w).length ≥ 3 ∧ P) = False := by
        intro P; simp only [eq_iff_iff, iff_false, not_and]; intro h; exact absurd h h3
      simp only [e, if_false]

theorem push_token_plain_local (ty : token_type) (c : Nat) (v r : List Nat)
    (hv : atom_text v = true) (hc : strchr atom_separator c = true) (h40 : c ≠ 40) :
    push_token_plain (v ++ c :: r) ⟨ty, 0, v.length⟩ = push_token_plain v ⟨ty, 0, v.length⟩ := by
  obtain ⟨x, w, rfl⟩ : ∃ x w, v = x :: w := by
    cases v with
    | nil => exact absurd rfl (atom_text_ne_nil hv)
    | cons x w => exact ⟨x, w, rfl⟩
  have hns := atom_text_not_sep hv
  have hne : ∀ y ∈ x :: w, y ≠ 40 := by
    intro y hy h
    have := hns y hy
    subst h
    simp [strchr, atom_separator] at this
  have hs1 : span (x :: w ++ c :: r) 0 (x :: w).length = x :: w := span_append_self _ _
  have hs2 : span (x :: w) 0 (x :: w).length = x :: w := span_self _
  simp only [push_token_plain, IS_KEYWORD, Nat.sub_zero, hs1, hs2]
  simp only [List.cons_append, List.getD_cons_zero]
  by_cases hnum : strchr (bytes "0123456789+-.") x = true
  · have hx : isspace x = false := by
      have hx0 : x ≠ 0 := by
        intro h0
        have := hns x (by simp)
        subst h0
        simp [strchr] at this
      have : x = 48 ∨ x = 49 ∨ x = 50 ∨ x = 51 ∨ x = 52 ∨ x = 53 ∨ x = 54 ∨ x = 55 ∨ x = 56 ∨
          x = 57 ∨ x = 43 ∨ x = 45 ∨ x = 46 := by
        have h := hnum
        simp only [strchr, bytes, Bool.or_eq_true, beq_iff_eq] at h
        rcases h with h | h
        · exact absurd h hx0
        · simpa using h
      simp only [isspace, Bool.or_eq_false_iff, Bool.and_eq_false_iff, decide_eq_false_iff_not,
        beq_eq_false_iff_ne]
      omega
    have := push_token_number_local x c w r hx hc h40 hne
    simp only [List.cons_append] at this
    rw [if_pos hnum, if_pos hnum, this]
  · rw [if_neg hnum, if_neg hnum]

/-- The value pushed for an Atom token in its context is the value of its
text alone. -/
theorem push_token_plain_atom {src : List Nat} {p c : Nat} {v r : List Nat}
    (h : src.drop p = v ++ c :: r) (hv : atom_text v = true)
    (hc : strchr atom_separator c = true) (h40 : c ≠ 40) :
    push_token_plain src ⟨TOKEN_ATOM, p, p + v.length⟩ = scalar_value v := by
  rw [push_token_plain_shift, h, push_token_plain_local _ c v r hv hc h40]
  rfl

/-! ### Tables -/

theorem lua_seti_fresh (tbl : Table) (i : Int) (v : Value)
    (h : ∀ e ∈ tbl, e.1 ≠ Key.idx i) :
    lua_seti tbl i v = tbl ++ (if v.isNil then [] else [(Key.idx i, v)]) := by
  simp only [lua_seti, lua_set]
  by_cases hv : v.isNil = true
  · rw [if_pos hv, if_pos hv, List.append_nil]
    apply List.filter_eq_self.mpr
    intro e he
    simpa using h e he
  · rw [if_neg hv, if_neg hv]
    have : tbl.any (fun e => e.1 == Key.idx i) = false := by
      rw [List.any_eq_false]
      intro e he
      simpa using h e he
    simp [this]

/-! ### Values -/

theorem push_value_atom (fuel : Nat) (src : List Nat) (q p p' d c : Nat) :
    push_value (fuel + 1) ⟨src, q, ⟨TOKEN_ATOM, p, p'⟩⟩ d c =
      some (Except.ok (some (push_token_plain src ⟨TOKEN_ATOM, p, p'⟩),
        ⟨src, q, ⟨TOKEN_ATOM, p, p'⟩⟩)) := by
  simp [push_value, push_token]

theorem push_value_close (fuel : Nat) {src : List Nat} {p c : Nat} {r : List Nat} (q p' d : Nat)
    (h : src.drop p = c :: r) (hc : c = 41 ∨ c = 125 ∨ c = 93) :
    push_value (fuel + 1) ⟨src, q, ⟨TOKEN_BRACKET, p, p'⟩⟩ d c =
      some (Except.ok (none, ⟨src, q, ⟨TOKEN_BRACKET, p, p'⟩⟩)) := by
  have hb := getD_of_drop h
  rw [push_value]
  simp only [lex_state.byte, hb]
  rcases hc with rfl | rfl | rfl <;> simp

theorem push_value_eof_root (fuel : Nat) (src : List Nat) (q p p' d : Nat) :
    push_value (fuel + 1) ⟨src, q, ⟨TOKEN_EOF, p, p'⟩⟩ d 0 =
      some (Except.ok (none, ⟨src, q, ⟨TOKEN_EOF, p, p'⟩⟩)) := by
  simp [push_value]

theorem push_value_eof_open (fuel : Nat) (src : List Nat) (q p p' d c : Nat) (hc : c ≠ 0) :
    push_value (fuel + 1) ⟨src, q, ⟨TOKEN_EOF, p, p'⟩⟩ d c =
      some (Except.error (invalid ⟨src, q, ⟨TOKEN_EOF, p, p'⟩⟩ "Not closed")) := by
  simp [push_value, hc]

theorem flat_rest_head (vs : List (List Nat)) :
    ∃ c r, flat_rest vs = c :: r ∧ strchr atom_separator c = true ∧ c ≠ 40 := by
  cases vs with
  | nil => exact ⟨41, [], rfl, by decide, by decide⟩
  | cons v vs => exact ⟨44, _, rfl, by decide, by decide⟩

/-- The loop of `parse_flat` on `,v1,v2,...,vn)`. -/
theorem parse_flat_rest (src : List Nat) (d : Nat) :
    ∀ (vs : List (List Nat)) (p : Nat) (t : token) (tbl : Table) (i : Int) (fuel : Nat)
      (post : List Nat),
      src.drop p = flat_rest vs ++ post → (∀ v ∈ vs, atom_text v = true) →
      (∀ e ∈ tbl, ∀ j, i ≤ j → e.1 ≠ Key.idx j) → vs.length + 2 ≤ fuel →
      parse_flat fuel tbl ⟨src, p, t⟩ d i =
        some (Except.ok (tbl ++ sequence_from i (vs.map scalar_value),
          ⟨src, p + (flat_rest vs).length,
            ⟨TOKEN_BRACKET, p + (flat_rest vs).length - 1, p + (flat_rest vs).length⟩⟩)) := by
  intro vs
  induction vs with
  | nil =>
    intro p t tbl i fuel post h _ _ hf
    obtain ⟨f, rfl⟩ : ∃ f, fuel = f + 2 := ⟨fuel - 2, by simp at hf; omega⟩
    have h' : src.drop p = 41 :: post := h
    rw [parse_flat, next_token_bracket t h' (by simp)]
    simp only
    rw [push_value_close f _ _ _ h' (by simp)]
    simp [sequence_from, flat_rest]
  | cons v vs ih =>
    intro p t tbl i fuel post h hv hfresh hf
    obtain ⟨f, rfl⟩ : ∃ f, fuel = f + 2 := ⟨fuel - 2, by simp at hf; omega⟩
    have h' : src.drop p = 44 :: (v ++ flat_rest vs ++ post) := by
      rw [h]; simp [flat_rest]
    obtain ⟨c, r, hr, hc, h40⟩ := flat_rest_head vs
    have h1 : src.drop (p + 1) = v ++ c :: (r ++ post) := by
      rw [drop_succ_of_drop h', hr]; simp
    have hva := hv v (by simp)
    rw [parse_flat, next_token_skip t h' (by simp), next_token_atom t h1 hva hc]
    simp only
    rw [push_value_atom, push_token_plain_atom h1 hva hc h40]
    simp only
    have h2 : src.drop (p + 1 + v.length) = flat_rest vs ++ post := by
      rw [drop_add_of_drop h1, hr]; simp
    rw [lua_seti_fresh tbl i _ (fun e he => hfresh e he i (le_refl _))]
    rw [ih (p + 1 + v.length) _ _ (i + 1) (f + 1) post h2
      (fun w hw => hv w (by simp [hw])) _ (by simp at hf ⊢; omega)]
    · simp only [sequence_from, List.map_cons, List.append_assoc, flat_rest, List.length_cons,
        List.length_append]
      rw [show p + 1 + v.length + (flat_rest vs).length =
        p + (v.length + 1 + (flat_rest vs).length) by omega]
    · intro e he j hj
      rcases List.mem_append.mp he with he | he
      · exact hfresh e he j (by omega)
      · split at he
        · simp at he
        · simp only [List.mem_singleton] at he
          subst he
          simp only [ne_eq, Key.idx.injEq]
          omega

theorem flat_rest_length_pos (vs : List (List Nat)) : 0 < (flat_rest vs).length := by
  cases vs <;> simp [flat_rest]

/-- The function `parse_flat` on the content of `(v1,...,vn)` after the opening bracket. -/
theorem parse_flat_document (src : List Nat) (d : Nat) (vs : List (List Nat)) (t : token)
    (fuel : Nat) (h : src = flat_document vs) (hv : ∀ v ∈ vs, atom_text v = true)
    (hf : vs.length + 2 ≤ fuel) :
    parse_flat fuel [] ⟨src, 1, t⟩ d 1 =
      some (Except.ok (sequence_from 1 (vs.map scalar_value),
        ⟨src, src.length, ⟨TOKEN_BRACKET, src.length - 1, src.length⟩⟩)) := by
  cases vs with
  | nil =>
    subst h
    have := parse_flat_rest (flat_document []) d [] 1 t [] 1 fuel [] rfl (by simp) (by simp) hf
    rw [this]; rfl
  | cons v vs =>
    obtain ⟨f, rfl⟩ : ∃ f, fuel = f + 2 := ⟨fuel - 2, by simp at hf; omega⟩
    obtain ⟨c, r, hr, hc, h40⟩ := flat_rest_head vs
    have h1 : src.drop 1 = v ++ c :: r := by
      rw [h, ← hr]; rfl
    have hva := hv v (by simp)
    have h2 : src.drop (1 + v.length) = flat_rest vs ++ [] := by
      rw [drop_add_of_drop h1, hr]; simp
    rw [parse_flat, next_token_atom t h1 hva hc]
    simp only
    rw [push_value_atom, push_token_plain_atom h1 hva hc h40]
    simp only
    rw [lua_seti_fresh [] 1 _ (by simp)]
    rw [parse_flat_rest src d vs (1 + v.length) _ _ (1 + 1) (f + 1) [] h2
      (fun w hw => hv w (by simp [hw])) _ (by simp at hf ⊢; omega)]
    · have hl : src.length = 1 + v.length + (flat_rest vs).length := by
        rw [h]; simp [flat_document]; omega
      simp only [sequence_from, List.map_cons, List.nil_append, hl]
    · intro e he j hj
      split at he
      · simp at he
      · simp only [List.nil_append, List.mem_singleton] at he
        subst he
        simp only [ne_eq, Key.idx.injEq]
        omega

theorem push_value_open (fuel : Nat) {src : List Nat} {p b : Nat} {r : List Nat}
    (q p' d c : Nat) (h : src.drop p = b :: r) (hb : b = 123 ∨ b = 91 ∨ b = 40)
    {T : Table} {LS1 : lex_state}
    (hp : parse_list fuel [] ⟨src, q, ⟨TOKEN_BRACKET, p, p'⟩⟩ (d + 1) =
      some (Except.ok (T, LS1))) :
    push_value (fuel + 1) ⟨src, q, ⟨TOKEN_BRACKET, p, p'⟩⟩ d c =
      some (Except.ok (some (Value.table T), LS1)) := by
  have hb' := getD_of_drop h
  rw [push_value]
  simp only [lex_state.byte, hb', hp]
  rcases hb with rfl | rfl | rfl <;> simp

theorem push_value_open_error (fuel : Nat) {src : List Nat} {p b : Nat} {r : List Nat}
    (q p' d c : Nat) (h : src.drop p = b :: r) (hb : b = 123 ∨ b = 91 ∨ b = 40)
    {e : Error}
    (hp : parse_list fuel [] ⟨src, q, ⟨TOKEN_BRACKET, p, p'⟩⟩ (d + 1) =
      some (Except.error e)) :
    push_value (fuel + 1) ⟨src, q, ⟨TOKEN_BRACKET, p, p'⟩⟩ d c = some (Except.error e) := by
  have hb' := getD_of_drop h
  rw [push_value]
  simp only [lex_state.byte, hb', hp]
  rcases hb with rfl | rfl | rfl <;> simp

theorem parse_list_open (fuel : Nat) {src : List Nat} {p b : Nat} {r : List Nat}
    (tbl : Table) (q p' d : Nat) (h : src.drop p = b :: r) (hd : d < MAX_DEPTH) :
    parse_list (fuel + 1) tbl ⟨src, q, ⟨TOKEN_BRACKET, p, p'⟩⟩ d =
      if b = 40 then parse_flat fuel tbl ⟨src, q, ⟨TOKEN_BRACKET, p, p'⟩⟩ d 1
      else if b = 91 then parse_map fuel tbl ⟨src, q, ⟨TOKEN_BRACKET, p, p'⟩⟩ d true
      else if b = 123 then parse_map fuel tbl ⟨src, q, ⟨TOKEN_BRACKET, p, p'⟩⟩ d false
      else some (Except.error (invalid ⟨src, q, ⟨TOKEN_BRACKET, p, p'⟩⟩ "Invalid bracket")) := by
  have hb' := getD_of_drop h
  rw [parse_list]
  simp only [lex_state.byte, hb']
  rw [if_neg (by omega), if_neg (by simp)]

theorem parse_list_too_deep (fuel : Nat) (tbl : Table) (LS : lex_state) (d : Nat)
    (hd : MAX_DEPTH ≤ d) :
    parse_list (fuel + 1) tbl LS d = some (Except.error (invalid LS "Too depth of brackets")) := by
  rw [parse_list, if_pos hd]

/-- A document that consists of one bracketed container: when the container
is parsed to the table `T` and the cursor is left at the end of the input, the
root is the one-element list that holds `T`. -/
theorem lparse_single_container (fuel : Nat) (t0 t1 : token) {src : List Nat} {b : Nat}
    {r : List Nat} (T : Table) (h : src = b :: r) (hb : b = 123 ∨ b = 91 ∨ b = 40)
    (hp : parse_list fuel [] ⟨src, 1, ⟨TOKEN_BRACKET, 0, 1⟩⟩ 2 =
      some (Except.ok (T, ⟨src, src.length, t1⟩))) :
    lparse (fuel + 2) t0 src =
      some (Except.ok (Value.table [(Key.idx 1, Value.table T)])) := by
  have h0 : src.drop 0 = b :: r := h
  rw [lparse, parse_outer, read_key, next_token_bracket t0 h0 (by omega)]
  simp only [ne_eq, reduceCtorEq, not_false_eq_true, if_true, Nat.zero_add]
  rw [if_pos (by decide), if_neg (by decide), parse_seq, push_value_open fuel _ _ _ _ h0 hb hp]
  simp only
  rw [next_token_eof _ _ _ (le_refl _)]
  simp only [reduceCtorEq, if_false]
  obtain ⟨f, rfl⟩ : ∃ f, fuel = f + 1 := by
    cases fuel with
    | zero => simp [parse_list] at hp
    | succ f => exact ⟨f, rfl⟩
  rw [parse_seq, push_value_eof_root]
  rfl

theorem lparse_flat_document (vs : List (List Nat)) (hv : ∀ v ∈ vs, atom_text v = true)
    (fuel : Nat) (hf : vs.length + 5 ≤ fuel) (t0 : token) :
    lparse fuel t0 (flat_document vs) =
      some (Except.ok (Value.table
        [(Key.idx 1, Value.table (sequence_from 1 (vs.map scalar_value)))])) := by
  obtain ⟨f, rfl⟩ : ∃ f, fuel = f + 1 + 2 := ⟨fuel - 3, by omega⟩
  obtain ⟨r, hr⟩ : ∃ r, flat_document vs = 40 :: r := by
    cases vs <;> exact ⟨_, rfl⟩
  have h0 : (flat_document vs).drop 0 = 40 :: r := hr
  apply lparse_single_container (f + 1) t0 _ _ hr (by simp)
  rw [parse_list_open f [] 1 1 2 h0 (by decide), if_pos rfl]
  exact parse_flat_document _ _ vs _ _ rfl hv (by omega)

/-! ### More fuel does not change an outcome -/

set_option linter.unusedTactic false

set_option linter.unreachableTactic false

theorem fuel_succ (fuel : Nat) :
    (∀ LS d c r, push_value fuel LS d c = some r → push_value (fuel + 1) LS d c = some r) ∧
    (∀ tbl LS d i r, parse_flat fuel tbl LS d i = some r →
        parse_flat (fuel + 1) tbl LS d i = some r) ∧
    (∀ tbl LS d n c r, parse_seq fuel tbl LS d n c = some r →
        parse_seq (fuel + 1) tbl LS d n c = some r) ∧
    (∀ tbl LS d k i r, parse_map_pairs fuel tbl LS d k i = some r →
        parse_map_pairs (fuel + 1) tbl LS d k i = some r) ∧
    (∀ tbl LS d k r, parse_map_fields fuel tbl LS d k = some r →
        parse_map_fields (fuel + 1) tbl LS d k = some r) ∧
    (∀ tbl LS d p r, parse_map fuel tbl LS d p = some r →
        parse_map (fuel + 1) tbl LS d p = some r) ∧
    (∀ tbl LS d r, parse_list fuel tbl LS d = some r →
        parse_list (fuel + 1) tbl LS d = some r) := by
  induction fuel with
  | zero =>
    refine ⟨?_, ?_, ?_, ?_, ?_, ?_, ?_⟩ <;> intros <;>
      simp_all [push_value, parse_flat, parse_seq, parse_map_pairs, parse_map_fields, parse_map,
        parse_list]
  | succ fuel ih =>
    obtain ⟨ih1, ih2, ih3, ih4, ih5, ih6, ih7⟩ := ih
    refine ⟨?_, ?_, ?_, ?_, ?_, ?_, ?_⟩
    · intro LS d c r h
      rw [push_value] at h ⊢
      dsimp only at h ⊢
      repeat' (split at h)
      all_goals first | (cases h; done) | (simp [*]; done) | (subst_vars; simp [*]; done) | (simp_all; done)
    · intro tbl LS d i r h
      rw [parse_flat] at h ⊢
      repeat' (split at h)
      all_goals first | (cases h; done) | (simp [*]; done) | (subst_vars; simp [*]; done) | (simp_all; done)
    · intro tbl LS d i c r h
      rw [parse_seq] at h ⊢
      repeat' (split at h)
      all_goals first | (cases h; done) | (simp [*]; done) | (subst_vars; simp [*]; done) | (simp_all; done)
    · intro tbl LS d k i r h
      rw [parse_map_pairs] at h ⊢
      dsimp only at h ⊢
      repeat' (split at h)
      all_goals first | (cases h; done) | (simp [*]; done) | (subst_vars; simp [*]; done) | (simp_all; done)
    · intro tbl LS d k r h
      rw [parse_map_fields] at h ⊢
      dsimp only at h ⊢
      repeat' (split at h)
      all_goals first | (cases h; done) | (simp [*]; done) | (subst_vars; simp [*]; done) | (simp_all; done)
    · intro tbl LS d p r h
      rw [parse_map] at h ⊢
      repeat' (split at h)
      all_goals first | (cases h; done) | (simp [*]; done) | (subst_vars; simp [*]; done) | (simp_all; done)
    · intro tbl LS d r h
      rw [parse_list] at h ⊢
      repeat' (split at h)
      all_goals first | (cases h; done) | (simp [*]; done) | (subst_vars; simp [*]; done) | (simp_all; done)

theorem push_value_fuel_succ {fuel : Nat} {LS : lex_state} {d c : Nat}
    {r : Except Error (Option Value × lex_state)} (h : push_value fuel LS d c = some r) :
    push_value (fuel + 1) LS d c = some r := (fuel_succ fuel).1 LS d c r h

theorem parse_seq_fuel_succ {fuel : Nat} {tbl : Table} {LS : lex_state} {d : Nat} {n : Int}
    {c : Nat} {r : Except Error (Table × lex_state)} (h : parse_seq fuel tbl LS d n c = some r) :
    parse_seq (fuel + 1) tbl LS d n c = some r := (fuel_succ fuel).2.2.1 tbl LS d n c r h

theorem parse_outer_pairs_fuel_succ : ∀ (fuel : Nat) (tbl : Table) (LS : lex_state) (d : Nat)
    (k : token) (s : Nat) (i : Int) (r : Except Error (Table × lex_state)),
    parse_outer_pairs fuel tbl LS d k s i = some r →
    parse_outer_pairs (fuel + 1) tbl LS d k s i = some r := by
  intro fuel
  induction fuel with
  | zero => intros; simp_all [parse_outer_pairs]
  | succ fuel ih =>
    intro tbl LS d k s i r h
    have ih1 := @push_value_fuel_succ fuel
    rw [parse_outer_pairs] at h ⊢
    dsimp only at h ⊢
    repeat' (split at h)
    all_goals first | (cases h; done) | (simp [*]; done) | (subst_vars; simp [*]; done) | (simp_all; done)

theorem parse_outer_fields_fuel_succ : ∀ (fuel : Nat) (tbl : Table) (LS : lex_state) (d : Nat)
    (k : token) (s : Nat) (r : Except Error (Table × lex_state)),
    parse_outer_fields fuel tbl LS d k s = some r →
    parse_outer_fields (fuel + 1) tbl LS d k s = some r := by
  intro fuel
  induction fuel with
  | zero => intros; simp_all [parse_outer_fields]
  | succ fuel ih =>
    intro tbl LS d k s r h
    have ih1 := @push_value_fuel_succ fuel
    rw [parse_outer_fields] at h ⊢
    dsimp only at h ⊢
    repeat' (split at h)
    all_goals first | (cases h; done) | (simp [*]; done) | (subst_vars; simp [*]; done) | (simp_all; done)

theorem parse_outer_fuel_succ (fuel : Nat) (tbl : Table) (LS : lex_state)
    (r : Except Error (Table × lex_state))
    (h : parse_outer fuel tbl LS = some r) : parse_outer (fuel + 1) tbl LS = some r := by
  have h1 := @parse_seq_fuel_succ fuel
  have h2 := parse_outer_pairs_fuel_succ fuel
  have h3 := parse_outer_fields_fuel_succ fuel
  rw [parse_outer] at h ⊢
  dsimp only at h ⊢
  repeat' (split at h)
  all_goals first | (cases h; done) | (simp [*]; done) | (subst_vars; simp [*]; done) | (simp_all; done)

theorem lparse_fuel_succ (fuel : Nat) (t0 : token) (src : List Nat) (r : Except Error Value)
    (h : lparse fuel t0 src = some r) : lparse (fuel + 1) t0 src = some r := by
  rw [lparse] at h ⊢
  cases hp : parse_outer fuel [] ⟨src, 0, t0⟩ with
  | none => rw [hp] at h; cases h
  | some x => rw [parse_outer_fuel_succ _ _ _ _ hp]; rw [hp] at h; exact h

theorem lparse_fuel_le {fuel fuel' : Nat} (hle : fuel ≤ fuel') (t0 : token) (src : List Nat)
    (r : Except Error Value) (h : lparse fuel t0 src = some r) : lparse fuel' t0 src = some r := by
  induction hle with
  | refl => exact h
  | step _ ih => exact lparse_fuel_succ _ _ _ _ ih

/-- The parser has at most one outcome. -/
theorem Returns_unique {src : List Nat} {r r' : Except Error Value}
    (h : Returns src r) (h' : Returns src r') : r = r' := by
  obtain ⟨f, hf⟩ := h
  obtain ⟨f', hf'⟩ := h'
  have a := lparse_fuel_le (Nat.le_max_left f f') ⟨TOKEN_EOF, 0, 0⟩ src r (hf _)
  have b := lparse_fuel_le (Nat.le_max_right f f') ⟨TOKEN_EOF, 0, 0⟩ src r' (hf' _)
  rw [a] at b
  exact Option.some.inj b

theorem not_Returns_of_Diverges {src : List Nat} (h : Diverges src) (r : Except Error Value) :
    ¬ Returns src r := by
  rintro ⟨f, hf⟩
  have := hf ⟨TOKEN_EOF, 0, 0⟩
  rw [h f _] at this
  cases this

/-- The initial content of the token matters only through the first
`next_token`. -/
theorem lparse_congr_token (fuel : Nat) (src : List Nat) (t0 t1 : token)
    (h : next_token ⟨src, 0, t0⟩ = next_token ⟨src, 0, t1⟩) :
    lparse fuel t0 src = lparse fuel t1 src := by
  simp only [lparse, parse_outer, read_key, h]
  rcases next_token ⟨src, 0, t1⟩ with ⟨b, LS1⟩
  cases b
  · rfl
  · by_cases ha : LS1.t.type = TOKEN_ATOM
    · simp only [ha, ne_eq, not_true_eq_false, if_false]
    · simp only [ha, ne_eq, not_false_eq_true, if_true]
      rfl

theorem result_eq {X : Table} {src : List Nat} {a b : Nat} (h : a = b) :
    (some (Except.ok (X, (⟨src, a, ⟨TOKEN_BRACKET, a - 1, a⟩⟩ : lex_state))) :
        Run (Table × lex_state)) =
      some (Except.ok (X, ⟨src, b, ⟨TOKEN_BRACKET, b - 1, b⟩⟩)) := by
  rw [h]

theorem span_of_drop {src : List Nat} {p : Nat} {k r : List Nat} (h : src.drop p = k ++ r) :
    span src p (p + k.length - p) = k := by
  simp [span, h]

theorem read_key_entry {src : List Nat} {p s : Nat} {k r : List Nat} (t key : token)
    (h : src.drop p = k ++ s :: r) (hk : atom_text k = true) (hs : s = 58 ∨ s = 61) :
    read_key ⟨src, p, t⟩ key =
      Except.ok (0, ⟨TOKEN_ATOM, p, p + k.length⟩,
        ⟨src, p + k.length + 1, ⟨TOKEN_SYMBOL, p + k.length, p + k.length + 1⟩⟩) := by
  have hsep : strchr atom_separator s = true := by rcases hs with rfl | rfl <;> decide
  rw [read_key, next_token_atom t h hk hsep]
  simp only [ne_eq, not_true_eq_false, if_false]
  rw [next_token_symbol _ (drop_add_of_drop h) hs]
  simp

theorem read_key_space_entry {src : List Nat} {p s : Nat} {k r : List Nat} (t key : token)
    (h : src.drop p = 32 :: (k ++ s :: r)) (hk : atom_text k = true) (hs : s = 58 ∨ s = 61) :
    read_key ⟨src, p, t⟩ key =
      Except.ok (0, ⟨TOKEN_ATOM, p + 1, p + 1 + k.length⟩,
        ⟨src, p + 1 + k.length + 1,
          ⟨TOKEN_SYMBOL, p + 1 + k.length, p + 1 + k.length + 1⟩⟩) := by
  rw [← read_key_entry t key (drop_succ_of_drop h) hk hs]
  rw [read_key, read_key, next_token_skip t h (by simp)]

theorem read_key_bracket {src : List Nat} {p c : Nat} {r : List Nat} (t key : token)
    (h : src.drop p = c :: r)
    (hc : c = 123 ∨ c = 125 ∨ c = 91 ∨ c = 93 ∨ c = 40 ∨ c = 41) :
    read_key ⟨src, p, t⟩ key =
      Except.ok (1, key, ⟨src, p + 1, ⟨TOKEN_BRACKET, p, p + 1⟩⟩) := by
  rw [read_key, next_token_bracket t h hc]
  simp

theorem keyed_rest_head (close : Nat) (hclose : close = 93 ∨ close = 125) (es : List entry) :
    ∃ c r, keyed_rest close es = c :: r ∧ strchr atom_separator c = true ∧ c ≠ 40 := by
  cases es with
  | nil => exact ⟨close, [], rfl, by rcases hclose with rfl | rfl <;> decide, by omega⟩
  | cons v vs => exact ⟨32, _, rfl, by decide, by decide⟩

theorem pair_entry_eq (LS : lex_state) (key : token) (k : List Nat) (v : Value)
    (hk : span LS.source key.from_ (key.to_ - key.from_) = k) :
    lua_seti (lua_seti [] 1 (Value.string (push_key LS key))) 2 v = pair_entry k v := by
  rw [push_key, hk, lua_seti_fresh [] 1 _ (by simp)]
  simp only [Value.isNil, Bool.false_eq_true, if_false, List.nil_append]
  rw [lua_seti_fresh _ 2 _ (by simp)]
  rfl

/-- The loop of `parse_map` for `[ ... ]`, entered after the separator of the
entry with key `k` and value `v`. -/
theorem parse_map_pairs_entries (src : List Nat) (d : Nat) :
    ∀ (es : List entry) (p : Nat) (t key : token) (k v : List Nat) (tbl : Table) (i : Int)
      (fuel : Nat) (post : List Nat),
      src.drop p = v ++ keyed_rest 93 es ++ post →
      span src key.from_ (key.to_ - key.from_) = k →
      atom_text v = true → (∀ e ∈ es, entry_ok e = true) →
      (∀ e ∈ tbl, ∀ j, i ≤ j → e.1 ≠ Key.idx j) → es.length + 2 ≤ fuel →
      parse_map_pairs fuel tbl ⟨src, p, t⟩ d key i =
        some (Except.ok
          (tbl ++ (Key.idx i, Value.table (pair_entry k (scalar_value v))) ::
              pair_list_from (i + 1) es,
            ⟨src, p + v.length + (keyed_rest 93 es).length,
              ⟨TOKEN_BRACKET, p + v.length + (keyed_rest 93 es).length - 1,
                p + v.length + (keyed_rest 93 es).length⟩⟩)) := by
  intro es
  induction es with
  | nil =>
    intro p t key k v tbl i fuel post h hk hv _ hfresh hf
    obtain ⟨f, rfl⟩ : ∃ f, fuel = f + 2 := ⟨fuel - 2, by simp at hf; omega⟩
    have h1 : src.drop p = v ++ 93 :: post := by rw [h]; simp [keyed_rest]
    have h2 : src.drop (p + v.length) = 93 :: post := drop_add_of_drop h1
    rw [parse_map_pairs, next_token_atom t h1 hv (by decide)]
    simp only
    rw [push_value_atom, push_token_plain_atom h1 hv (by decide) (by decide)]
    simp only
    rw [read_key_bracket _ _ h2 (by simp), pair_entry_eq _ key k _ hk]
    simp only [ne_eq, one_ne_zero, not_false_eq_true, if_true, lex_state.byte, getD_of_drop h2]
    rw [lua_seti_fresh tbl i _ (fun e he => hfresh e he i (le_refl _))]
    simp [pair_list_from, keyed_rest, Value.isNil]
  | cons e es ih =>
    intro p t key k v tbl i fuel post h hk hv hes hfresh hf
    obtain ⟨f, rfl⟩ : ∃ f, fuel = f + 2 := ⟨fuel - 2, by simp at hf; omega⟩
    have heo := hes e (by simp)
    simp only [entry_ok, Bool.and_eq_true, Bool.or_eq_true, beq_iff_eq] at heo
    obtain ⟨⟨hek, hsep⟩, hev⟩ := heo
    have h1 : src.drop p = v ++ 32 :: (e.key ++ e.sep :: (e.value ++ keyed_rest 93 es ++ post)) := by
      rw [h]; simp [keyed_rest]
    have h2 := drop_add_of_drop h1
    have h3 : src.drop (p + v.length + 1) =
        e.key ++ e.sep :: (e.value ++ keyed_rest 93 es ++ post) := drop_succ_of_drop h2
    have h4 : src.drop (p + v.length + 1 + e.key.length + 1) =
        e.value ++ keyed_rest 93 es ++ post := drop_succ_of_drop (drop_add_of_drop h3)
    rw [parse_map_pairs, next_token_atom t h1 hv (by decide)]
    simp only
    rw [push_value_atom, push_token_plain_atom h1 hv (by decide) (by decide)]
    simp only
    rw [read_key_space_entry _ _ h2 hek hsep, pair_entry_eq _ key k _ hk]
    simp only [ne_eq, not_true_eq_false, if_false]
    rw [lua_seti_fresh tbl i _ (fun e he => hfresh e he i (le_refl _))]
    rw [ih _ _ _ e.key e.value _ (i + 1) (f + 1) post h4 (span_of_drop h3) hev
      (fun x hx => hes x (by simp [hx])) _ (by simp at hf ⊢; omega)]
    · simp only [pair_list_from, Value.isNil, Bool.false_eq_true, if_false,
        List.append_assoc, List.cons_append, List.nil_append]
      exact result_eq (by simp only [keyed_rest, List.length_cons, List.length_append]; omega)
    · intro x hx j hj
      rcases List.mem_append.mp hx with hx | hx
      · exact hfresh x hx j (by omega)
      · simp only [Value.isNil, Bool.false_eq_true, if_false, List.mem_singleton] at hx
        subst hx
        simp only [ne_eq, Key.idx.injEq]
        omega

/-- The loop of `parse_map` for `{ ... }`, entered after the separator of the
entry with key `k` and value `v`. -/
theorem parse_map_fields_entries (src : List Nat) (d : Nat) :
    ∀ (es : List entry) (p : Nat) (t key : token) (k v : List Nat) (tbl : Table)
      (fuel : Nat) (post : List Nat),
      src.drop p = v ++ keyed_rest 125 es ++ post →
      span src key.from_ (key.to_ - key.from_) = k →
      atom_text v = true → (∀ e ∈ es, entry_ok e = true) → es.length + 2 ≤ fuel →
      parse_map_fields fuel tbl ⟨src, p, t⟩ d key =
        some (Except.ok
          (map_store (lua_settable tbl k (scalar_value v)) es,
            ⟨src, p + v.length + (keyed_rest 125 es).length,
              ⟨TOKEN_BRACKET, p + v.length + (keyed_rest 125 es).length - 1,
                p + v.length + (keyed_rest 125 es).length⟩⟩)) := by
  intro es
  induction es with
  | nil =>
    intro p t key k v tbl fuel post h hk hv _ hf
    obtain ⟨f, rfl⟩ : ∃ f, fuel = f + 2 := ⟨fuel - 2, by simp at hf; omega⟩
    have h1 : src.drop p = v ++ 125 :: post := by rw [h]; simp [keyed_rest]
    have h2 : src.drop (p + v.length) = 125 :: post := drop_add_of_drop h1
    rw [parse_map_fields, next_token_atom t h1 hv (by decide)]
    simp only
    rw [push_value_atom, push_token_plain_atom h1 hv (by decide) (by decide)]
    simp only
    rw [read_key_bracket _ _ h2 (by simp), push_key, hk]
    simp only [ne_eq, one_ne_zero, not_false_eq_true, if_true, lex_state.byte, getD_of_drop h2]
    simp [map_store, keyed_rest]
  | cons e es ih =>
    intro p t key k v tbl fuel post h hk hv hes hf
    obtain ⟨f, rfl⟩ : ∃ f, fuel = f + 2 := ⟨fuel - 2, by simp at hf; omega⟩
    have heo := hes e (by simp)
    simp only [entry_ok, Bool.and_eq_true, Bool.or_eq_true, beq_iff_eq] at heo
    obtain ⟨⟨hek, hsep⟩, hev⟩ := heo
    have h1 : src.drop p =
        v ++ 32 :: (e.key ++ e.sep :: (e.value ++ keyed_rest 125 es ++ post)) := by
      rw [h]; simp [keyed_rest]
    have h2 := drop_add_of_drop h1
    have h3 : src.drop (p + v.length + 1) =
        e.key ++ e.sep :: (e.value ++ keyed_rest 125 es ++ post) := drop_succ_of_drop h2
    have h4 : src.drop (p + v.length + 1 + e.key.length + 1) =
        e.value ++ keyed_rest 125 es ++ post := drop_succ_of_drop (drop_add_of_drop h3)
    rw [parse_map_fields, next_token_atom t h1 hv (by decide)]
    simp only
    rw [push_value_atom, push_token_plain_atom h1 hv (by decide) (by decide)]
    simp only
    rw [read_key_space_entry _ _ h2 hek hsep, push_key, hk]
    simp only [ne_eq, not_true_eq_false, if_false]
    rw [ih _ _ _ e.key e.value _ (f + 1) post h4 (span_of_drop h3) hev
      (fun x hx => hes x (by simp [hx])) (by simp at hf ⊢; omega)]
    simp only [map_store]
    exact result_eq (by simp only [keyed_rest, List.length_cons, List.length_append]; omega)

/-- The function `parse_map` on the content of a keyed document after its opening
bracket. -/
theorem parse_map_keyed_document (src : List Nat) (d : Nat) (pair : Bool) (ob cb : Nat)
    (hcb : cb = if pair then 93 else 125)
    (es : List entry) (t : token) (fuel : Nat) (h : src = keyed_document ob cb es)
    (hes : ∀ e ∈ es, entry_ok e = true) (hf : es.length + 3 ≤ fuel) :
    parse_map fuel [] ⟨src, 1, t⟩ d pair =
      some (Except.ok (if pair then pair_list_from 1 es else map_store [] es,
        ⟨src, src.length, ⟨TOKEN_BRACKET, src.length - 1, src.length⟩⟩)) := by
  obtain ⟨f, rfl⟩ : ∃ f, fuel = f + 1 + 2 := ⟨fuel - 3, by omega⟩
  cases es with
  | nil =>
    have h1 : src.drop 1 = cb :: [] := by rw [h]; rfl
    have hcb' : cb = 93 ∨ cb = 125 := by cases pair <;> simp [hcb]
    rw [parse_map, read_key_bracket t t h1 (by omega)]
    simp only
    rw [if_pos (by decide), if_neg (by decide), ← hcb, parse_seq,
      push_value_close f _ _ _ h1 (by omega)]
    cases pair <;> simp [h, keyed_document, pair_list_from, map_store]
  | cons e es =>
    have heo := hes e (by simp)
    simp only [entry_ok, Bool.and_eq_true, Bool.or_eq_true, beq_iff_eq] at heo
    obtain ⟨⟨hek, hsep⟩, hev⟩ := heo
    have h1 : src.drop 1 = e.key ++ e.sep :: (e.value ++ keyed_rest cb es ++ []) := by
      rw [h]; simp [keyed_document]
    have h2 : src.drop (1 + e.key.length + 1) = e.value ++ keyed_rest cb es ++ [] :=
      drop_succ_of_drop (drop_add_of_drop h1)
    have hl : src.length = 1 + e.key.length + 1 + e.value.length + (keyed_rest cb es).length := by
      rw [h]; simp [keyed_document]; omega
    rw [parse_map, read_key_entry t t h1 hek hsep]
    simp only
    rw [if_neg (by decide)]
    cases pair with
    | true =>
      simp only [if_true] at hcb
      subst hcb
      rw [if_pos rfl, parse_map_pairs_entries src d es _ _ _ e.key e.value [] 1 (f + 1 + 1) [] h2
        (span_of_drop h1) hev (fun x hx => hes x (by simp [hx])) (by simp)
        (by simp at hf ⊢; omega)]
      simp [pair_list_from, hl]
    | false =>
      simp only [Bool.false_eq_true, if_false] at hcb
      subst hcb
      rw [if_neg (by decide), parse_map_fields_entries src d es _ _ _ e.key e.value [] (f + 1 + 1) []
        h2 (span_of_drop h1) hev (fun x hx => hes x (by simp [hx])) (by simp at hf ⊢; omega)]
      simp [map_store, hl]

theorem lparse_keyed_document (pair : Bool) (ob cb : Nat) (hob : ob = if pair then 91 else 123)
    (hcb : cb = if pair then 93 else 125) (es : List entry)
    (hes : ∀ e ∈ es, entry_ok e = true) (fuel : Nat) (hf : es.length + 6 ≤ fuel) (t0 : token)
    (src : List Nat) (h : src = keyed_document ob cb es) :
    lparse fuel t0 src =
      some (Except.ok (Value.table
        [(Key.idx 1, Value.table (if pair then pair_list_from 1 es else map_store [] es))])) := by
  obtain ⟨f, rfl⟩ : ∃ f, fuel = f + 1 + 2 := ⟨fuel - 3, by omega⟩
  obtain ⟨r, hr⟩ : ∃ r, src = ob :: r := by
    rw [h]; cases es <;> exact ⟨_, rfl⟩
  have hob' : ob = 123 ∨ ob = 91 ∨ ob = 40 := by cases pair <;> simp [hob]
  have h0 : src.drop 0 = ob :: r := hr
  apply lparse_single_container (f + 1) t0 _ _ hr hob'
  rw [parse_list_open f [] 1 1 2 h0 (by decide)]
  cases pair with
  | true =>
    simp only [if_true] at hob
    rw [if_neg (by omega), if_pos hob]
    exact parse_map_keyed_document _ _ true ob cb hcb es _ _ h hes (by omega)
  | false =>
    simp only [Bool.false_eq_true, if_false] at hob
    rw [if_neg (by omega), if_neg (by omega), if_pos hob]
    exact parse_map_keyed_document _ _ false ob cb hcb es _ _ h hes (by omega)

/-! ### Reading a table after an assignment -/

theorem find?_filter_ne (k k' : Key) (h : k' ≠ k) : ∀ l : Table,
    (l.filter (fun e => !(e.1 == k))).find? (fun e => e.1 == k') =
      l.find? (fun e => e.1 == k') := by
  intro l
  induction l with
  | nil => rfl
  | cons e l ih =>
    by_cases he : e.1 = k
    · have b1 : (e.1 == k) = true := by simpa using he
      have b2 : (e.1 == k') = false := by
        simp only [beq_eq_false_iff_ne, ne_eq]; rw [he]; exact fun x => h x.symm
      rw [List.filter_cons, List.find?_cons]
      simp only [b1, b2, Bool.not_true, Bool.false_eq_true, if_false]
      exact ih
    · have b1 : (e.1 == k) = false := by simpa using he
      rw [List.filter_cons]
      simp only [b1, Bool.not_false, if_true]
      rw [List.find?_cons, List.find?_cons, ih]

theorem find?_map_set_ne (k k' : Key) (v : Value) (h : k' ≠ k) : ∀ l : Table,
    (l.map (fun e => if (e.1 == k) = true then (k, v) else e)).find? (fun e => e.1 == k') =
      l.find? (fun e => e.1 == k') := by
  intro l
  induction l with
  | nil => rfl
  | cons e l ih =>
    rw [List.map_cons, List.find?_cons, List.find?_cons, ih]
    by_cases he : e.1 = k
    · have b1 : (e.1 == k) = true := by simpa using he
      have b2 : (e.1 == k') = false := by
        simp only [beq_eq_false_iff_ne, ne_eq]; rw [he]; exact fun x => h x.symm
      have b3 : (k == k') = false := by
        simp only [beq_eq_false_iff_ne, ne_eq]; exact fun x => h x.symm
      simp only [b1, b2, b3, if_true]
    · have b1 : (e.1 == k) = false := by simpa using he
      simp only [b1, Bool.false_eq_true, if_false]

theorem find?_map_set_eq (k : Key) (v : Value) : ∀ l : Table,
    l.any (fun e => e.1 == k) = true →
    (l.map (fun e => if (e.1 == k) = true then (k, v) else e)).find? (fun e => e.1 == k) =
      some (k, v) := by
  intro l
  induction l with
  | nil => intro h; simp at h
  | cons e l ih =>
    intro h
    rw [List.map_cons, List.find?_cons]
    by_cases he : e.1 = k
    · have b1 : (e.1 == k) = true := by simpa using he
      simp only [b1, if_true, beq_self_eq_true]
    · have b1 : (e.1 == k) = false := by simpa using he
      have h' : l.any (fun e => e.1 == k) = true := by
        rw [List.any_cons, b1, Bool.false_or] at h; exact h
      simp only [b1, Bool.false_eq_true, if_false]
      exact ih h'

theorem lua_get_set_same (tbl : Table) (k : Key) (v : Value) :
    lua_get (lua_set tbl k v) k = v := by
  simp only [lua_get, lua_set]
  by_cases hv : v.isNil = true
  · rw [if_pos hv]
    have hnil : v = Value.nil := by cases v <;> simp_all [Value.isNil]
    have : (tbl.filter (fun e => !(e.1 == k))).find? (fun e => e.1 == k) = none := by
      rw [List.find?_eq_none]
      intro e he
      have := (List.mem_filter.mp he).2
      simpa using this
    rw [this, hnil]
  · rw [if_neg hv]
    by_cases hany : tbl.any (fun e => e.1 == k) = true
    · rw [if_pos hany, find?_map_set_eq k v tbl hany]
    · rw [if_neg hany]
      have hnone : tbl.find? (fun e => e.1 == k) = none := by
        rw [List.find?_eq_none]
        intro e he
        simp only [Bool.not_eq_true, List.any_eq_false] at hany
        simpa using hany e he
      rw [List.find?_append, hnone]
      simp

theorem lua_get_set_other (tbl : Table) (k k' : Key) (v : Value) (h : k' ≠ k) :
    lua_get (lua_set tbl k v) k' = lua_get tbl k' := by
  simp only [lua_get, lua_set]
  by_cases hv : v.isNil = true
  · rw [if_pos hv, find?_filter_ne k k' h]
  · rw [if_neg hv]
    by_cases hany : tbl.any (fun e => e.1 == k) = true
    · rw [if_pos hany, find?_map_set_ne k k' v h]
    · rw [if_neg hany, List.find?_append]
      have b3 : (k == k') = false := by
        simp only [beq_eq_false_iff_ne, ne_eq]; exact fun x => h x.symm
      cases hf : tbl.find? (fun e => e.1 == k') with
      | none => simp [b3]
      | some x => simp

/-- Looking a key up in the map of the entries gives the value of the last
entry with that key. -/
theorem lua_get_map_store (key : List Nat) :
    ∀ (es : List entry) (tbl : Table),
      lua_get (map_store tbl es) (Key.str key) =
        match es.reverse.find? (fun e => e.key == key) with
        | some e => scalar_value e.value
        | none => lua_get tbl (Key.str key) := by
  intro es
  induction es with
  | nil => intro tbl; rfl
  | cons e es ih =>
    intro tbl
    rw [map_store, ih, List.reverse_cons, List.find?_append]
    cases hf : es.reverse.find? (fun e => e.key == key) with
    | some x => rfl
    | none =>
      by_cases he : e.key = key
      · simp only [Option.none_or, List.find?_cons, he, beq_self_eq_true]
        rw [lua_settable, ← he, lua_get_set_same]
      · have : (e.key == key) = false := by simpa using he
        simp only [Option.none_or, List.find?_cons, this, List.find?_nil]
        rw [lua_settable, lua_get_set_other _ _ _ _ (by simpa using fun x => he x.symm)]

theorem lua_get_map_store_nil (key : List Nat) (es : List entry) :
    lua_get (map_store [] es) (Key.str key) = last_value key es := by
  rw [lua_get_map_store, last_value]
  rfl

theorem pair_list_from_length : ∀ (es : List entry) (i : Int),
    (pair_list_from i es).length = es.length := by
  intro es
  induction es with
  | nil => intro i; rfl
  | cons e es ih => intro i; simp [pair_list_from, ih]

theorem invalid_line_one (LS : lex_state) (msg : String)
    (h : ∀ x ∈ LS.source.take LS.t.from_, x ≠ 10) : invalid LS msg = Error.raised 1 msg := by
  have : (LS.source.take LS.t.from_).count 10 = 0 :=
    List.count_eq_zero.mpr (fun hx => h 10 hx rfl)
  simp [invalid, this]

/-- The loops of `parse_outer`, entered after the separator of an entry with
value `v`: when the entries that follow use the separator `kv_sep` and then a
key is followed by the other separator `s2`, the error is raised at `s2`. -/
theorem parse_outer_loops_mixed (src : List Nat) (d kv_sep s2 : Nat) (k2 rest : List Nat)
    (hk2 : atom_text k2 = true) (hs2 : s2 = 58 ∨ s2 = 61) (hne : s2 ≠ kv_sep) :
    ∀ (es : List entry) (p : Nat) (t key : token) (v : List Nat) (tbl : Table) (i : Int)
      (fuel : Nat),
      src.drop p = v ++ 32 :: (root_entries es ++ k2 ++ s2 :: rest) →
      atom_text v = true → (∀ e ∈ es, entry_ok e = true ∧ e.sep = kv_sep) →
      es.length + 2 ≤ fuel →
      parse_outer_pairs fuel tbl ⟨src, p, t⟩ d key kv_sep i =
          some (Except.error (invalid
            ⟨src, p + v.length + 1 + (root_entries es).length + k2.length + 1,
              ⟨TOKEN_SYMBOL, p + v.length + 1 + (root_entries es).length + k2.length,
                p + v.length + 1 + (root_entries es).length + k2.length + 1⟩⟩
            "Invalid separator")) ∧
      parse_outer_fields fuel tbl ⟨src, p, t⟩ d key kv_sep =
          some (Except.error (invalid
            ⟨src, p + v.length + 1 + (root_entries es).length + k2.length + 1,
              ⟨TOKEN_SYMBOL, p + v.length + 1 + (root_entries es).length + k2.length,
                p + v.length + 1 + (root_entries es).length + k2.length + 1⟩⟩
            "Invalid separator")) := by
  intro es
  induction es with
  | nil =>
    intro p t key v tbl i fuel h hv _ hf
    obtain ⟨f, rfl⟩ : ∃ f, fuel = f + 2 := ⟨fuel - 2, by simp at hf; omega⟩
    have h1 : src.drop p = v ++ 32 :: (k2 ++ s2 :: rest) := by rw [h]; simp [root_entries]
    have h2 := drop_add_of_drop h1
    have h3 : src.drop (p + v.length + 1 + k2.length) = s2 :: rest :=
      drop_add_of_drop (drop_succ_of_drop h2)
    have hb := getD_of_drop h3
    constructor
    · rw [parse_outer_pairs, next_token_atom t h1 hv (by decide)]
      simp only
      rw [push_value_atom]
      simp only
      rw [read_key_space_entry _ _ h2 hk2 hs2]
      simp only [ne_eq, not_true_eq_false, if_false, lex_state.byte, hb, hne, not_false_eq_true,
        if_true, root_entries, List.length_nil, Nat.add_zero]
    · rw [parse_outer_fields, next_token_atom t h1 hv (by decide)]
      simp only
      rw [push_value_atom]
      simp only
      rw [read_key_space_entry _ _ h2 hk2 hs2]
      simp only [ne_eq, not_true_eq_false, if_false, lex_state.byte, hb, hne, not_false_eq_true,
        if_true, root_entries, List.length_nil, Nat.add_zero]
  | cons e es ih =>
    intro p t key v tbl i fuel h hv hes hf
    obtain ⟨f, rfl⟩ : ∃ f, fuel = f + 2 := ⟨fuel - 2, by simp at hf; omega⟩
    obtain ⟨heo, hsep'⟩ := hes e (by simp)
    simp only [entry_ok, Bool.and_eq_true, Bool.or_eq_true, beq_iff_eq] at heo
    obtain ⟨⟨hek, hsep⟩, hev⟩ := heo
    have h1 : src.drop p = v ++ 32 ::
        (e.key ++ e.sep :: (e.value ++ 32 :: (root_entries es ++ k2 ++ s2 :: rest))) := by
      rw [h]; simp [root_entries]
    have h2 := drop_add_of_drop h1
    have h3 : src.drop (p + v.length + 1 + e.key.length) =
        e.sep :: (e.value ++ 32 :: (root_entries es ++ k2 ++ s2 :: rest)) :=
      drop_add_of_drop (drop_succ_of_drop h2)
    have h4 := drop_succ_of_drop h3
    have hb := getD_of_drop h3
    have := ih (p + v.length + 1 + e.key.length + 1)
      ⟨TOKEN_SYMBOL, p + v.length + 1 + e.key.length, p + v.length + 1 + e.key.length + 1⟩
      ⟨TOKEN_ATOM, p + v.length + 1, p + v.length + 1 + e.key.length⟩ e.value
    have hlen : p + v.length + 1 + e.key.length + 1 + e.value.length + 1 +
        (root_entries es).length + k2.length =
        p + v.length + 1 + (root_entries (e :: es)).length + k2.length := by
      simp only [root_entries, List.length_cons, List.length_append]; omega
    constructor
    · rw [parse_outer_pairs, next_token_atom t h1 hv (by decide)]
      simp only
      rw [push_value_atom]
      simp only
      rw [read_key_space_entry _ _ h2 hek hsep]
      simp only [ne_eq, not_true_eq_false, if_false, lex_state.byte, hb, hsep']
      rw [(this _ (i + 1) (f + 1) h4 hev (fun x hx => hes x (by simp [hx]))
        (by simp at hf ⊢; omega)).1, hlen]
    · rw [parse_outer_fields, next_token_atom t h1 hv (by decide)]
      simp only
      rw [push_value_atom]
      simp only
      rw [read_key_space_entry _ _ h2 hek hsep]
      simp only [ne_eq, not_true_eq_false, if_false, lex_state.byte, hb, hsep']
      rw [(this (lua_settable tbl (push_key ⟨src, p, t⟩ key)
          (push_token_plain src ⟨TOKEN_ATOM, p, p + v.length⟩)) i (f + 1) h4 hev
        (fun x hx => hes x (by simp [hx])) (by simp at hf ⊢; omega)).2, hlen]

theorem atom_text_no_newline {v : List Nat} (h : atom_text v = true) : ∀ x ∈ v, x ≠ 10 := by
  intro x hx hx10
  have := atom_text_not_sep h x hx
  subst hx10
  simp [strchr, atom_separator] at this

theorem root_entries_no_newline : ∀ (es : List entry), (∀ e ∈ es, entry_ok e = true) →
    ∀ x ∈ root_entries es, x ≠ 10 := by
  intro es
  induction es with
  | nil => intro _ x hx; simp [root_entries] at hx
  | cons e es ih =>
    intro hes x hx
    have heo := hes e (by simp)
    simp only [entry_ok, Bool.and_eq_true, Bool.or_eq_true, beq_iff_eq] at heo
    obtain ⟨⟨hek, hsep⟩, hev⟩ := heo
    simp only [root_entries, List.mem_append, List.mem_cons] at hx
    rcases hx with (hx | hx | hx) | hx | hx
    · exact atom_text_no_newline hek x hx
    · omega
    · exact atom_text_no_newline hev x hx
    · omega
    · exact ih (fun y hy => hes y (by simp [hy])) x hx

/-- A root document whose entries use one separator until a later key is
followed by the other one fails with "Invalid separator". -/
theorem lparse_mixed_separators (e : entry) (es : List entry) (k2 rest : List Nat) (s2 : Nat)
    (he : entry_ok e = true) (hes : ∀ x ∈ es, entry_ok x = true ∧ x.sep = e.sep)
    (hk2 : atom_text k2 = true) (hs2 : s2 = 58 ∨ s2 = 61) (hne : s2 ≠ e.sep)
    (fuel : Nat) (hf : es.length + 2 ≤ fuel) (t0 : token) :
    lparse fuel t0 (root_entries (e :: es) ++ k2 ++ s2 :: rest) =
      some (Except.error (Error.raised 1 "Invalid separator")) := by
  have heo := he
  simp only [entry_ok, Bool.and_eq_true, Bool.or_eq_true, beq_iff_eq] at heo
  obtain ⟨⟨hek, hsep⟩, hev⟩ := heo
  obtain ⟨src, hsrc⟩ : ∃ src, src = root_entries (e :: es) ++ k2 ++ s2 :: rest := ⟨_, rfl⟩
  rw [← hsrc]
  have h0 : src.drop 0 = e.key ++ e.sep :: (e.value ++ 32 ::
      (root_entries es ++ k2 ++ s2 :: rest)) := by
    rw [hsrc]; simp [root_entries]
  have h1 : src.drop (0 + e.key.length) = e.sep :: (e.value ++ 32 ::
      (root_entries es ++ k2 ++ s2 :: rest)) := drop_add_of_drop h0
  have h2 := drop_succ_of_drop h1
  have hb := getD_of_drop h1
  have hloop := parse_outer_loops_mixed src 1 e.sep s2 k2 rest hk2 hs2 hne es
    (0 + e.key.length + 1) ⟨TOKEN_SYMBOL, 0 + e.key.length, 0 + e.key.length + 1⟩
    ⟨TOKEN_ATOM, 0, 0 + e.key.length⟩ e.value [] 1 fuel h2 hev hes hf
  have hline : ∀ (q : Nat) (tt : token), tt.from_ =
      0 + e.key.length + 1 + e.value.length + 1 + (root_entries es).length + k2.length →
      invalid ⟨src, q, tt⟩ "Invalid separator" = Error.raised 1 "Invalid separator" := by
    intro q tt htt
    apply invalid_line_one
    intro x hx
    have : src.take tt.from_ = root_entries (e :: es) ++ k2 := by
      have hl : 0 + e.key.length + 1 + e.value.length + 1 + (root_entries es).length + k2.length =
          (root_entries (e :: es) ++ k2).length := by
        simp only [root_entries, List.length_cons, List.length_append]; omega
      rw [hsrc, htt]
      exact List.take_left' hl.symm
    simp only at hx
    rw [this] at hx
    rcases List.mem_append.mp hx with hx | hx
    · exact root_entries_no_newline (e :: es)
        (fun y hy => by
          rcases List.mem_cons.mp hy with rfl | hy
          · exact he
          · exact (hes y hy).1) x hx
    · exact atom_text_no_newline hk2 x hx
  rw [lparse, parse_outer, read_key_entry t0 t0 h0 hek hsep]
  simp only [lex_state.byte, hb]
  rw [if_neg (by decide)]
  by_cases h58 : e.sep = 58
  · rw [if_pos h58, hloop.1, hline _ _ rfl]
  · rw [if_neg h58, hloop.2, hline _ _ rfl]

theorem invalid_no_newline (LS : lex_state) (msg : String) (h : ∀ x ∈ LS.source, x ≠ 10) :
    invalid LS msg = Error.raised 1 msg :=
  invalid_line_one LS msg (fun x hx => h x (List.mem_of_mem_take hx))

theorem next_token_end {src : List Nat} {p : Nat} (t : token) (h : src.drop p = []) :
    next_token ⟨src, p, t⟩ = (true, ⟨src, src.length, { t with type := TOKEN_EOF }⟩) :=
  next_token_eof src p t (List.drop_eq_nil_iff.mp h)

/-- The next token when the cursor is at or just before the text `vs`. -/
theorem next_token_comma_list {src : List Nat} {p : Nat} (t : token) (vs : List (List Nat))
    (h : src.drop p = comma_list vs ∨ src.drop p = 44 :: comma_list vs) :
    ∃ q, src.drop q = comma_list vs ∧ next_token ⟨src, p, t⟩ = next_token ⟨src, q, t⟩ := by
  rcases h with h | h
  · exact ⟨p, h, rfl⟩
  · exact ⟨p + 1, drop_succ_of_drop h, next_token_skip t h (by simp)⟩

/-- The loop of `parse_flat` on `v1,...,vn,` followed by the end of the
input. -/
theorem parse_flat_unclosed (src : List Nat) (d : Nat) (hnl : ∀ x ∈ src, x ≠ 10) :
    ∀ (vs : List (List Nat)) (p : Nat) (t : token) (tbl : Table) (i : Int) (fuel : Nat),
      (src.drop p = comma_list vs ∨ src.drop p = 44 :: comma_list vs) →
      (∀ v ∈ vs, atom_text v = true) → vs.length + 2 ≤ fuel →
      parse_flat fuel tbl ⟨src, p, t⟩ d i =
        some (Except.error (Error.raised 1 "Not closed")) := by
  intro vs
  induction vs with
  | nil =>
    intro p t tbl i fuel h _ hf
    obtain ⟨f, rfl⟩ : ∃ f, fuel = f + 2 := ⟨fuel - 2, by simp at hf; omega⟩
    obtain ⟨q, hq, hn⟩ := next_token_comma_list t [] h
    rw [parse_flat, hn, next_token_end t hq]
    simp only
    rw [push_value_eof_open _ _ _ _ _ _ _ (by decide), invalid_no_newline _ _ hnl]
  | cons v vs ih =>
    intro p t tbl i fuel h hv hf
    obtain ⟨f, rfl⟩ : ∃ f, fuel = f + 2 := ⟨fuel - 2, by simp at hf; omega⟩
    obtain ⟨q, hq, hn⟩ := next_token_comma_list t (v :: vs) h
    have hq' : src.drop q = v ++ 44 :: comma_list vs := hq
    rw [parse_flat, hn, next_token_atom t hq' (hv v (by simp)) (by decide)]
    simp only
    rw [push_value_atom]
    simp only
    exact ih _ _ _ _ (f + 1) (Or.inr (drop_add_of_drop hq')) (fun w hw => hv w (by simp [hw]))
      (by simp at hf ⊢; omega)

theorem parse_seq_eof_open (fuel : Nat) (src : List Nat) (tbl : Table) (q p p' d : Nat) (n : Int)
    (c : Nat) (hc : c ≠ 0) (hnl : ∀ x ∈ src, x ≠ 10) :
    parse_seq (fuel + 2) tbl ⟨src, q, ⟨TOKEN_EOF, p, p'⟩⟩ d n c =
      some (Except.error (Error.raised 1 "Not closed")) := by
  rw [parse_seq, push_value_eof_open _ _ _ _ _ _ _ hc, invalid_no_newline _ _ hnl]

/-- The loop of `parse_seq`, entered with an Atom token, on `,v1,...,vn,`
followed by the end of the input. -/
theorem parse_seq_unclosed (src : List Nat) (d c : Nat) (hc : c ≠ 0) (hnl : ∀ x ∈ src, x ≠ 10) :
    ∀ (vs : List (List Nat)) (p a b : Nat) (tbl : Table) (n : Int) (fuel : Nat),
      src.drop p = 44 :: comma_list vs →
      (∀ v ∈ vs, atom_text v = true) → vs.length + 3 ≤ fuel →
      parse_seq fuel tbl ⟨src, p, ⟨TOKEN_ATOM, a, b⟩⟩ d n c =
        some (Except.error (Error.raised 1 "Not closed")) := by
  intro vs
  induction vs with
  | nil =>
    intro p a b tbl n fuel h _ hf
    obtain ⟨f, rfl⟩ : ∃ f, fuel = f + 3 := ⟨fuel - 3, by simp at hf; omega⟩
    rw [parse_seq, push_value_atom]
    simp only
    rw [next_token_skip _ h (by simp), next_token_end _ (drop_succ_of_drop h)]
    simp only [reduceCtorEq, if_false]
    exact parse_seq_eof_open f src _ _ _ _ d _ c hc hnl
  | cons v vs ih =>
    intro p a b tbl n fuel h hv hf
    obtain ⟨f, rfl⟩ : ∃ f, fuel = f + 3 := ⟨fuel - 3, by simp at hf; omega⟩
    have h1 : src.drop (p + 1) = v ++ 44 :: comma_list vs := drop_succ_of_drop h
    rw [parse_seq, push_value_atom]
    simp only
    rw [next_token_skip _ h (by simp), next_token_atom _ h1 (hv v (by simp)) (by decide)]
    simp only [reduceCtorEq, if_false]
    exact ih _ _ _ _ _ (f + 2) (drop_add_of_drop h1) (fun w hw => hv w (by simp [hw]))
      (by simp at hf ⊢; omega)

theorem comma_list_no_newline : ∀ (vs : List (List Nat)), (∀ v ∈ vs, atom_text v = true) →
    ∀ x ∈ comma_list vs, x ≠ 10 := by
  intro vs
  induction vs with
  | nil => intro _ x hx; simp [comma_list] at hx
  | cons v vs ih =>
    intro hv x hx
    simp only [comma_list, List.mem_append, List.mem_cons] at hx
    rcases hx with hx | hx | hx
    · exact atom_text_no_newline (hv v (by simp)) x hx
    · omega
    · exact ih (fun w hw => hv w (by simp [hw])) x hx

/-- The function `parse_map` on `v1,...,vn,` followed by the end of the input. -/
theorem parse_map_unclosed (src : List Nat) (d : Nat) (pair : Bool) (hnl : ∀ x ∈ src, x ≠ 10)
    (vs : List (List Nat)) (t : token) (tbl : Table) (fuel : Nat)
    (h : src.drop 1 = comma_list vs) (hv : ∀ v ∈ vs, atom_text v = true)
    (hf : vs.length + 4 ≤ fuel) :
    parse_map fuel tbl ⟨src, 1, t⟩ d pair =
      some (Except.error (Error.raised 1 "Not closed")) := by
  obtain ⟨f, rfl⟩ : ∃ f, fuel = f + 3 := ⟨fuel - 3, by omega⟩
  have hc : (if pair = true then 93 else 125) ≠ 0 := by cases pair <;> simp
  cases vs with
  | nil =>
    rw [parse_map, read_key, next_token_end t h]
    simp only [ne_eq, reduceCtorEq, not_false_eq_true, if_true]
    rw [if_pos (by decide), if_neg (by decide)]
    exact parse_seq_eof_open f src _ _ _ _ d _ _ hc hnl
  | cons v vs =>
    have h1 : src.drop 1 = v ++ 44 :: comma_list vs := h
    have h2 := drop_add_of_drop h1
    have hva := hv v (by simp)
    rw [parse_map, read_key, next_token_atom t h1 hva (by decide)]
    simp only [ne_eq, not_true_eq_false, if_false]
    cases vs with
    | nil =>
      rw [next_token_skip _ h2 (by simp), next_token_end _ (drop_succ_of_drop h2)]
      simp only [ne_eq, reduceCtorEq, not_false_eq_true, if_true]
      simp only [push_token, reduceCtorEq, if_false]
      exact parse_seq_eof_open f src _ _ _ _ d _ _ hc hnl
    | cons w vs =>
      have h3 : src.drop (1 + v.length + 1) = w ++ 44 :: comma_list vs := drop_succ_of_drop h2
      rw [next_token_skip _ h2 (by simp), next_token_atom _ h3 (hv w (by simp)) (by decide)]
      simp only [ne_eq, reduceCtorEq, not_false_eq_true, if_true]
      simp only [push_token, reduceCtorEq, if_false]
      exact parse_seq_unclosed src d _ hc hnl vs _ _ _ _ _ (f + 2) (drop_add_of_drop h3)
        (fun x hx => hv x (by simp [hx])) (by simp at hf ⊢; omega)

/-- A document that ends inside a positional container fails with
"Not closed". -/
theorem lparse_unclosed (ob : Nat) (hob : ob = 40 ∨ ob = 91 ∨ ob = 123) (vs : List (List Nat))
    (hv : ∀ v ∈ vs, atom_text v = true) (fuel : Nat) (hf : vs.length + 7 ≤ fuel) (t0 : token) :
    lparse fuel t0 (unclosed_document ob vs) =
      some (Except.error (Error.raised 1 "Not closed")) := by
  obtain ⟨f, rfl⟩ : ∃ f, fuel = f + 3 := ⟨fuel - 3, by omega⟩
  obtain ⟨src, hsrc⟩ : ∃ src, src = unclosed_document ob vs := ⟨_, rfl⟩
  rw [← hsrc]
  have h0 : src.drop 0 = ob :: comma_list vs := by rw [hsrc]; rfl
  have h1 : src.drop 1 = comma_list vs := drop_succ_of_drop h0
  have hnl : ∀ x ∈ src, x ≠ 10 := by
    intro x hx
    rw [hsrc, unclosed_document, List.mem_cons] at hx
    rcases hx with hx | hx
    · omega
    · exact comma_list_no_newline vs hv x hx
  have hp : parse_list (f + 1) [] ⟨src, 0 + 1, ⟨TOKEN_BRACKET, 0, 0 + 1⟩⟩ (1 + 1) =
      some (Except.error (Error.raised 1 "Not closed")) := by
    rw [parse_list_open f [] _ _ _ h0 (by decide)]
    rcases hob with rfl | rfl | rfl
    · rw [if_pos rfl]
      exact parse_flat_unclosed src _ hnl vs _ _ _ _ f (Or.inl h1) hv (by omega)
    · rw [if_neg (by decide), if_pos rfl]
      exact parse_map_unclosed src _ true hnl vs _ _ f h1 hv (by omega)
    · rw [if_neg (by decide), if_neg (by decide), if_pos rfl]
      exact parse_map_unclosed src _ false hnl vs _ _ f h1 hv (by omega)
  rw [lparse, parse_outer, read_key_bracket t0 t0 h0 (by omega)]
  simp only
  rw [if_pos (by decide), if_neg (by decide), parse_seq,
    push_value_open_error (f + 1) _ _ _ _ h0 (by omega) hp]

theorem result_eq3 {X : Table} {src : List Nat} {a b c a' b' c' : Nat} (ha : a = a')
    (hb : b = b') (hc : c = c') :
    (some (Except.ok (X, (⟨src, a, ⟨TOKEN_BRACKET, b, c⟩⟩ : lex_state))) :
        Run (Table × lex_state)) =
      some (Except.ok (X, ⟨src, a', ⟨TOKEN_BRACKET, b', c'⟩⟩)) := by
  rw [ha, hb, hc]

theorem nest_document_cons (b : Nat) (bs : List Nat) :
    nest_document (b :: bs) = b :: (nest_document bs ++ [close_of b]) := by
  simp [nest_document]

theorem nest_document_length (bs : List Nat) : (nest_document bs).length = 2 * bs.length := by
  simp [nest_document]; omega

theorem opening_cases {b : Nat} (h : opening b = true) : b = 40 ∨ b = 91 ∨ b = 123 := by
  simpa [opening, or_assoc] using h

theorem close_of_cases {b : Nat} (h : opening b = true) :
    (b = 40 ∧ close_of b = 41) ∨ (b = 91 ∧ close_of b = 93) ∨ (b = 123 ∧ close_of b = 125) := by
  rcases opening_cases h with rfl | rfl | rfl <;> simp [close_of]

/-- The function `parse_list` on a bracket that encloses the nested empty containers
`bs`. -/
theorem parse_list_nested (src : List Nat) :
    ∀ (bs : List Nat) (b q d : Nat) (post : List Nat) (fuel : Nat),
      opening b = true → (∀ x ∈ bs, opening x = true) →
      src.drop q = b :: (nest_document bs ++ close_of b :: post) →
      d + bs.length < MAX_DEPTH → 4 * bs.length + 4 ≤ fuel →
      parse_list fuel [] ⟨src, q + 1, ⟨TOKEN_BRACKET, q, q + 1⟩⟩ d =
        some (Except.ok (nested_table bs.length,
          ⟨src, q + 2 + 2 * bs.length,
            ⟨TOKEN_BRACKET, q + 2 + 2 * bs.length - 1, q + 2 + 2 * bs.length⟩⟩)) := by
  intro bs
  induction bs with
  | nil =>
    intro b q d post fuel hb _ h hd hf
    obtain ⟨f, rfl⟩ : ∃ f, fuel = f + 4 := ⟨fuel - 4, by simp at hf; omega⟩
    have h1 : src.drop (q + 1) = close_of b :: post := by
      rw [drop_succ_of_drop h]; simp [nest_document]
    rw [parse_list_open _ [] _ _ _ h (by simp at hd; exact hd)]
    rcases close_of_cases hb with ⟨rfl, hc⟩ | ⟨rfl, hc⟩ | ⟨rfl, hc⟩
    · rw [if_pos rfl, parse_flat, next_token_bracket _ h1 (by omega)]
      simp only
      rw [← hc, push_value_close _ _ _ _ h1 (by omega)]
      simp only [nested_table, List.length_nil]
      exact result_eq3 (by omega) (by omega) (by omega)
    · rw [if_neg (by decide), if_pos rfl, parse_map, read_key_bracket _ _ h1 (by omega)]
      simp only
      rw [if_pos (by decide), if_neg (by decide), parse_seq]
      simp only [if_true]
      rw [← hc, push_value_close _ _ _ _ h1 (by omega)]
      simp only [nested_table, List.length_nil]
      exact result_eq3 (by omega) (by omega) (by omega)
    · rw [if_neg (by decide), if_neg (by decide), if_pos rfl, parse_map,
        read_key_bracket _ _ h1 (by omega)]
      simp only
      rw [if_pos (by decide), if_neg (by decide), parse_seq]
      simp only [Bool.false_eq_true, if_false]
      rw [← hc, push_value_close _ _ _ _ h1 (by omega)]
      simp only [nested_table, List.length_nil]
      exact result_eq3 (by omega) (by omega) (by omega)
  | cons b' bs ih =>
    intro b q d post fuel hb hbs h hd hf
    obtain ⟨f, rfl⟩ : ∃ f, fuel = f + 5 := ⟨fuel - 5, by simp at hf; omega⟩
    have hb' := hbs b' (by simp)
    have hbo' := opening_cases hb'
    have h1 : src.drop (q + 1) = b' :: (nest_document bs ++ close_of b' :: (close_of b :: post)) := by
      rw [drop_succ_of_drop h, nest_document_cons]; simp
    have hd' : d + 1 + bs.length < MAX_DEPTH := by simp at hd; omega
    have h2 : src.drop (q + 1 + 2 + 2 * bs.length) = close_of b :: post := by
      have := drop_add_of_drop (drop_succ_of_drop
        (show src.drop (q + 1) = b' :: ((nest_document bs ++ [close_of b']) ++
          (close_of b :: post)) by rw [h1]; simp))
      rw [List.length_append, nest_document_length] at this
      rw [← this]
      congr 1
      simp; omega
    have hin : ∀ f', 4 * bs.length + 4 ≤ f' →
        parse_list f' [] ⟨src, q + 1 + 1, ⟨TOKEN_BRACKET, q + 1, q + 1 + 1⟩⟩ (d + 1) = _ :=
      fun f' hf' => ih b' (q + 1) (d + 1) (close_of b :: post) f' hb'
        (fun x hx => hbs x (by simp [hx])) h1 hd' hf'
    rw [parse_list_open _ [] _ _ _ h (by simp at hd ⊢; omega)]
    rcases close_of_cases hb with ⟨rfl, hc⟩ | ⟨rfl, hc⟩ | ⟨rfl, hc⟩
    · rw [if_pos rfl, parse_flat, next_token_bracket _ h1 (by omega)]
      simp only
      rw [push_value_open _ _ _ _ _ h1 (by omega) (hin (f + 2) (by simp at hf; omega))]
      simp only
      rw [parse_flat, next_token_bracket _ h2 (by omega)]
      simp only
      rw [← hc, push_value_close _ _ _ _ h2 (by omega)]
      simp only [nested_table, lua_seti, lua_set, Value.isNil, List.length_cons]
      exact result_eq3 (by omega) (by omega) (by omega)
    · rw [if_neg (by decide), if_pos rfl, parse_map, read_key_bracket _ _ h1 (by omega)]
      simp only
      rw [if_pos (by decide), if_neg (by decide), parse_seq]
      simp only [if_true]
      rw [push_value_open _ _ _ _ _ h1 (by omega) (hin (f + 1) (by simp at hf; omega))]
      simp only
      rw [next_token_bracket _ h2 (by omega)]
      simp only [reduceCtorEq, if_false]
      rw [parse_seq, ← hc, push_value_close _ _ _ _ h2 (by omega)]
      simp only [nested_table, lua_seti, lua_set, Value.isNil, List.length_cons]
      exact result_eq3 (by omega) (by omega) (by omega)
    · rw [if_neg (by decide), if_neg (by decide), if_pos rfl, parse_map,
        read_key_bracket _ _ h1 (by omega)]
      simp only
      rw [if_pos (by decide), if_neg (by decide), parse_seq]
      simp only [Bool.false_eq_true, if_false]
      rw [push_value_open _ _ _ _ _ h1 (by omega) (hin (f + 1) (by simp at hf; omega))]
      simp only
      rw [next_token_bracket _ h2 (by omega)]
      simp only [reduceCtorEq, if_false]
      rw [parse_seq, ← hc, push_value_close _ _ _ _ h2 (by omega)]
      simp only [nested_table, lua_seti, lua_set, Value.isNil, List.length_cons]
      exact result_eq3 (by omega) (by omega) (by omega)

/-- The function `parse_list` on a bracket followed by so many opening brackets that the
depth limit is reached. -/
theorem parse_list_too_nested (src : List Nat) (hnl : ∀ x ∈ src, x ≠ 10) :
    ∀ (opens : List Nat) (b q d : Nat) (rest : List Nat) (fuel : Nat),
      opening b = true → (∀ x ∈ opens, opening x = true) →
      src.drop q = b :: (opens ++ rest) →
      MAX_DEPTH ≤ d + opens.length → 4 * opens.length + 1 ≤ fuel →
      parse_list fuel [] ⟨src, q + 1, ⟨TOKEN_BRACKET, q, q + 1⟩⟩ d =
        some (Except.error (Error.raised 1 "Too depth of brackets")) := by
  intro opens
  induction opens with
  | nil =>
    intro b q d rest fuel _ _ _ hd hf
    obtain ⟨f, rfl⟩ : ∃ f, fuel = f + 1 := ⟨fuel - 1, by simp at hf; omega⟩
    rw [parse_list_too_deep _ _ _ _ (by simpa using hd), invalid_no_newline _ _ hnl]
  | cons b' opens ih =>
    intro b q d rest fuel hb hbs h hd hf
    obtain ⟨f, rfl⟩ : ∃ f, fuel = f + 5 := ⟨fuel - 5, by simp at hf; omega⟩
    by_cases hdeep : MAX_DEPTH ≤ d
    · rw [parse_list_too_deep _ _ _ _ hdeep, invalid_no_newline _ _ hnl]
    · have hb' := hbs b' (by simp)
      have hbo' := opening_cases hb'
      have h1 : src.drop (q + 1) = b' :: (opens ++ rest) := by
        rw [drop_succ_of_drop h]; simp
      have hin : ∀ f', 4 * opens.length + 1 ≤ f' →
          parse_list f' [] ⟨src, q + 1 + 1, ⟨TOKEN_BRACKET, q + 1, q + 1 + 1⟩⟩ (d + 1) = _ :=
        fun f' hf' => ih b' (q + 1) (d + 1) rest f' hb'
          (fun x hx => hbs x (by simp [hx])) h1 (by simp at hd ⊢; omega) hf'
      rw [parse_list_open _ [] _ _ _ h (by omega)]
      rcases opening_cases hb with rfl | rfl | rfl
      · rw [if_pos rfl, parse_flat, next_token_bracket _ h1 (by omega)]
        simp only
        rw [push_value_open_error _ _ _ _ _ h1 (by omega) (hin (f + 2) (by simp at hf; omega))]
      · rw [if_neg (by decide), if_pos rfl, parse_map, read_key_bracket _ _ h1 (by omega)]
        simp only
        rw [if_pos (by decide), if_neg (by decide), parse_seq]
        rw [push_value_open_error _ _ _ _ _ h1 (by omega) (hin (f + 1) (by simp at hf; omega))]
      · rw [if_neg (by decide), if_neg (by decide), if_pos rfl, parse_map,
          read_key_bracket _ _ h1 (by omega)]
        simp only
        rw [if_pos (by decide), if_neg (by decide), parse_seq]
        rw [push_value_open_error _ _ _ _ _ h1 (by omega) (hin (f + 1) (by simp at hf; omega))]

theorem nest_document_no_newline (bs : List Nat) (hbs : ∀ x ∈ bs, opening x = true) :
    ∀ x ∈ nest_document bs, x ≠ 10 := by
  intro x hx
  simp only [nest_document, List.mem_append, List.mem_map, List.mem_reverse] at hx
  rcases hx with hx | ⟨y, hy, rfl⟩
  · rcases opening_cases (hbs x hx) with rfl | rfl | rfl <;> decide
  · rcases close_of_cases (hbs y hy) with ⟨_, hc⟩ | ⟨_, hc⟩ | ⟨_, hc⟩ <;> omega

/-- Up to 254 nested brackets parse to nested one-element lists. -/
theorem lparse_nest_ok (bs : List Nat) (hbs : ∀ x ∈ bs, opening x = true) (h1 : 1 ≤ bs.length)
    (h254 : bs.length ≤ 254) (fuel : Nat) (hf : 4 * bs.length + 2 ≤ fuel) (t0 : token) :
    lparse fuel t0 (nest_document bs) = some (Except.ok (Value.table (nested_table bs.length))) := by
  obtain ⟨b, bs, rfl⟩ : ∃ b bs', bs = b :: bs' := by
    cases bs with
    | nil => simp at h1
    | cons b bs => exact ⟨b, bs, rfl⟩
  obtain ⟨f, rfl⟩ : ∃ f, fuel = f + 2 := ⟨fuel - 2, by omega⟩
  obtain ⟨src, hsrc⟩ : ∃ src, src = nest_document (b :: bs) := ⟨_, rfl⟩
  rw [← hsrc]
  have hb := hbs b (by simp)
  have hsrc' : src = b :: (nest_document bs ++ close_of b :: []) := by
    rw [hsrc, nest_document_cons]
  have hlen : src.length = 0 + 2 + 2 * bs.length := by
    rw [hsrc, nest_document_length]; simp; omega
  have := parse_list_nested src bs b 0 2 [] f hb (fun x hx => hbs x (by simp [hx])) hsrc'
    (by simp at h254 ⊢; unfold MAX_DEPTH; omega) (by simp at hf; omega)
  rw [← hlen] at this
  exact lparse_single_container f t0 _ _ hsrc'
    (by rcases opening_cases hb with h | h | h <;> simp [h]) this

/-- From 255 nested brackets on, the depth limit is hit. -/
theorem lparse_nest_too_deep (bs : List Nat) (hbs : ∀ x ∈ bs, opening x = true)
    (h255 : 255 ≤ bs.length) (fuel : Nat) (hf : 4 * bs.length ≤ fuel) (t0 : token) :
    lparse fuel t0 (nest_document bs) =
      some (Except.error (Error.raised 1 "Too depth of brackets")) := by
  obtain ⟨b, bs, rfl⟩ : ∃ b bs', bs = b :: bs' := by
    cases bs with
    | nil => simp at h255
    | cons b bs => exact ⟨b, bs, rfl⟩
  obtain ⟨f, rfl⟩ : ∃ f, fuel = f + 2 := ⟨fuel - 2, by simp at hf; omega⟩
  obtain ⟨src, hsrc⟩ : ∃ src, src = nest_document (b :: bs) := ⟨_, rfl⟩
  rw [← hsrc]
  have hb := hbs b (by simp)
  have hbo := opening_cases hb
  have h0 : src.drop 0 = b :: (bs ++ ((b :: bs).reverse.map close_of)) := by
    rw [hsrc]; simp [nest_document]
  have hnl : ∀ x ∈ src, x ≠ 10 := by rw [hsrc]; exact nest_document_no_newline _ hbs
  have hp := parse_list_too_nested src hnl bs b 0 2 _ f hb (fun x hx => hbs x (by simp [hx])) h0
    (by simp at h255 ⊢; unfold MAX_DEPTH; omega) (by simp at hf; omega)
  rw [lparse, parse_outer, read_key_bracket t0 t0 h0 (by omega)]
  simp only
  rw [if_pos (by decide), if_neg (by decide), parse_seq,
    push_value_open_error _ _ _ _ _ h0 (by omega) hp]

theorem push_value_atom_token (fuel : Nat) (LS : lex_state) (d c : Nat)
    (h : LS.t.type = TOKEN_ATOM) :
    push_value (fuel + 1) LS d c =
      some (Except.ok (some (push_token_plain LS.source LS.t), LS)) := by
  simp [push_value, push_token, h]

/-- When the cursor does not move past an Atom, `parse_seq` never returns. -/
theorem parse_seq_stuck (LS : lex_state) (hty : LS.t.type = TOKEN_ATOM)
    (hfix : next_token LS = (true, LS)) :
    ∀ (fuel : Nat) (tbl : Table) (d : Nat) (n : Int) (c : Nat),
      parse_seq fuel tbl LS d n c = none := by
  intro fuel
  induction fuel with
  | zero => intros; rfl
  | succ f ih =>
    intro tbl d n c
    cases f with
    | zero => rfl
    | succ f =>
      rw [parse_seq, push_value_atom_token f LS d c hty]
      simp only
      rw [hfix]
      simp only [hty, reduceCtorEq, if_false]
      exact ih _ _ _ _

/-- When the cursor does not move past an Atom, `parse_flat` never returns. -/
theorem parse_flat_stuck (LS : lex_state) (hty : LS.t.type = TOKEN_ATOM)
    (hfix : next_token LS = (true, LS)) :
    ∀ (fuel : Nat) (tbl : Table) (d : Nat) (i : Int),
      parse_flat fuel tbl LS d i = none := by
  intro fuel
  induction fuel with
  | zero => intros; rfl
  | succ f ih =>
    intro tbl d i
    cases f with
    | zero => rw [parse_flat, hfix]; rfl
    | succ f =>
      rw [parse_flat, hfix]
      simp only
      rw [push_value_atom_token f LS d _ hty]
      simp only
      exact ih _ _ _

/-- One more step of `parse_seq` before the cursor is stuck. -/
theorem parse_seq_stuck_next (LS LS' : lex_state) (hty : LS.t.type = TOKEN_ATOM)
    (hnext : next_token LS = (true, LS')) (hty' : LS'.t.type = TOKEN_ATOM)
    (hfix : next_token LS' = (true, LS')) (fuel : Nat) (tbl : Table) (d : Nat) (n : Int)
    (c : Nat) : parse_seq fuel tbl LS d n c = none := by
  cases fuel with
  | zero => rfl
  | succ f =>
    cases f with
    | zero => rfl
    | succ f =>
      rw [parse_seq, push_value_atom_token f LS d c hty]
      simp only
      rw [hnext]
      simp only [hty', reduceCtorEq, if_false]
      exact parse_seq_stuck LS' hty' hfix _ _ _ _ _

theorem parse_flat_stuck_next (LS LS' : lex_state)
    (hnext : next_token LS = (true, LS')) (hty' : LS'.t.type = TOKEN_ATOM)
    (hfix : next_token LS' = (true, LS')) (fuel : Nat) (tbl : Table) (d : Nat) (i : Int) :
    parse_flat fuel tbl LS d i = none := by
  cases fuel with
  | zero => rfl
  | succ f =>
    cases f with
    | zero => rw [parse_flat, hnext]; rfl
    | succ f =>
      rw [parse_flat, hnext]
      simp only
      rw [push_value_atom_token f LS' d _ hty']
      simp only
      exact parse_flat_stuck LS' hty' hfix _ _ _ _

theorem first_token_atom (src v : List Nat) (c : Nat) (r : List Nat) (h : src = v ++ c :: r)
    (hv : atom_text v = true) (hc : strchr atom_separator c = true) (t0 t1 : token) :
    next_token ⟨src, 0, t0⟩ = next_token ⟨src, 0, t1⟩ := by
  rw [next_token_atom t0 (show src.drop 0 = v ++ c :: r from h) hv hc,
    next_token_atom t1 (show src.drop 0 = v ++ c :: r from h) hv hc]

theorem first_token_bracket (src : List Nat) (c : Nat) (r : List Nat) (h : src = c :: r)
    (hc : c = 123 ∨ c = 125 ∨ c = 91 ∨ c = 93 ∨ c = 40 ∨ c = 41) (t0 t1 : token) :
    next_token ⟨src, 0, t0⟩ = next_token ⟨src, 0, t1⟩ := by
  rw [next_token_bracket t0 (show src.drop 0 = c :: r from h) hc,
    next_token_bracket t1 (show src.drop 0 = c :: r from h) hc]

theorem parse_atom_loop_end :
    ∀ (v : List Nat) (LS : lex_state) (p : Nat),
      LS.source.drop p = v → (∀ x ∈ v, strchr atom_separator x = false) →
      parse_atom_loop LS v.length p = { LS with t := { LS.t with to_ := LS.sz } } := by
  intro v
  induction v with
  | nil => intro LS p _ _; rfl
  | cons x v ih =>
    intro LS p h hv
    have hb : LS.byte p = x := getD_of_drop h
    simp only [List.length_cons]
    rw [parse_atom_loop, hb, hv x (by simp)]
    simp only [Bool.false_eq_true, if_false]
    exact ih LS (p + 1) (drop_succ_of_drop h) (fun y hy => hv y (by simp [hy]))

/-- An Atom that touches the end of the input: the token is produced, the
cursor stays at its first byte. -/
theorem next_token_atom_end {src : List Nat} {p : Nat} {v : List Nat} (t : token)
    (h : src.drop p = v) (hv : atom_text v = true) :
    next_token ⟨src, p, t⟩ = (true, ⟨src, p, ⟨TOKEN_ATOM, p, src.length⟩⟩) := by
  obtain ⟨x, w, rfl⟩ : ∃ x w, v = x :: w := by
    cases v with
    | nil => exact absurd rfl (atom_text_ne_nil hv)
    | cons x w => exact ⟨x, w, rfl⟩
  have hns := atom_text_not_sep hv
  have hx' := (strchr_sep_iff x).not.mp (by simp [hns x (by simp)])
  have hlt := lt_of_drop h
  have hb := getD_of_drop h
  have h42 : x ≠ 42 := by
    intro h42; subst h42; simp [atom_text] at hv
  have hcom : ¬ (x = 45 ∧ src.getD (p + 1) 0 = 45) := by
    rintro ⟨h1, h2⟩
    subst h1
    cases w with
    | nil =>
      have hd : src.drop (p + 1) = [] := drop_succ_of_drop h
      have : src.getD (p + 1) 0 = 0 := by
        rw [List.getD_eq_getElem?_getD, List.getElem?_eq_none (List.drop_eq_nil_iff.mp hd)]
        rfl
      omega
    | cons y w =>
      have := getD_of_drop (drop_succ_of_drop h)
      rw [this] at h2
      subst h2
      simp [atom_text] at hv
  have hlen : src.length - p = (x :: w).length := by
    have := congrArg List.length h
    simpa using this
  simp only [next_token, lex_state.sz, next_token_loop, lex_state.byte, hb]
  rw [if_pos hlt, if_neg hcom, if_neg (by omega), if_neg (by omega), if_neg (by omega),
    if_neg (by omega), if_neg (by omega), parse_atom]
  simp only [lex_state.sz]
  rw [hlen, parse_atom_loop_end (x :: w) _ p h hns]
  rfl

/-- A document that is one Atom: `parse` never returns. -/
theorem atom_document_diverges (v : List Nat) (hv : atom_text v = true) : Diverges v := by
  intro fuel t0
  have h0 : v.drop 0 = v := rfl
  have hfix : ∀ t, next_token ⟨v, 0, t⟩ = (true, ⟨v, 0, ⟨TOKEN_ATOM, 0, v.length⟩⟩) :=
    fun t => next_token_atom_end t h0 hv
  rw [lparse, parse_outer, read_key, hfix]
  simp only [ne_eq, not_true_eq_false, if_false]
  rw [hfix]
  simp only [ne_eq, reduceCtorEq, not_false_eq_true, if_true]
  simp only [push_token, reduceCtorEq, if_false]
  rw [parse_seq_stuck _ rfl (hfix _), if_pos (by decide)]

theorem Returns_of_eval {src : List Nat} {r : Except Error Value} (fuel : Nat)
    (h0 : ∀ t0, next_token ⟨src, 0, t0⟩ = next_token ⟨src, 0, ⟨TOKEN_EOF, 0, 0⟩⟩)
    (h : lparse fuel ⟨TOKEN_EOF, 0, 0⟩ src = some r) : Returns src r :=
  ⟨fuel, fun t0 => by rw [lparse_congr_token fuel src t0 _ (h0 t0)]; exact h⟩

theorem Diverges_of_eval {src : List Nat}
    (h0 : ∀ t0, next_token ⟨src, 0, t0⟩ = next_token ⟨src, 0, ⟨TOKEN_EOF, 0, 0⟩⟩)
    (h : ∀ fuel, lparse fuel ⟨TOKEN_EOF, 0, 0⟩ src = none) : Diverges src :=
  fun fuel t0 => by rw [lparse_congr_token fuel src t0 _ (h0 t0)]; exact h fuel

/-- Claim C1 (failing inputs): on `1`, on `1 2 3` and on `x #` the parser
never returns. -/
theorem parse_diverges_on_final_atom :
    Diverges (bytes "1") ∧ Diverges (bytes "1 2 3") ∧ Diverges (bytes "x #") := by
  refine ⟨atom_document_diverges _ (by decide), ?_, ?_⟩
  · apply Diverges_of_eval
    · exact fun t0 => first_token_atom _ (bytes "1") 32 (bytes "2 3") rfl
        (by decide) (by decide) _ _
    · intro fuel
      have hr : read_key ⟨bytes "1 2 3", 0, ⟨TOKEN_EOF, 0, 0⟩⟩ ⟨TOKEN_EOF, 0, 0⟩ =
          Except.ok (2, ⟨TOKEN_ATOM, 0, 1⟩, ⟨bytes "1 2 3", 3, ⟨TOKEN_ATOM, 2, 3⟩⟩) := by decide
      rw [lparse, parse_outer, hr]
      simp only
      rw [if_pos (by decide)]
      simp only [push_token, reduceCtorEq, if_false, if_true]
      rw [parse_seq_stuck_next ⟨bytes "1 2 3", 3, ⟨TOKEN_ATOM, 2, 3⟩⟩
        ⟨bytes "1 2 3", 4, ⟨TOKEN_ATOM, 4, 5⟩⟩ rfl (by decide) rfl (by decide)]
  · apply Diverges_of_eval
    · exact fun t0 => first_token_atom _ (bytes "x") 32 (bytes "#") rfl
        (by decide) (by decide) _ _
    · intro fuel
      have hr : read_key ⟨bytes "x #", 0, ⟨TOKEN_EOF, 0, 0⟩⟩ ⟨TOKEN_EOF, 0, 0⟩ =
          Except.ok (2, ⟨TOKEN_ATOM, 0, 1⟩, ⟨bytes "x #", 2, ⟨TOKEN_ATOM, 0, 1⟩⟩) := by decide
      rw [lparse, parse_outer, hr]
      simp only
      rw [if_pos (by decide)]
      simp only [push_token, reduceCtorEq, if_false, if_true]
      rw [parse_seq_stuck ⟨bytes "x #", 2, ⟨TOKEN_ATOM, 0, 1⟩⟩ rfl (by decide)]

/-- Claim C2 (failing input): `parse("a=1 b=2")` raises "Need key" instead of
returning the map. -/
theorem parse_key_value_document_fails :
    Returns (bytes "a=1 b=2") (Except.error (Error.raised 1 "Need key")) :=
  Returns_of_eval 3
    (fun t0 => first_token_atom _ (bytes "a") 61 (bytes "1 b=2") rfl
      (by decide) (by decide) _ _)
    (by decide)

/-- Claim C9 (failing input): `parse("(a : b)")` succeeds and stores the
Symbol `:` as the second element of the list. -/
theorem parse_flat_stores_symbol :
    Returns (bytes "(a : b)")
      (Except.ok (Value.table [(Key.idx 1, Value.table
        [(Key.idx 1, Value.string (bytes "a")), (Key.idx 2, Value.string (bytes ":")),
          (Key.idx 3, Value.string (bytes "b"))])])) :=
  Returns_of_eval 8 (fun t0 => first_token_bracket _ 40 (bytes "a : b)") rfl
    (by decide) _ _) (by decide)

theorem lua_get_pair_entry_key (k : List Nat) (v : Value) :
    lua_get (pair_entry k v) (Key.idx 1) = Value.string k := by
  simp [lua_get, pair_entry]

theorem lua_get_pair_entry_value (k : List Nat) (v : Value) :
    lua_get (pair_entry k v) (Key.idx 2) = v := by
  cases v <;> simp [lua_get, pair_entry, Value.isNil]

theorem lua_get_pair_list_from : ∀ (es : List entry) (j : Int) (i : Nat) (e : entry),
    es[i]? = some e →
    lua_get (pair_list_from j es) (Key.idx (j + i)) =
      Value.table (pair_entry e.key (scalar_value e.value)) := by
  intro es
  induction es with
  | nil => intro j i e h; simp at h
  | cons e0 es ih =>
    intro j i e h
    cases i with
    | zero =>
      simp only [List.getElem?_cons_zero, Option.some.injEq] at h
      subst h
      simp [lua_get, pair_list_from]
    | succ i =>
      simp only [List.getElem?_cons_succ] at h
      have := ih (j + 1) i e h
      have hne : ¬ (j = j + ((i : Int) + 1)) := by omega
      have e1 : j + 1 + (i : Int) = j + ((i : Int) + 1) := by omega
      rw [e1] at this
      rw [← this]
      simp [lua_get, pair_list_from, hne]

/-- The loops of `parse_map`, entered after the separator of an entry with
value `v`, when after further entries the input ends behind the separator of
a key. -/
theorem parse_map_loops_unclosed (src : List Nat) (d s2 : Nat) (k2 : List Nat)
    (hnl : ∀ x ∈ src, x ≠ 10) (hk2 : atom_text k2 = true) (hs2 : s2 = 58 ∨ s2 = 61) :
    ∀ (es : List entry) (p : Nat) (t key : token) (v : List Nat) (tbl : Table) (i : Int)
      (fuel : Nat),
      src.drop p = v ++ 32 :: (root_entries es ++ k2 ++ [s2]) →
      atom_text v = true → (∀ e ∈ es, entry_ok e = true) →
      es.length + 3 ≤ fuel →
      parse_map_pairs fuel tbl ⟨src, p, t⟩ d key i =
          some (Except.error (Error.raised 1 "Not closed")) ∧
      parse_map_fields fuel tbl ⟨src, p, t⟩ d key =
          some (Except.error (Error.raised 1 "Not closed")) := by
  intro es
  induction es with
  | nil =>
    intro p t key v tbl i fuel h hv _ hf
    obtain ⟨f, rfl⟩ : ∃ f, fuel = f + 3 := ⟨fuel - 3, by simp at hf; omega⟩
    have h1 : src.drop p = v ++ 32 :: (k2 ++ s2 :: []) := by rw [h]; simp [root_entries]
    have h2 := drop_add_of_drop h1
    have h3 : src.drop (p + v.length + 1 + k2.length + 1) = [] :=
      drop_succ_of_drop (drop_add_of_drop (drop_succ_of_drop h2))
    constructor
    · rw [parse_map_pairs, next_token_atom t h1 hv (by decide)]
      simp only
      rw [push_value_atom]
      simp only
      rw [read_key_space_entry _ _ h2 hk2 hs2]
      simp only [ne_eq, not_true_eq_false, if_false]
      rw [parse_map_pairs, next_token_end _ h3]
      simp only
      rw [push_value_eof_open _ _ _ _ _ _ _ (by decide), invalid_no_newline _ _ hnl]
    · rw [parse_map_fields, next_token_atom t h1 hv (by decide)]
      simp only
      rw [push_value_atom]
      simp only
      rw [read_key_space_entry _ _ h2 hk2 hs2]
      simp only [ne_eq, not_true_eq_false, if_false]
      rw [parse_map_fields, next_token_end _ h3]
      simp only
      rw [push_value_eof_open _ _ _ _ _ _ _ (by decide), invalid_no_newline _ _ hnl]
  | cons e es ih =>
    intro p t key v tbl i fuel h hv hes hf
    obtain ⟨f, rfl⟩ : ∃ f, fuel = f + 2 := ⟨fuel - 2, by simp at hf; omega⟩
    have heo := hes e (by simp)
    simp only [entry_ok, Bool.and_eq_true, Bool.or_eq_true, beq_iff_eq] at heo
    obtain ⟨⟨hek, hsep⟩, hev⟩ := heo
    have h1 : src.drop p = v ++ 32 ::
        (e.key ++ e.sep :: (e.value ++ 32 :: (root_entries es ++ k2 ++ [s2]))) := by
      rw [h]; simp [root_entries]
    have h2 := drop_add_of_drop h1
    have h4 : src.drop (p + v.length + 1 + e.key.length + 1) =
        e.value ++ 32 :: (root_entries es ++ k2 ++ [s2]) :=
      drop_succ_of_drop (drop_add_of_drop (drop_succ_of_drop h2))
    have := ih (p + v.length + 1 + e.key.length + 1)
      ⟨TOKEN_SYMBOL, p + v.length + 1 + e.key.length, p + v.length + 1 + e.key.length + 1⟩
      ⟨TOKEN_ATOM, p + v.length + 1, p + v.length + 1 + e.key.length⟩ e.value
    constructor
    · rw [parse_map_pairs, next_token_atom t h1 hv (by decide)]
      simp only
      rw [push_value_atom]
      simp only
      rw [read_key_space_entry _ _ h2 hek hsep]
      simp only [ne_eq, not_true_eq_false, if_false]
      exact (this _ (i + 1) (f + 1) h4 hev (fun x hx => hes x (by simp [hx]))
        (by simp at hf ⊢; omega)).1
    · rw [parse_map_fields, next_token_atom t h1 hv (by decide)]
      simp only
      rw [push_value_atom]
      simp only
      rw [read_key_space_entry _ _ h2 hek hsep]
      simp only [ne_eq, not_true_eq_false, if_false]
      exact (this _ i (f + 1) h4 hev (fun x hx => hes x (by simp [hx]))
        (by simp at hf ⊢; omega)).2

/-- A document that ends behind the separator of a key of a keyed container
fails with "Not closed". -/
theorem lparse_unclosed_keyed (ob : Nat) (hob : ob = 91 ∨ ob = 123) (es : List entry)
    (k : List Nat) (s : Nat) (hes : ∀ e ∈ es, entry_ok e = true) (hk : atom_text k = true)
    (hs : s = 58 ∨ s = 61) (fuel : Nat) (hf : es.length + 7 ≤ fuel) (t0 : token) :
    lparse fuel t0 (unclosed_keyed_document ob es k s) =
      some (Except.error (Error.raised 1 "Not closed")) := by
  obtain ⟨f, rfl⟩ : ∃ f, fuel = f + 4 := ⟨fuel - 4, by omega⟩
  obtain ⟨src, hsrc⟩ : ∃ src, src = unclosed_keyed_document ob es k s := ⟨_, rfl⟩
  rw [← hsrc]
  have h0 : src.drop 0 = ob :: (root_entries es ++ k ++ [s]) := by rw [hsrc]; rfl
  have h1 : src.drop 1 = root_entries es ++ k ++ [s] := drop_succ_of_drop h0
  have hnl : ∀ x ∈ src, x ≠ 10 := by
    intro x hx
    rw [hsrc] at hx
    simp only [unclosed_keyed_document, List.mem_cons, List.mem_append, List.mem_singleton,
      List.not_mem_nil, or_false] at hx
    rcases hx with hx | (hx | hx) | hx
    · omega
    · exact root_entries_no_newline es hes x hx
    · exact atom_text_no_newline hk x hx
    · omega
  have hp : parse_list (f + 2) [] ⟨src, 0 + 1, ⟨TOKEN_BRACKET, 0, 0 + 1⟩⟩ (1 + 1) =
      some (Except.error (Error.raised 1 "Not closed")) := by
    rw [parse_list_open _ [] _ _ _ h0 (by decide), if_neg (by omega)]
    have hmap : ∀ pair, parse_map (f + 1) [] ⟨src, 0 + 1, ⟨TOKEN_BRACKET, 0, 0 + 1⟩⟩ (1 + 1) pair =
        some (Except.error (Error.raised 1 "Not closed")) := by
      intro pair
      cases es with
      | nil =>
        have h1' : src.drop (0 + 1) = k ++ s :: [] := by rw [h1]; simp [root_entries]
        have h2 : src.drop (0 + 1 + k.length + 1) = [] :=
          drop_succ_of_drop (drop_add_of_drop h1')
        obtain ⟨g, rfl⟩ : ∃ g, f = g + 2 := ⟨f - 2, by simp at hf; omega⟩
        rw [parse_map, read_key_entry _ _ h1' hk hs]
        simp only
        rw [if_neg (by decide)]
        cases pair with
        | true =>
          rw [if_pos rfl, parse_map_pairs, next_token_end _ h2]
          simp only
          rw [push_value_eof_open _ _ _ _ _ _ _ (by decide), invalid_no_newline _ _ hnl]
        | false =>
          rw [if_neg (by decide), parse_map_fields, next_token_end _ h2]
          simp only
          rw [push_value_eof_open _ _ _ _ _ _ _ (by decide), invalid_no_newline _ _ hnl]
      | cons e es =>
        have heo := hes e (by simp)
        simp only [entry_ok, Bool.and_eq_true, Bool.or_eq_true, beq_iff_eq] at heo
        obtain ⟨⟨hek, hsep⟩, hev⟩ := heo
        have h1' : src.drop (0 + 1) =
            e.key ++ e.sep :: (e.value ++ 32 :: (root_entries es ++ k ++ [s])) := by
          rw [h1]; simp [root_entries]
        have h2 : src.drop (0 + 1 + e.key.length + 1) =
            e.value ++ 32 :: (root_entries es ++ k ++ [s]) :=
          drop_succ_of_drop (drop_add_of_drop h1')
        have hl := parse_map_loops_unclosed src (1 + 1) s k hnl hk hs es _
          ⟨TOKEN_SYMBOL, 0 + 1 + e.key.length, 0 + 1 + e.key.length + 1⟩
          ⟨TOKEN_ATOM, 0 + 1, 0 + 1 + e.key.length⟩ e.value [] 1 f h2 hev
          (fun x hx => hes x (by simp [hx])) (by simp at hf; omega)
        rw [parse_map, read_key_entry _ _ h1' hek hsep]
        simp only
        rw [if_neg (by decide)]
        cases pair with
        | true => rw [if_pos rfl]; exact hl.1
        | false => rw [if_neg (by decide)]; exact hl.2
    rcases hob with rfl | rfl
    · rw [if_pos rfl]; exact hmap true
    · rw [if_neg (by decide), if_pos rfl]; exact hmap false
  rw [lparse, parse_outer, read_key_bracket t0 t0 h0 (by omega)]
  simp only
  rw [if_pos (by decide), if_neg (by decide), parse_seq,
    push_value_open_error _ _ _ _ _ h0 (by omega) hp]

/-- Claim C3 (counterexample): `parse("(1,2,3)")` returns the list that holds
the list `[1, 2, 3]` as its only element; it does not return `[1, 2, 3]`
itself. -/
theorem flat_list_is_wrapped_in_root :
    Returns (bytes "(1,2,3)")
      (Except.ok (Value.table [(Key.idx 1, Value.table
        [(Key.idx 1, Value.integer 1), (Key.idx 2, Value.integer 2),
          (Key.idx 3, Value.integer 3)])])) ∧
    ¬ Returns (bytes "(1,2,3)")
      (Except.ok (Value.table
        [(Key.idx 1, Value.integer 1), (Key.idx 2, Value.integer 2),
          (Key.idx 3, Value.integer 3)])) := by
  have h : Returns (bytes "(1,2,3)")
      (Except.ok (Value.table [(Key.idx 1, Value.table
        [(Key.idx 1, Value.integer 1), (Key.idx 2, Value.integer 2),
          (Key.idx 3, Value.integer 3)])])) :=
    Returns_of_eval 8 (fun t0 => first_token_bracket _ 40 (bytes "1,2,3)") rfl (by decide) _ _)
      (by decide)
  exact ⟨h, fun h' => absurd (Returns_unique h h') (by decide)⟩

/-- Claim C3 (amended): for every list `vs` of scalars written as Atoms, the
document `(v1,v2,...,vn)` parses to a root list with exactly one element, and
that element is the list of the values of `v1`, ..., `vn` in source order. -/
theorem parse_flat_list_document (vs : List (List Nat)) (h : ∀ v ∈ vs, atom_text v = true) :
    Returns (flat_document vs)
      (Except.ok (Value.table
        [(Key.idx 1, Value.table (sequence_from 1 (vs.map scalar_value)))])) :=
  ⟨vs.length + 5, fun t0 => lparse_flat_document vs h _ (le_refl _) t0⟩

/-- Witness for claim C3 (amended): the document `(1,2,3)`. -/
theorem parse_flat_list_document_witness :
    (∀ v ∈ [bytes "1", bytes "2", bytes "3"], atom_text v = true) ∧
    Returns (bytes "(1,2,3)")
      (Except.ok (Value.table [(Key.idx 1, Value.table
        [(Key.idx 1, Value.integer 1), (Key.idx 2, Value.integer 2),
          (Key.idx 3, Value.integer 3)])])) :=
  ⟨by decide, parse_flat_list_document [bytes "1", bytes "2", bytes "3"] (by decide)⟩

/-- Claim C4: for every list of well-formed entries, the container
`[k1 s1 v1 ... kn sn vn]` is parsed to a pair list with exactly one
`{key, value}` entry per source entry, in source order: the list has n
entries and entry i holds the i-th key, as a String, at index 1 and the i-th
value at index 2; entries with equal keys are kept apart. -/
theorem parse_pair_list (es : List entry) (h : ∀ e ∈ es, entry_ok e = true) :
    Returns (keyed_document 91 93 es)
      (Except.ok (Value.table [(Key.idx 1, Value.table (pair_list_from 1 es))])) ∧
    (pair_list_from 1 es).length = es.length ∧
    ∀ (i : Nat) (e : entry), es[i]? = some e →
      ∃ ent, lua_get (pair_list_from 1 es) (Key.idx ((i : Int) + 1)) = Value.table ent ∧
        lua_get ent (Key.idx 1) = Value.string e.key ∧
        lua_get ent (Key.idx 2) = scalar_value e.value := by
  refine ⟨⟨es.length + 6, fun t0 =>
      lparse_keyed_document true 91 93 rfl rfl es h _ (le_refl _) t0 _ rfl⟩,
    pair_list_from_length es 1, fun i e hi => ?_⟩
  refine ⟨pair_entry e.key (scalar_value e.value), ?_, lua_get_pair_entry_key _ _,
    lua_get_pair_entry_value _ _⟩
  rw [Int.add_comm]
  exact lua_get_pair_list_from es 1 i e hi

/-- Witness for claim C4: the container `[a:1 a:2]`. -/
theorem parse_pair_list_witness :
    (∀ e ∈ [entry.mk (bytes "a") 58 (bytes "1"), entry.mk (bytes "a") 58 (bytes "2")],
      entry_ok e = true) ∧
    Returns (bytes "[a:1 a:2]")
      (Except.ok (Value.table [(Key.idx 1, Value.table
        [(Key.idx 1, Value.table
            [(Key.idx 1, Value.string (bytes "a")), (Key.idx 2, Value.integer 1)]),
          (Key.idx 2, Value.table
            [(Key.idx 1, Value.string (bytes "a")), (Key.idx 2, Value.integer 2)])])])) ∧
    ∃ ent,
      lua_get
          [(Key.idx 1, Value.table
              [(Key.idx 1, Value.string (bytes "a")), (Key.idx 2, Value.integer 1)]),
            (Key.idx 2, Value.table
              [(Key.idx 1, Value.string (bytes "a")), (Key.idx 2, Value.integer 2)])]
          (Key.idx 2) = Value.table ent ∧
        lua_get ent (Key.idx 1) = Value.string (bytes "a") ∧
        lua_get ent (Key.idx 2) = Value.integer 2 :=
  ⟨by decide,
    (parse_pair_list [entry.mk (bytes "a") 58 (bytes "1"), entry.mk (bytes "a") 58 (bytes "2")]
      (by decide)).1,
    (parse_pair_list [entry.mk (bytes "a") 58 (bytes "1"), entry.mk (bytes "a") 58 (bytes "2")]
      (by decide)).2.2 1 (entry.mk (bytes "a") 58 (bytes "2")) rfl⟩

/-- Claim C5: for every list of well-formed entries, the container
`{k1 s1 v1 ... kn sn vn}` is parsed (a repeated key is no error) to a map in
which looking up any key gives the value of the last entry with that key. -/
theorem parse_map_last_wins (es : List entry) (h : ∀ e ∈ es, entry_ok e = true) :
    Returns (keyed_document 123 125 es)
      (Except.ok (Value.table [(Key.idx 1, Value.table (map_store [] es))])) ∧
    ∀ key, lua_get (map_store [] es) (Key.str key) = last_value key es :=
  ⟨⟨es.length + 6, fun t0 =>
      lparse_keyed_document false 123 125 rfl rfl es h _ (le_refl _) t0 _ rfl⟩,
    fun key => lua_get_map_store_nil key es⟩

/-- Witness for claim C5: the container `{a:1 a:2}` is the map `{a = 2}`. -/
theorem parse_map_last_wins_witness :
    (∀ e ∈ [entry.mk (bytes "a") 58 (bytes "1"), entry.mk (bytes "a") 58 (bytes "2")],
      entry_ok e = true) ∧
    Returns (bytes "{a:1 a:2}")
      (Except.ok (Value.table [(Key.idx 1, Value.table
        [(Key.str (bytes "a"), Value.integer 2)])])) ∧
    lua_get [(Key.str (bytes "a"), Value.integer 2)] (Key.str (bytes "a")) = Value.integer 2 :=
  ⟨by decide,
    (parse_map_last_wins
      [entry.mk (bytes "a") 58 (bytes "1"), entry.mk (bytes "a") 58 (bytes "2")]
      (by decide)).1,
    (parse_map_last_wins
      [entry.mk (bytes "a") 58 (bytes "1"), entry.mk (bytes "a") 58 (bytes "2")]
      (by decide)).2 (bytes "a")⟩

theorem opening_replicate (n : Nat) : ∀ x ∈ List.replicate n 40, opening x = true := by
  intro x hx
  rw [List.eq_of_mem_replicate hx]
  rfl

/-- Claim C6 (counterexample): 256 nested brackets do not parse, they fail
with "Too depth of brackets"; so do 255. -/
theorem nesting_256_fails :
    Returns (nest_document (List.replicate 256 40))
      (Except.error (Error.raised 1 "Too depth of brackets")) ∧
    (¬ ∃ v, Returns (nest_document (List.replicate 256 40)) (Except.ok v)) ∧
    Returns (nest_document (List.replicate 255 40))
      (Except.error (Error.raised 1 "Too depth of brackets")) := by
  have h256 : Returns (nest_document (List.replicate 256 40))
      (Except.error (Error.raised 1 "Too depth of brackets")) :=
    ⟨_, fun t0 => lparse_nest_too_deep _ (opening_replicate 256)
      (by rw [List.length_replicate]; decide) _ (le_refl _) t0⟩
  refine ⟨h256, ?_, ?_⟩
  · rintro ⟨v, hv⟩
    have := Returns_unique h256 hv
    cases this
  · exact ⟨_, fun t0 => lparse_nest_too_deep _ (opening_replicate 255)
      (by rw [List.length_replicate]) _ (le_refl _) t0⟩

/-- Claim C6 (amended): for every n ≥ 1 and every choice of n opening
brackets, the document made of them followed by the matching closing brackets
parses (to n nested lists) when n ≤ 254 and fails with "Too depth of brackets"
when n ≥ 255. -/
theorem nesting_depth_limit (bs : List Nat) (h : ∀ x ∈ bs, opening x = true)
    (h1 : 1 ≤ bs.length) :
    Returns (nest_document bs)
      (if bs.length ≤ 254 then Except.ok (Value.table (nested_table bs.length))
        else Except.error (Error.raised 1 "Too depth of brackets")) := by
  by_cases hn : bs.length ≤ 254
  · rw [if_pos hn]
    exact ⟨_, fun t0 => lparse_nest_ok bs h h1 hn _ (le_refl _) t0⟩
  · rw [if_neg hn]
    exact ⟨_, fun t0 => lparse_nest_too_deep bs h (by omega) _ (le_refl _) t0⟩

/-- Witness for claim C6 (amended): `([{}])` parses to three nested lists,
and 255 nested `(` fail. -/
theorem nesting_depth_limit_witness :
    ((∀ x ∈ [40, 91, 123], opening x = true) ∧ 1 ≤ [40, 91, 123].length ∧
      Returns (bytes "([{}])")
        (Except.ok (Value.table [(Key.idx 1, Value.table
          [(Key.idx 1, Value.table [(Key.idx 1, Value.table [])])])]))) ∧
    ((∀ x ∈ List.replicate 255 40, opening x = true) ∧ 1 ≤ (List.replicate 255 40).length ∧
      Returns (nest_document (List.replicate 255 40))
        (Except.error (Error.raised 1 "Too depth of brackets"))) :=
  ⟨⟨by decide, by decide, nesting_depth_limit [40, 91, 123] (by decide) (by decide)⟩,
    ⟨opening_replicate 255, by rw [List.length_replicate]; decide,
      by
        have h := nesting_depth_limit (List.replicate 255 40) (opening_replicate 255)
          (by rw [List.length_replicate]; decide)
        rw [List.length_replicate, if_neg (by decide)] at h
        exact h⟩⟩

/-- Claim C7: in a root-level keyed document whose pairs use one separator, a
later key that is followed by the other separator makes `parse` fail with
"Invalid separator", whatever follows; no value is returned. -/
theorem mixed_separators_rejected (e : entry) (es : List entry) (k2 rest : List Nat) (s2 : Nat)
    (he : entry_ok e = true) (hes : ∀ x ∈ es, entry_ok x = true ∧ x.sep = e.sep)
    (hk2 : atom_text k2 = true) (hs2 : s2 = 58 ∨ s2 = 61) (hne : s2 ≠ e.sep) :
    Returns (root_entries (e :: es) ++ k2 ++ s2 :: rest)
      (Except.error (Error.raised 1 "Invalid separator")) ∧
    ∀ v, ¬ Returns (root_entries (e :: es) ++ k2 ++ s2 :: rest) (Except.ok v) := by
  have h : Returns (root_entries (e :: es) ++ k2 ++ s2 :: rest)
      (Except.error (Error.raised 1 "Invalid separator")) :=
    ⟨_, fun t0 => lparse_mixed_separators e es k2 rest s2 he hes hk2 hs2 hne _ (le_refl _) t0⟩
  refine ⟨h, fun v hv => ?_⟩
  have := Returns_unique h hv
  cases this

/-- Witness for claim C7: `parse("a:1 b=2")`. -/
theorem mixed_separators_rejected_witness :
    (entry_ok (entry.mk (bytes "a") 58 (bytes "1")) = true ∧
      (∀ x ∈ ([] : List entry),
        entry_ok x = true ∧ x.sep = (entry.mk (bytes "a") 58 (bytes "1")).sep) ∧
      atom_text (bytes "b") = true ∧ ((61 : Nat) = 58 ∨ (61 : Nat) = 61) ∧
      (61 : Nat) ≠ (entry.mk (bytes "a") 58 (bytes "1")).sep) ∧
    Returns (bytes "a:1 b=2") (Except.error (Error.raised 1 "Invalid separator")) ∧
    ∀ v, ¬ Returns (bytes "a:1 b=2") (Except.ok v) :=
  ⟨⟨by decide, by simp, by decide, by decide, by decide⟩,
    mixed_separators_rejected (entry.mk (bytes "a") 58 (bytes "1")) [] (bytes "b") (bytes "2") 61
      (by decide) (by simp) (by decide) (by decide) (by decide)⟩

/-- Where the end of the input is reported: when the input ends where a value
is expected inside a container, `push_value` raises "Not closed": either where
the next element of a positional container opened by `(`, `[` or `{` is
expected (every element so far is followed by a comma), or behind the `:` or
`=` of a key of a keyed container opened by `[` or `{`. -/
theorem unclosed_container_not_closed (ob : Nat) (vs : List (List Nat)) (kb : Nat)
    (es : List entry) (k : List Nat) (s : Nat)
    (hob : ob = 40 ∨ ob = 91 ∨ ob = 123) (h : ∀ v ∈ vs, atom_text v = true)
    (hkb : kb = 91 ∨ kb = 123) (hes : ∀ e ∈ es, entry_ok e = true)
    (hk : atom_text k = true) (hs : s = 58 ∨ s = 61) :
    Returns (unclosed_document ob vs) (Except.error (Error.raised 1 "Not closed")) ∧
    Returns (unclosed_keyed_document kb es k s)
      (Except.error (Error.raised 1 "Not closed")) :=
  ⟨⟨_, fun t0 => lparse_unclosed ob hob vs h _ (le_refl _) t0⟩,
    ⟨_, fun t0 => lparse_unclosed_keyed kb hkb es k s hes hk hs _ (le_refl _) t0⟩⟩

/-- Two instances of `unclosed_container_not_closed`: `parse("(1,2,")` and
`parse("[a:1 b:")`. -/
theorem unclosed_container_not_closed_instances :
    ((40 : Nat) = 40 ∨ (40 : Nat) = 91 ∨ (40 : Nat) = 123) ∧
    (∀ v ∈ [bytes "1", bytes "2"], atom_text v = true) ∧
    ((91 : Nat) = 91 ∨ (91 : Nat) = 123) ∧
    (∀ e ∈ [entry.mk (bytes "a") 58 (bytes "1")], entry_ok e = true) ∧
    atom_text (bytes "b") = true ∧ ((58 : Nat) = 58 ∨ (58 : Nat) = 61) ∧
    Returns (bytes "(1,2,") (Except.error (Error.raised 1 "Not closed")) ∧
    Returns (bytes "[a:1 b:") (Except.error (Error.raised 1 "Not closed")) :=
  ⟨by decide, by decide, by decide, by decide, by decide, by decide,
    unclosed_container_not_closed 40 [bytes "1", bytes "2"] 91
      [entry.mk (bytes "a") 58 (bytes "1")] (bytes "b") 58
      (by decide) (by decide) (by decide) (by decide) (by decide) (by decide)⟩

/-! ### Runs of `#` and `*` -/

/-- When every remaining byte equals `c`, the loop of `parse_layer` writes
nothing. -/
theorem parse_layer_loop_run (LS : lex_state) (c : Nat) :
    ∀ (n ptr : Nat), (∀ j, j < n → LS.byte (ptr + j) = c) →
      parse_layer_loop LS c n ptr = LS := by
  intro n
  induction n with
  | zero => intro ptr _; rfl
  | succ n ih =>
    intro ptr h
    have h0 : LS.byte ptr = c := by simpa using h 0 (by omega)
    rw [parse_layer_loop, if_neg (by simp [h0])]
    exact ih (ptr + 1) (fun j hj => by
      have := h (j + 1) (by omega)
      rwa [show ptr + (j + 1) = ptr + 1 + j by omega] at this)

theorem getD_append_replicate (pre : List Nat) (k c j : Nat) (hj : j < k) :
    (pre ++ List.replicate k c).getD (pre.length + j) 0 = c := by
  rw [List.getD_eq_getElem?_getD, List.getElem?_append_right (by omega)]
  simp [hj]

/-- A run of `#` or of `*` that touches the end of the input: `next_token`
returns 1 and writes neither the token nor the end of the run. -/
theorem next_token_layer_end (pre : List Nat) (k c : Nat) (t : token) (hc : c = 35 ∨ c = 42) :
    next_token ⟨pre ++ List.replicate (k + 1) c, pre.length, t⟩ =
      (true, ⟨pre ++ List.replicate (k + 1) c, pre.length, t⟩) := by
  have hb : (pre ++ List.replicate (k + 1) c).getD pre.length 0 = c := by
    simpa using getD_append_replicate pre (k + 1) c 0 (by omega)
  have hlen : (pre ++ List.replicate (k + 1) c).length = pre.length + (k + 1) := by simp
  simp only [next_token, lex_state.sz, next_token_loop, lex_state.byte, hb]
  rw [if_pos (by omega), if_neg (by rintro ⟨h1, _⟩; omega), if_neg (by omega),
    if_neg (by omega), if_neg (by omega), if_pos hc, parse_layer]
  simp only [lex_state.byte, hb]
  rw [parse_layer_loop_run]
  intro j hj
  simp only [lex_state.sz, hlen] at hj
  simp only [lex_state.byte]
  rw [show pre.length + 1 + j = pre.length + (j + 1) by omega]
  exact getD_append_replicate pre (k + 1) c (j + 1) (by omega)

/-- When the run of `c` is followed by another byte, the loop of `parse_layer`
writes the token and moves the cursor to the end of the run. -/
theorem parse_layer_loop_stop (LS : lex_state) (c d : Nat) (hd : d ≠ c) :
    ∀ (k n ptr : Nat), (∀ j, j < k → LS.byte (ptr + j) = c) → LS.byte (ptr + k) = d → k < n →
      parse_layer_loop LS c n ptr =
        { LS with
          t := { type := if ptr + k - LS.position = 1 then TOKEN_ATOM else TOKEN_LAYER,
                 from_ := LS.position, to_ := ptr + k },
          position := ptr + k } := by
  intro k
  induction k with
  | zero =>
    intro n ptr _ h0 hn
    obtain ⟨m, rfl⟩ : ∃ m, n = m + 1 := ⟨n - 1, by omega⟩
    simp only [Nat.add_zero] at h0 ⊢
    rw [parse_layer_loop, if_pos (by rw [h0]; exact hd)]
  | succ k ih =>
    intro n ptr h h0 hn
    obtain ⟨m, rfl⟩ : ∃ m, n = m + 1 := ⟨n - 1, by omega⟩
    have hb : LS.byte ptr = c := by simpa using h 0 (by omega)
    rw [parse_layer_loop, if_neg (by simp [hb])]
    rw [ih m (ptr + 1) (fun j hj => by
        have := h (j + 1) (by omega)
        rwa [show ptr + (j + 1) = ptr + 1 + j by omega] at this)
      (by rwa [show ptr + 1 + k = ptr + (k + 1) by omega]) (by omega)]
    rw [show ptr + 1 + k = ptr + (k + 1) by omega]

/-- A run of `k + 1` bytes `#` or `*` that is followed by another byte: the
token is the run, an Atom when `k = 0` and a Layer otherwise, and the cursor
is at the end of the run. -/
theorem next_token_layer {src : List Nat} {p : Nat} (k c d : Nat) (r : List Nat) (t : token)
    (h : src.drop p = List.replicate (k + 1) c ++ d :: r) (hc : c = 35 ∨ c = 42)
    (hd : d ≠ c) :
    next_token ⟨src, p, t⟩ =
      (true, ⟨src, p + (k + 1),
        ⟨if k = 0 then TOKEN_ATOM else TOKEN_LAYER, p, p + (k + 1)⟩⟩) := by
  have hget : ∀ j, (src.drop p).getD j 0 = src.getD (p + j) 0 := by
    intro j
    simp [List.getD_eq_getElem?_getD, List.getElem?_drop]
  have hrun : ∀ j, j < k + 1 → src.getD (p + j) 0 = c := by
    intro j hj
    rw [← hget, h, List.getD_eq_getElem?_getD, List.getElem?_append_left (by simpa using hj)]
    simp [hj]
  have hstop : src.getD (p + (k + 1)) 0 = d := by
    rw [← hget, h, List.getD_eq_getElem?_getD, List.getElem?_append_right (by simp)]
    simp
  have hb : src.getD p 0 = c := by simpa using hrun 0 (by omega)
  have hlen : p + (k + 1) < src.length := by
    have := congrArg List.length h
    simp at this
    omega
  simp only [next_token, lex_state.sz, next_token_loop, lex_state.byte, hb]
  rw [if_pos (by omega), if_neg (by rintro ⟨h1, _⟩; omega), if_neg (by omega),
    if_neg (by omega), if_neg (by omega), if_pos hc, parse_layer]
  simp only [lex_state.byte, hb, lex_state.sz]
  rw [parse_layer_loop_stop _ c d hd k _ (p + 1)
    (fun j hj => by
      simp only [lex_state.byte]
      rw [show p + 1 + j = p + (j + 1) by omega]
      exact hrun (j + 1) (by omega))
    (by simp only [lex_state.byte]; rw [show p + 1 + k = p + (k + 1) by omega]; exact hstop)
    (by omega)]
  have e : p + 1 + k = p + (k + 1) := by omega
  simp only [e]
  by_cases hk : k = 0
  · subst hk; simp
  · rw [if_neg (by omega), if_neg hk]

/-- Claim C16 (failing input): a run of `#` or of `*` that touches the end of
the input is not returned as a token: `next_token` returns 1 with the token
it was given and the cursor at the start of the run.  On `1 ##` the parser
therefore reads the Atom `1` again and again and never returns. -/
theorem next_token_run_at_end_of_input (pre : List Nat) (k : Nat) (t : token) :
    next_token ⟨pre ++ List.replicate (k + 1) 35, pre.length, t⟩ =
      (true, ⟨pre ++ List.replicate (k + 1) 35, pre.length, t⟩) ∧
    next_token ⟨pre ++ List.replicate (k + 1) 42, pre.length, t⟩ =
      (true, ⟨pre ++ List.replicate (k + 1) 42, pre.length, t⟩) ∧
    next_token ⟨bytes "1 ##", 1, ⟨TOKEN_ATOM, 0, 1⟩⟩ =
      (true, ⟨bytes "1 ##", 2, ⟨TOKEN_ATOM, 0, 1⟩⟩) ∧
    Diverges (bytes "1 ##") := by
  refine ⟨next_token_layer_end pre k 35 t (by decide), next_token_layer_end pre k 42 t (by decide),
    by decide, ?_⟩
  apply Diverges_of_eval
  · exact fun t0 => first_token_atom _ (bytes "1") 32 (bytes "##") rfl
      (by decide) (by decide) _ _
  · intro fuel
    have hr : read_key ⟨bytes "1 ##", 0, ⟨TOKEN_EOF, 0, 0⟩⟩ ⟨TOKEN_EOF, 0, 0⟩ =
        Except.ok (2, ⟨TOKEN_ATOM, 0, 1⟩, ⟨bytes "1 ##", 2, ⟨TOKEN_ATOM, 0, 1⟩⟩) := by decide
    rw [lparse, parse_outer, hr]
    simp only
    rw [if_pos (by decide)]
    simp only [push_token, reduceCtorEq, if_false, if_true]
    rw [parse_seq_stuck ⟨bytes "1 ##", 2, ⟨TOKEN_ATOM, 0, 1⟩⟩ rfl (by decide)]

/-- Claim C17 (failing input): `parse("[a:1 b]")` and `parse("{a:1 b}")`
succeed: the key `b`, which has no separator and no value, is dropped.  So
does `parse("a:1 b ")` at the root. -/
theorem keyed_content_drops_lone_key :
    Returns (bytes "[a:1 b]")
      (Except.ok (Value.table [(Key.idx 1, Value.table [(Key.idx 1,
        Value.table [(Key.idx 1, Value.string (bytes "a")), (Key.idx 2, Value.integer 1)])])])) ∧
    Returns (bytes "{a:1 b}")
      (Except.ok (Value.table [(Key.idx 1,
        Value.table [(Key.str (bytes "a"), Value.integer 1)])])) ∧
    Returns (bytes "a:1 b ")
      (Except.ok (Value.table [(Key.idx 1,
        Value.table [(Key.idx 1, Value.string (bytes "a")), (Key.idx 2, Value.integer 1)])])) :=
  ⟨Returns_of_eval 8 (fun t0 => first_token_bracket _ 91 (bytes "a:1 b]") rfl
      (by decide) _ _) (by decide),
    Returns_of_eval 8 (fun t0 => first_token_bracket (bytes "{a:1 b}") 123
      (bytes "a:1 b" ++ [125]) (by decide)
      (by decide) _ _) (by decide),
    Returns_of_eval 8 (fun t0 => first_token_atom _ (bytes "a") 58 (bytes "1 b ") rfl
      (by decide) (by decide) _ _) (by decide)⟩

/-- Claim C18 (failing input): in `[a:1 "]"` the quoted string `"]"` stands
where a key is expected; it ends the container, the opening `[` is never
closed by a Bracket token, and `parse` succeeds.  The same holds for
`{a:1 "}"` (the byte 123 is `{`, 125 is `}`, 34 is the double quote). -/
theorem quoted_bracket_closes_container :
    Returns (bytes "[a:1 " ++ [34, 93, 34])
      (Except.ok (Value.table [(Key.idx 1, Value.table [(Key.idx 1,
        Value.table [(Key.idx 1, Value.string (bytes "a")), (Key.idx 2, Value.integer 1)])])])) ∧
    Returns (123 :: (bytes "a:1 " ++ [34, 125, 34]))
      (Except.ok (Value.table [(Key.idx 1,
        Value.table [(Key.str (bytes "a"), Value.integer 1)])])) :=
  ⟨Returns_of_eval 8 (fun t0 => first_token_bracket (bytes "[a:1 " ++ [34, 93, 34]) 91 (bytes "a:1 " ++ [34, 93, 34])
      (by decide)
      (by decide) _ _) (by decide),
    Returns_of_eval 8 (fun t0 => first_token_bracket _ 123 (bytes "a:1 " ++ [34, 125, 34]) rfl
      (by decide) _ _) (by decide)⟩

/-- Claim C20 (failing input): the lexer turns the seven bytes `"\x4\\"`
(quote, backslash, `x`, `4`, backslash, backslash, quote) into an
EscapedString token with the span `1..6`; the decoder takes the first of the
two last backslashes as the second character of the `\x` escape, reaches the
last one at the end of the span, and its assertion `i < sz` fails. -/
theorem decoder_assertion_fails :
    (∀ t0, next_token ⟨[34, 92, 120, 52, 92, 92, 34], 0, t0⟩ =
      (true, ⟨[34, 92, 120, 52, 92, 92, 34], 7, ⟨TOKEN_ESCAPESTRING, 1, 6⟩⟩)) ∧
    push_token_string [34, 92, 120, 52, 92, 92, 34] 1 (6 - 1) =
      decode_result.assert_failed "i < sz" ∧
    Returns [34, 92, 120, 52, 92, 92, 34] (Except.error (Error.aborted "i < sz")) := by
  have h : ∀ t0, next_token ⟨[34, 92, 120, 52, 92, 92, 34], 0, t0⟩ =
      (true, ⟨[34, 92, 120, 52, 92, 92, 34], 7, ⟨TOKEN_ESCAPESTRING, 1, 6⟩⟩) := by
    intro t0
    simp [next_token, next_token_loop, parse_string, parse_string_loop, lex_state.byte,
      lex_state.sz]
  exact ⟨h, by decide, Returns_of_eval 8 (fun t0 => by rw [h t0, h]) (by decide)⟩

/-! ### Escape decoder -/

theorem to_hex_of_isxdigit {c : Nat} (h : isxdigit c = true) :
    to_hex c = (hex_digit_value c : Int) := by
  simp only [isxdigit, Bool.or_eq_true, Bool.and_eq_true, decide_eq_true_eq] at h
  unfold to_hex hex_digit_value
  rcases h with (h | h) | h
  · rw [if_pos h, if_pos h.2]; omega
  · rw [if_neg (by omega), if_pos h, if_neg (by omega), if_pos h.1]; omega
  · rw [if_neg (by omega), if_neg (by omega), if_pos h, if_neg (by omega), if_neg (by omega)]
    omega

theorem to_hex_of_not_isxdigit {c : Nat} (h : isxdigit c = false) : to_hex c = -1 := by
  simp only [isxdigit, Bool.or_eq_false_iff, Bool.and_eq_false_iff, decide_eq_false_iff_not] at h
  unfold to_hex
  rw [if_neg (by omega), if_neg (by omega), if_neg (by omega)]

theorem hex_digit_value_lt {c : Nat} (h : isxdigit c = true) : hex_digit_value c < 16 := by
  simp only [isxdigit, Bool.or_eq_true, Bool.and_eq_true, decide_eq_true_eq] at h
  unfold hex_digit_value
  split_ifs <;> omega

theorem hex_digit_value_eq_zero {c : Nat} (h : isxdigit c = true) :
    hex_digit_value c = 0 ↔ c = 48 := by
  simp only [isxdigit, Bool.or_eq_true, Bool.and_eq_true, decide_eq_true_eq] at h
  unfold hex_digit_value
  rcases h with (h | h) | h
  · rw [if_pos h.2]; omega
  · rw [if_neg (by omega), if_pos h.1]; omega
  · rw [if_neg (by omega), if_neg (by omega)]; omega

/-- One step of the decoder at a plain byte. -/
theorem decode_plain_step (src : List Nat) (ptr sz fuel i : Nat) (buffer : List Nat)
    (hi : i < sz) (hb : src.getD (ptr + i) 0 ≠ 92) :
    push_token_string_loop src ptr sz (fuel + 1) i buffer =
      push_token_string_loop src ptr sz fuel (i + 1) (buffer ++ [src.getD (ptr + i) 0]) := by
  rw [push_token_string_loop, if_pos hi, if_pos hb]

/-- One step of the decoder at a backslash that is followed by a decimal
digit. -/
theorem decode_decimal_step (src : List Nat) (ptr sz fuel i : Nat) (buffer : List Nat)
    (hi : i + 1 < sz) (hb : src.getD (ptr + i) 0 = 92)
    (hd : isdigit (src.getD (ptr + i + 1) 0) = true) :
    push_token_string_loop src ptr sz (fuel + 1) i buffer =
      if i + 2 < sz ∧ isdigit (src.getD (ptr + i + 2) 0) = true then
        if i + 3 < sz ∧ isdigit (src.getD (ptr + i + 3) 0) = true ∧
            (src.getD (ptr + i + 1) 0 - 48) * 100 + (src.getD (ptr + i + 2) 0 - 48) * 10 +
              (src.getD (ptr + i + 3) 0 - 48) ≤ 255 then
          push_token_string_loop src ptr sz fuel (i + 4)
            (buffer ++ [(src.getD (ptr + i + 1) 0 - 48) * 100 +
              (src.getD (ptr + i + 2) 0 - 48) * 10 + (src.getD (ptr + i + 3) 0 - 48)])
        else
          push_token_string_loop src ptr sz fuel (i + 3)
            (buffer ++ [(src.getD (ptr + i + 1) 0 - 48) * 10 + (src.getD (ptr + i + 2) 0 - 48)])
      else
        push_token_string_loop src ptr sz fuel (i + 2)
          (buffer ++ [src.getD (ptr + i + 1) 0 - 48]) := by
  generalize h1 : src.getD (ptr + i + 1) 0 = c1 at hd ⊢
  generalize h2 : src.getD (ptr + i + 2) 0 = c2
  generalize h3 : src.getD (ptr + i + 3) 0 = c3
  have h1' : src.getD (ptr + (i + 1)) 0 = c1 := h1
  have h2' : src.getD (ptr + (i + 1) + 1) 0 = c2 := h2
  have h3' : src.getD (ptr + (i + 1 + 1) + 1) 0 = c3 := h3
  simp only [isdigit, Bool.and_eq_true, decide_eq_true_eq] at hd ⊢
  rw [push_token_string_loop, if_pos (by omega), if_neg (not_not.mpr hb)]
  simp only [h1', h2']
  rw [if_neg (by omega), if_pos hd]
  by_cases c : i + 2 < sz ∧ 48 ≤ c2 ∧ c2 ≤ 57
  · have c' : (decide (i + 1 + 1 < sz) && (decide (48 ≤ c2) && decide (c2 ≤ 57))) = true := by
      simpa using c
    simp only [c', if_true, h3']
    rw [if_pos c]
    by_cases d : i + 3 < sz ∧ (48 ≤ c3 ∧ c3 ≤ 57) ∧
        (c1 - 48) * 100 + (c2 - 48) * 10 + (c3 - 48) ≤ 255
    · have d' : (decide (i + 1 + 1 + 1 < sz) && (decide (48 ≤ c3) && decide (c3 ≤ 57)) &&
          decide (((c1 - 48) * 10 + c2 - 48) * 10 + c3 - 48 ≤ 255)) = true := by
        simp only [Bool.and_eq_true, decide_eq_true_eq]
        exact ⟨⟨d.1, d.2.1⟩, by omega⟩
      simp only [d', if_true]
      rw [if_pos d]
      have e : ((c1 - 48) * 10 + c2 - 48) * 10 + c3 - 48 =
          (c1 - 48) * 100 + (c2 - 48) * 10 + (c3 - 48) := by omega
      rw [e]
    · have d' : (decide (i + 1 + 1 + 1 < sz) && (decide (48 ≤ c3) && decide (c3 ≤ 57)) &&
          decide (((c1 - 48) * 10 + c2 - 48) * 10 + c3 - 48 ≤ 255)) = false := by
        rw [Bool.eq_false_iff]
        simp only [ne_eq, Bool.and_eq_true, decide_eq_true_eq]
        intro hh
        exact d ⟨hh.1.1, hh.1.2, by omega⟩
      simp only [d', Bool.false_eq_true, if_false]
      rw [if_neg d]
      have e : (c1 - 48) * 10 + c2 - 48 = (c1 - 48) * 10 + (c2 - 48) := by omega
      rw [e]
  · have c' : (decide (i + 1 + 1 < sz) && (decide (48 ≤ c2) && decide (c2 ≤ 57))) = false := by
      rw [Bool.eq_false_iff]
      simpa using c
    simp only [c', Bool.false_eq_true, if_false, h2']
    rw [if_neg c]
    have d' : (decide (i + 1 + 1 < sz) && (decide (48 ≤ c2) && decide (c2 ≤ 57)) &&
        decide ((c1 - 48) * 10 + c2 - 48 ≤ 255)) = false := by
      rw [c']; rfl
    simp

/-- A `\x` escape with fewer than two bytes after the `x` inside the span
fails. -/
theorem decode_hex_short (src : List Nat) (ptr sz fuel i : Nat) (buffer : List Nat)
    (hi : i + 1 < sz) (hs : sz ≤ i + 3) (hb : src.getD (ptr + i) 0 = 92)
    (hx : src.getD (ptr + i + 1) 0 = 120 ∨ src.getD (ptr + i + 1) 0 = 88) :
    push_token_string_loop src ptr sz (fuel + 1) i buffer = decode_result.failed := by
  have hx' : src.getD (ptr + (i + 1)) 0 = 120 ∨ src.getD (ptr + (i + 1)) 0 = 88 := hx
  rw [push_token_string_loop, if_pos (by omega), if_neg (not_not.mpr hb)]
  simp only
  rw [if_neg (by omega), if_neg (by omega), if_pos hx', if_pos (by omega)]

/-- A `\x` escape whose first byte after the `x` is not a hex digit fails. -/
theorem decode_hex_bad_digit (src : List Nat) (ptr sz fuel i : Nat) (buffer : List Nat)
    (hi : i + 1 < sz) (hb : src.getD (ptr + i) 0 = 92)
    (hx : src.getD (ptr + i + 1) 0 = 120 ∨ src.getD (ptr + i + 1) 0 = 88)
    (h1 : isxdigit (src.getD (ptr + i + 2) 0) = false) :
    push_token_string_loop src ptr sz (fuel + 1) i buffer = decode_result.failed := by
  have hx' : src.getD (ptr + (i + 1)) 0 = 120 ∨ src.getD (ptr + (i + 1)) 0 = 88 := hx
  have h1' : to_hex (src.getD (ptr + (i + 1) + 1) 0) = -1 := to_hex_of_not_isxdigit h1
  rw [push_token_string_loop, if_pos (by omega), if_neg (not_not.mpr hb)]
  simp only
  rw [if_neg (by omega), if_neg (by omega), if_pos hx']
  split
  · rfl
  · rw [h1', if_pos (by decide)]

/-- One step of the decoder at a `\x` escape with two bytes after the `x`
inside the span, the first of them a hex digit: both bytes are consumed; the
second one counts only when it is a hex digit other than `0`. -/
theorem decode_hex_step (src : List Nat) (ptr sz fuel i : Nat) (buffer : List Nat)
    (hi : i + 3 < sz) (hb : src.getD (ptr + i) 0 = 92)
    (hx : src.getD (ptr + i + 1) 0 = 120 ∨ src.getD (ptr + i + 1) 0 = 88)
    (h1 : isxdigit (src.getD (ptr + i + 2) 0) = true) :
    push_token_string_loop src ptr sz (fuel + 1) i buffer =
      push_token_string_loop src ptr sz fuel (i + 4)
        (buffer ++ [if isxdigit (src.getD (ptr + i + 3) 0) = true ∧ src.getD (ptr + i + 3) 0 ≠ 48
          then 16 * hex_digit_value (src.getD (ptr + i + 2) 0) +
            hex_digit_value (src.getD (ptr + i + 3) 0)
          else hex_digit_value (src.getD (ptr + i + 2) 0)]) := by
  generalize e2 : src.getD (ptr + i + 2) 0 = c2 at h1 ⊢
  generalize e3 : src.getD (ptr + i + 3) 0 = c3
  have hx' : src.getD (ptr + (i + 1)) 0 = 120 ∨ src.getD (ptr + (i + 1)) 0 = 88 := hx
  have e2' : src.getD (ptr + (i + 1) + 1) 0 = c2 := e2
  have e3' : src.getD (ptr + (i + 1) + 2) 0 = c3 := e3
  rw [push_token_string_loop, if_pos (by omega), if_neg (not_not.mpr hb)]
  simp only [e2', e3']
  rw [if_neg (by omega), if_neg (by omega), if_pos hx', if_neg (by omega),
    to_hex_of_isxdigit h1, if_neg (by omega)]
  by_cases h3 : isxdigit c3 = true
  · rw [to_hex_of_isxdigit h3]
    by_cases h0 : c3 = 48
    · subst h0
      rw [if_neg (by decide), if_neg (by simp)]
      rfl
    · have hpos : 0 < hex_digit_value c3 := by
        rcases Nat.eq_zero_or_pos (hex_digit_value c3) with h | h
        · exact absurd ((hex_digit_value_eq_zero h3).mp h) h0
        · exact h
      rw [if_pos (by omega), if_pos ⟨h3, h0⟩]
      have : ((hex_digit_value c2 : Int) * 16 + (hex_digit_value c3 : Int)).toNat =
          16 * hex_digit_value c2 + hex_digit_value c3 := by omega
      rw [this]
  · rw [to_hex_of_not_isxdigit (by simpa using h3), if_neg (by decide), if_neg (by simp [h3])]
    rfl

/-- Claim C12: at a backslash that is followed by a decimal digit the decoder
always takes that digit, takes a second digit when the next byte of the span
is a digit, and takes a third one only when the next byte of the span is a
digit and the three-digit value is at most 255.  It emits one byte, at most
255.  A third digit that is not taken is copied to the output by the next
step.  `\065` decodes to the byte 65 and `\256` to the byte 25 followed by
`6`. -/
theorem decimal_escape_decoding (src : List Nat) (ptr sz fuel i : Nat) (buffer : List Nat)
    (hi : i + 1 < sz) (hb : src.getD (ptr + i) 0 = 92)
    (hd : isdigit (src.getD (ptr + i + 1) 0) = true) :
    (push_token_string_loop src ptr sz (fuel + 1) i buffer =
      if i + 2 < sz ∧ isdigit (src.getD (ptr + i + 2) 0) = true then
        if i + 3 < sz ∧ isdigit (src.getD (ptr + i + 3) 0) = true ∧
            (src.getD (ptr + i + 1) 0 - 48) * 100 + (src.getD (ptr + i + 2) 0 - 48) * 10 +
              (src.getD (ptr + i + 3) 0 - 48) ≤ 255 then
          push_token_string_loop src ptr sz fuel (i + 4)
            (buffer ++ [(src.getD (ptr + i + 1) 0 - 48) * 100 +
              (src.getD (ptr + i + 2) 0 - 48) * 10 + (src.getD (ptr + i + 3) 0 - 48)])
        else
          push_token_string_loop src ptr sz fuel (i + 3)
            (buffer ++ [(src.getD (ptr + i + 1) 0 - 48) * 10 + (src.getD (ptr + i + 2) 0 - 48)])
      else
        push_token_string_loop src ptr sz fuel (i + 2)
          (buffer ++ [src.getD (ptr + i + 1) 0 - 48])) ∧
    (∃ b k, b ≤ 255 ∧ 2 ≤ k ∧ k ≤ 4 ∧
      push_token_string_loop src ptr sz (fuel + 1) i buffer =
        push_token_string_loop src ptr sz fuel (i + k) (buffer ++ [b])) ∧
    (i + 3 < sz → isdigit (src.getD (ptr + i + 2) 0) = true →
      isdigit (src.getD (ptr + i + 3) 0) = true →
      255 < (src.getD (ptr + i + 1) 0 - 48) * 100 + (src.getD (ptr + i + 2) 0 - 48) * 10 +
        (src.getD (ptr + i + 3) 0 - 48) →
      push_token_string_loop src ptr sz (fuel + 2) i buffer =
        push_token_string_loop src ptr sz fuel (i + 4)
          (buffer ++ [(src.getD (ptr + i + 1) 0 - 48) * 10 + (src.getD (ptr + i + 2) 0 - 48),
            src.getD (ptr + i + 3) 0])) ∧
    push_token_string [92, 48, 54, 53] 0 4 = decode_result.pushed [65] ∧
    push_token_string [92, 50, 53, 54] 0 4 = decode_result.pushed [25, 54] := by
  have step := decode_decimal_step src ptr sz fuel i buffer hi hb hd
  refine ⟨step, ?_, ?_, by decide, by decide⟩
  · rw [step]
    have h1 := hd
    simp only [isdigit, Bool.and_eq_true, decide_eq_true_eq] at h1
    split
    next h2 =>
      have h2' := h2.2
      simp only [isdigit, Bool.and_eq_true, decide_eq_true_eq] at h2'
      split
      next h3 => exact ⟨_, 4, h3.2.2, by omega, by omega, rfl⟩
      next => exact ⟨_, 3, by omega, by omega, by omega, rfl⟩
    next => exact ⟨_, 2, by omega, by omega, by omega, rfl⟩
  · intro h3 d2 d3 hv
    rw [decode_decimal_step src ptr sz (fuel + 1) i buffer hi hb hd, if_pos ⟨by omega, d2⟩,
      if_neg (by omega), decode_plain_step src ptr sz fuel (i + 3) _ h3]
    · simp only [List.append_assoc, List.singleton_append]
      rfl
    · have : isdigit (src.getD (ptr + (i + 3)) 0) = true := d3
      simp only [isdigit, Bool.and_eq_true, decide_eq_true_eq] at this
      omega

/-- Witness for claim C12: the content `\256`. -/
theorem decimal_escape_decoding_witness :
    0 + 1 < 4 ∧ [92, 50, 53, 54].getD (0 + 0) 0 = 92 ∧
    isdigit ([92, 50, 53, 54].getD (0 + 0 + 1) 0) = true ∧
    push_token_string_loop [92, 50, 53, 54] 0 4 (2 + 2) 0 [] = decode_result.pushed [25, 54] :=
  ⟨by decide, by decide, by decide,
    ((decimal_escape_decoding [92, 50, 53, 54] 0 4 2 0 [] (by decide) (by decide)
      (by decide)).2.2.1 (by decide) (by decide) (by decide) (by decide)).trans (by decide)⟩

/-- Plain bytes are copied: a run of bytes without a backslash takes one step
of the decoder each. -/
theorem decode_plain_prefix (src : List Nat) (ptr sz : Nat) :
    ∀ (pre rest : List Nat) (i fuel : Nat) (buffer : List Nat),
      src.drop (ptr + i) = pre ++ rest → (∀ c ∈ pre, c ≠ 92) → i + pre.length ≤ sz →
      push_token_string_loop src ptr sz (fuel + pre.length) i buffer =
        push_token_string_loop src ptr sz fuel (i + pre.length) (buffer ++ pre) := by
  intro pre
  induction pre with
  | nil => intro rest i fuel buffer _ _ _; simp
  | cons c pre ih =>
    intro rest i fuel buffer h hp hi
    have hc : src.getD (ptr + i) 0 = c := getD_of_drop h
    have h' : src.drop (ptr + (i + 1)) = pre ++ rest := drop_succ_of_drop h
    simp only [List.length_cons] at hi ⊢
    rw [show fuel + (pre.length + 1) = fuel + pre.length + 1 by omega,
      decode_plain_step src ptr sz _ i buffer (by omega) (by rw [hc]; exact hp c (by simp)),
      ih rest (i + 1) fuel _ h' (fun d hd => hp d (by simp [hd])) (by omega), hc]
    rw [show i + 1 + pre.length = i + (pre.length + 1) by omega]
    simp

/-- Claim C13 (counterexample): the content `\x4`, which ends after the one
hex digit, does not decode, and `parse` of the quoted string fails with
"Invalid quote string". -/
theorem hex_escape_second_character_required :
    push_token_string [92, 120, 52] 0 3 = decode_result.failed ∧
    Returns [34, 92, 120, 52, 34] (Except.error (Error.raised 1 "Invalid quote string")) := by
  refine ⟨by decide, Returns_of_eval 8 (fun t0 => ?_) (by decide)⟩
  simp [next_token, next_token_loop, parse_string, parse_string_loop, lex_state.byte,
    lex_state.sz]

/-- Claim C13 (amended): a `\x` or `\X` escape needs two bytes after the `x`
inside the span.  A content without any other backslash that ends with the
escape followed by one byte `h` (any byte, a hex digit included) does not
decode, wherever the span lies in the buffer, and the coercion of the token
raises "Invalid quote string"; so does the decoder whenever it reaches such an
escape with fewer than two bytes left after the `x`. -/
theorem hex_escape_second_character (pre : List Nat) (x h : Nat) (hpre : ∀ c ∈ pre, c ≠ 92)
    (hx : x = 120 ∨ x = 88) :
    push_token_string (pre ++ [92, x, h]) 0 (pre.length + 3) = decode_result.failed ∧
    (∀ (LS : lex_state) (p : Nat) (rest : List Nat),
      LS.source.drop p = pre ++ 92 :: x :: h :: rest →
      push_token_string LS.source p (pre.length + 3) = decode_result.failed ∧
      push_token LS ⟨TOKEN_ESCAPESTRING, p, p + (pre.length + 3)⟩ =
        Except.error (invalid LS "Invalid quote string")) ∧
    (∀ (src : List Nat) (ptr sz fuel i : Nat) (buffer : List Nat), i + 1 < sz → sz ≤ i + 3 →
      src.getD (ptr + i) 0 = 92 → src.getD (ptr + i + 1) 0 = x →
      push_token_string_loop src ptr sz (fuel + 1) i buffer = decode_result.failed) := by
  have hstep : ∀ (src : List Nat) (ptr sz fuel i : Nat) (buffer : List Nat), i + 1 < sz →
      sz ≤ i + 3 → src.getD (ptr + i) 0 = 92 → src.getD (ptr + i + 1) 0 = x →
      push_token_string_loop src ptr sz (fuel + 1) i buffer = decode_result.failed := by
    intro src ptr sz fuel i buffer hi hs hb e1
    exact decode_hex_short src ptr sz fuel i buffer hi hs hb (by rw [e1]; exact hx)
  have hgen : ∀ (src : List Nat) (p : Nat) (rest : List Nat),
      src.drop p = pre ++ 92 :: x :: h :: rest →
      push_token_string src p (pre.length + 3) = decode_result.failed := by
    intro src p rest hd
    have hd' : src.drop (p + 0) = pre ++ 92 :: x :: h :: rest := hd
    have h1 : src.drop (p + pre.length) = 92 :: x :: h :: rest := drop_add_of_drop hd
    have hb : src.getD (p + pre.length) 0 = 92 := getD_of_drop h1
    have hx' : src.getD (p + pre.length + 1) 0 = x := getD_of_drop (drop_succ_of_drop h1)
    rw [push_token_string, if_neg (by omega), show pre.length + 3 = 3 + pre.length by omega,
      decode_plain_prefix src p (3 + pre.length) pre _ 0 3 [] hd' hpre (by omega)]
    exact hstep src p (3 + pre.length) 2 (0 + pre.length) _ (by omega) (by omega)
      (by rw [Nat.zero_add]; exact hb) (by rw [Nat.zero_add]; exact hx')
  refine ⟨?_, ?_, hstep⟩
  · exact hgen (pre ++ [92, x, h]) 0 [] (by simp)
  · intro LS p rest hd
    have := hgen LS.source p rest hd
    refine ⟨this, ?_⟩
    rw [push_token, if_neg (by simp), if_pos rfl]
    simp only [Nat.add_sub_cancel_left, this]

/-- Witness for claim C13 (amended): the contents `\x4` and `ab\Xf`. -/
theorem hex_escape_second_character_witness :
    ((∀ c ∈ ([] : List Nat), c ≠ 92) ∧ ((120 : Nat) = 120 ∨ (120 : Nat) = 88)) ∧
    push_token_string [92, 120, 52] 0 3 = decode_result.failed ∧
    ((∀ c ∈ bytes "ab", c ≠ 92) ∧ ((88 : Nat) = 120 ∨ (88 : Nat) = 88)) ∧
    push_token_string (bytes "ab" ++ [92, 88, 102]) 0 5 = decode_result.failed :=
  ⟨⟨by decide, by decide⟩,
    (hex_escape_second_character [] 120 52 (by decide) (by decide)).1,
    ⟨by decide, by decide⟩,
    (hex_escape_second_character (bytes "ab") 88 102 (by decide) (by decide)).1⟩

/-- Claim C14: the content `\x h1 h2` (or `\X h1 h2`) with two hex digits
decodes to one byte, and the escape consumes both digits wherever it stands:
the byte is `16 * value(h1) + value(h2)` unless `h2` is the digit `0`, and
`value(h1)` when `h2` is `0`.  `\x41` decodes to the byte 65 and `\x40` to the
byte 4. -/
theorem hex_escape_two_digits (x h1 h2 : Nat) (hx : x = 120 ∨ x = 88)
    (hh1 : isxdigit h1 = true) (hh2 : isxdigit h2 = true) :
    push_token_string [92, x, h1, h2] 0 4 =
      decode_result.pushed [if h2 = 48 then hex_digit_value h1
        else 16 * hex_digit_value h1 + hex_digit_value h2] ∧
    (0 < hex_digit_value h2 ↔ h2 ≠ 48) ∧
    (if h2 = 48 then hex_digit_value h1
      else 16 * hex_digit_value h1 + hex_digit_value h2) ≤ 255 ∧
    (∀ (src : List Nat) (ptr sz fuel i : Nat) (buffer : List Nat), i + 3 < sz →
      src.getD (ptr + i) 0 = 92 → src.getD (ptr + i + 1) 0 = x →
      src.getD (ptr + i + 2) 0 = h1 → src.getD (ptr + i + 3) 0 = h2 →
      push_token_string_loop src ptr sz (fuel + 1) i buffer =
        push_token_string_loop src ptr sz fuel (i + 4)
          (buffer ++ [if h2 = 48 then hex_digit_value h1
            else 16 * hex_digit_value h1 + hex_digit_value h2])) ∧
    push_token_string [92, 120, 52, 49] 0 4 = decode_result.pushed [65] ∧
    push_token_string [92, 120, 52, 48] 0 4 = decode_result.pushed [4] := by
  have hstep : ∀ (src : List Nat) (ptr sz fuel i : Nat) (buffer : List Nat), i + 3 < sz →
      src.getD (ptr + i) 0 = 92 → src.getD (ptr + i + 1) 0 = x →
      src.getD (ptr + i + 2) 0 = h1 → src.getD (ptr + i + 3) 0 = h2 →
      push_token_string_loop src ptr sz (fuel + 1) i buffer =
        push_token_string_loop src ptr sz fuel (i + 4)
          (buffer ++ [if h2 = 48 then hex_digit_value h1
            else 16 * hex_digit_value h1 + hex_digit_value h2]) := by
    intro src ptr sz fuel i buffer hi hb e1 e2 e3
    rw [decode_hex_step src ptr sz fuel i buffer hi hb (by rw [e1]; exact hx)
      (by rw [e2]; exact hh1), e2, e3]
    by_cases h0 : h2 = 48
    · rw [if_neg (by simp [h0]), if_pos h0]
    · rw [if_pos ⟨hh2, h0⟩, if_neg h0]
  have hz := hex_digit_value_eq_zero hh2
  refine ⟨?_, ?_, ?_, hstep, by decide, by decide⟩
  · have := hstep [92, x, h1, h2] 0 4 3 0 [] (by decide) rfl rfl rfl rfl
    rw [push_token_string, if_neg (by decide), this]
    rfl
  · constructor
    · intro hp h0; have := hz.mpr h0; omega
    · intro h0
      rcases Nat.eq_zero_or_pos (hex_digit_value h2) with h | h
      · exact absurd (hz.mp h) h0
      · exact h
  · have a1 := hex_digit_value_lt hh1
    have a2 := hex_digit_value_lt hh2
    split <;> omega

/-- Witness for claim C14: the content `\x40`. -/
theorem hex_escape_two_digits_witness :
    ((120 : Nat) = 120 ∨ (120 : Nat) = 88) ∧ isxdigit 52 = true ∧ isxdigit 48 = true ∧
    push_token_string [92, 120, 52, 48] 0 4 = decode_result.pushed [4] :=
  ⟨by decide, by decide, by decide,
    (hex_escape_two_digits 120 52 48 (by decide) (by decide) (by decide)).1.trans (by decide)⟩

/-! ### The span of an Atom -/

theorem dropWhile_head_false (f : Nat → Bool) :
    ∀ (l : List Nat) (c : Nat) (r : List Nat), l.dropWhile f = c :: r → f c = false := by
  intro l
  induction l with
  | nil => intro c r h; simp at h
  | cons x l ih =>
    intro c r h
    by_cases hx : f x = true
    · rw [List.dropWhile_cons_of_pos hx] at h
      exact ih c r h
    · rw [List.dropWhile_cons_of_neg hx] at h
      have := (List.cons.inj h).1
      subst this
      simpa using hx

theorem takeWhile_all (f : Nat → Bool) :
    ∀ (l : List Nat), ∀ x ∈ l.takeWhile f, f x = true := by
  intro l
  induction l with
  | nil => intro x hx; simp at hx
  | cons y l ih =>
    intro x hx
    by_cases hy : f y = true
    · rw [List.takeWhile_cons_of_pos hy] at hx
      rcases List.mem_cons.mp hx with h | h
      · rw [h]; exact hy
      · exact ih x h
    · rw [List.takeWhile_cons_of_neg hy] at hx
      simp at hx

theorem takeWhile_congr_mem (f g : Nat → Bool) :
    ∀ (l : List Nat), (∀ x ∈ l, f x = g x) → l.takeWhile f = l.takeWhile g := by
  intro l
  induction l with
  | nil => intro _; rfl
  | cons y l ih =>
    intro h
    have hy := h y (by simp)
    have hl := ih (fun x hx => h x (by simp [hx]))
    by_cases hf : f y = true
    · rw [List.takeWhile_cons_of_pos hf, List.takeWhile_cons_of_pos (by rw [← hy]; exact hf), hl]
    · rw [List.takeWhile_cons_of_neg hf, List.takeWhile_cons_of_neg (by rw [← hy]; exact hf)]

/-- The token that `parse_atom` writes: the bytes from the cursor up to the
first separator or the end of the buffer. -/
theorem parse_atom_token (src : List Nat) (q : Nat) (t : token) (hq : q ≤ src.length) :
    (parse_atom ⟨src, q, t⟩).t =
      ⟨TOKEN_ATOM, q,
        q + ((src.drop q).takeWhile (fun c => !strchr atom_separator c)).length⟩ := by
  obtain ⟨v, hv⟩ : ∃ v, v = (src.drop q).takeWhile (fun c => !strchr atom_separator c) :=
    ⟨_, rfl⟩
  obtain ⟨rest, hrest⟩ : ∃ rest,
      rest = (src.drop q).dropWhile (fun c => !strchr atom_separator c) := ⟨_, rfl⟩
  have hsplit : src.drop q = v ++ rest := by
    rw [hv, hrest, List.takeWhile_append_dropWhile]
  have hall : ∀ x ∈ v, strchr atom_separator x = false := by
    intro x hx
    rw [hv] at hx
    simpa using takeWhile_all _ _ x hx
  have hlen : src.length - q = v.length + rest.length := by
    have := congrArg List.length hsplit
    simpa using this
  rw [← hv, parse_atom]
  simp only [lex_state.sz]
  cases rest with
  | nil =>
    simp only [List.append_nil] at hsplit
    simp only [List.length_nil, Nat.add_zero] at hlen
    rw [hlen, parse_atom_loop_end v _ q hsplit hall]
    simp only [lex_state.sz]
    congr 1
    omega
  | cons c r =>
    have hc : strchr atom_separator c = true := by
      have := dropWhile_head_false _ _ c r hrest.symm
      simpa using this
    rw [parse_atom_loop_spec c r hc v _ q (src.length - q) hsplit hall
      (by rw [hlen]; simp)]

theorem skip_line_comment_loop_state (src : List Nat) (t : token) :
    ∀ (n p ptr : Nat), ∃ p', (skip_line_comment_loop ⟨src, p, t⟩ n ptr).1 = ⟨src, p', t⟩ ∧
      ptr ≤ (skip_line_comment_loop ⟨src, p, t⟩ n ptr).2 := by
  intro n
  induction n with
  | zero => intro p ptr; exact ⟨p, rfl, le_refl _⟩
  | succ n ih =>
    intro p ptr
    rw [skip_line_comment_loop]
    split
    · exact ⟨ptr, rfl, le_refl _⟩
    · obtain ⟨p', h1, h2⟩ := ih p (ptr + 1)
      exact ⟨p', h1, by omega⟩

theorem parse_layer_loop_cases (LS : lex_state) (c : Nat) :
    ∀ (n ptr : Nat), parse_layer_loop LS c n ptr = LS ∨
      ((parse_layer_loop LS c n ptr).t.from_ = LS.position ∧
        (parse_layer_loop LS c n ptr).source = LS.source) := by
  intro n
  induction n with
  | zero => intro ptr; exact Or.inl rfl
  | succ n ih =>
    intro ptr
    rw [parse_layer_loop]
    split
    · exact Or.inr ⟨rfl, rfl⟩
    · exact ih (ptr + 1)

theorem parse_string_loop_type (o : Nat) :
    ∀ (n : Nat) (LS : lex_state) (ptr : Nat) (LS' : lex_state),
      parse_string_loop o n LS ptr = (true, LS') →
      LS'.t.type = LS.t.type ∨ LS'.t.type = TOKEN_ESCAPESTRING := by
  intro n
  induction n with
  | zero => intro LS ptr LS' h; simp [parse_string_loop] at h
  | succ n ih =>
    intro LS ptr LS' h
    rw [parse_string_loop] at h
    split at h
    · split at h
      · have := (Prod.mk.inj h).2
        subst this
        exact Or.inl rfl
      · split at h
        · simp at h
        · split at h
          · rcases ih _ _ _ h with h' | h'
            · exact Or.inr h'
            · exact Or.inr h'
          · exact ih _ _ _ h
    · simp at h

/-- When `next_token` writes an Atom token that does not start with `#` or
`*`, the token is the one that `parse_atom` writes at some position `q` at or
after the cursor, and the byte at `q` is not a separator. -/
theorem next_token_loop_atom (src : List Nat) (t : token) (LS' : lex_state)
    (hty : LS'.t.type = TOKEN_ATOM) (hw : LS'.t ≠ t)
    (hfirst : src.getD LS'.t.from_ 0 ≠ 35 ∧ src.getD LS'.t.from_ 0 ≠ 42) :
    ∀ (n p0 ptr : Nat), next_token_loop n ⟨src, p0, t⟩ ptr = (true, LS') →
      ∃ q, ptr ≤ q ∧ q < src.length ∧ atom_separator.contains (src.getD q 0) = false ∧
        LS'.t = (parse_atom ⟨src, q, t⟩).t := by
  intro n
  induction n with
  | zero =>
    intro p0 ptr h
    rw [next_token_loop] at h
    have := (Prod.mk.inj h).2
    subst this
    simp at hty
  | succ n ih =>
    intro p0 ptr h
    rw [next_token_loop] at h
    simp only [lex_state.sz, lex_state.byte] at h
    split at h
    next hlt =>
      split at h
      · obtain ⟨p', h1, h2⟩ := skip_line_comment_loop_state src t (src.length - ptr) ptr ptr
        have h1' : (skip_line_comment ⟨src, ptr, t⟩).1 = ⟨src, p', t⟩ := h1
        have h2' : ptr ≤ (skip_line_comment ⟨src, ptr, t⟩).2 := h2
        rw [h1'] at h
        obtain ⟨q, hq1, hq2⟩ := ih p' _ h
        exact ⟨q, by omega, hq2⟩
      · split at h
        · obtain ⟨q, hq1, hq2⟩ := ih ptr (ptr + 1) h
          exact ⟨q, by omega, hq2⟩
        · split at h
          · have := (Prod.mk.inj h).2
            subst this
            simp at hty
          · split at h
            · have := (Prod.mk.inj h).2
              subst this
              simp at hty
            · split at h
              next hc =>
                have := (Prod.mk.inj h).2
                subst this
                rcases parse_layer_loop_cases ⟨src, ptr, t⟩ (src.getD ptr 0)
                  (src.length - (ptr + 1)) (ptr + 1) with h' | h'
                · exact absurd (congrArg lex_state.t h') hw
                · have hf : (parse_layer ⟨src, ptr, t⟩).t.from_ = ptr := h'.1
                  rw [hf] at hfirst
                  omega
              · split at h
                · rcases parse_string_loop_type _ _ _ _ _ h with h' | h'
                  · rw [hty] at h'
                    simp at h'
                  · rw [hty] at h'
                    simp at h'
                · have := (Prod.mk.inj h).2
                  subst this
                  refine ⟨ptr, le_refl _, hlt, ?_, rfl⟩
                  simp only [atom_separator, List.contains_cons, List.contains_nil,
                    Bool.or_false, Bool.or_eq_false_iff, beq_eq_false_iff_ne, ne_eq]
                  omega
    next =>
      have := (Prod.mk.inj h).2
      subst this
      simp at hty

theorem atom_stop_contains (x : Nat) :
    atom_stop.contains x = atom_separator.contains x := by
  rw [Bool.eq_iff_iff]
  simp only [atom_stop, atom_separator, List.contains_cons, List.contains_nil, Bool.or_false,
    Bool.or_eq_true, beq_iff_eq]
  omega

theorem mem_of_mem_drop {x : Nat} {l : List Nat} {n : Nat} (h : x ∈ l.drop n) : x ∈ l :=
  List.mem_of_mem_drop h

/-- Claim C15 (failing input): in `a*b ` the lexer returns the Atom with the
span `0..3`: the text `a*b`, which contains `*`, is one Atom, and `parse`
returns it as one string.  The separator string of `parse_atom` holds `#` but
not `*`: in `a## ` the Atom ends before the `#`, in `a** ` the Atom is
`a**`. -/
theorem atom_span_contains_star :
    (∀ t, next_token ⟨bytes "a*b ", 0, t⟩ =
      (true, ⟨bytes "a*b ", 3, ⟨TOKEN_ATOM, 0, 3⟩⟩)) ∧
    span (bytes "a*b ") 0 (3 - 0) = bytes "a*b" ∧
    42 ∈ span (bytes "a*b ") 0 (3 - 0) ∧
    Returns (bytes "a*b ")
      (Except.ok (Value.table [(Key.idx 1, Value.string (bytes "a*b"))])) ∧
    (∀ t, next_token ⟨bytes "a## ", 0, t⟩ =
      (true, ⟨bytes "a## ", 1, ⟨TOKEN_ATOM, 0, 1⟩⟩)) ∧
    (∀ t, next_token ⟨bytes "a** ", 0, t⟩ =
      (true, ⟨bytes "a** ", 3, ⟨TOKEN_ATOM, 0, 3⟩⟩)) ∧
    strchr atom_separator 35 = true ∧ strchr atom_separator 42 = false := by
  have h : ∀ t, next_token ⟨bytes "a*b ", 0, t⟩ =
      (true, ⟨bytes "a*b ", 3, ⟨TOKEN_ATOM, 0, 3⟩⟩) := fun t =>
    next_token_atom t (show (bytes "a*b ").drop 0 = bytes "a*b" ++ 32 :: [] from rfl)
      (by decide) (by decide)
  exact ⟨h, by decide, by decide, Returns_of_eval 8 (fun t0 => by rw [h t0, h]) (by decide),
    fun t => next_token_atom t
      (show (bytes "a## ").drop 0 = bytes "a" ++ 35 :: bytes "# " from rfl)
      (by decide) (by decide),
    fun t => next_token_atom t
      (show (bytes "a** ").drop 0 = bytes "a**" ++ 32 :: [] from rfl)
      (by decide) (by decide),
    by decide, by decide⟩

/-- What `parse_atom` does keep to: on an input without NUL bytes, whenever
`next_token` writes an Atom token that starts at a byte other than `#` and
`*`, the span of the token is not empty and is the maximal run, from the start
of the token, of bytes that are none of: space, tab, CR, LF, comma, the six
brackets, `:`, `=`, `'`, `"`, `#`. -/
theorem atom_span_is_maximal_run (src : List Nat) (p : Nat) (t : token) (LS' : lex_state)
    (h0 : ∀ x ∈ src, x ≠ 0) (h : next_token ⟨src, p, t⟩ = (true, LS'))
    (hty : LS'.t.type = TOKEN_ATOM) (hw : LS'.t ≠ t)
    (hfirst : src.getD LS'.t.from_ 0 ≠ 35 ∧ src.getD LS'.t.from_ 0 ≠ 42) :
    p ≤ LS'.t.from_ ∧ LS'.t.from_ < LS'.t.to_ ∧ LS'.t.to_ ≤ src.length ∧
    span src LS'.t.from_ (LS'.t.to_ - LS'.t.from_) =
      (src.drop LS'.t.from_).takeWhile (fun c => !atom_stop.contains c) := by
  obtain ⟨q, hq1, hq2, hq3, hq4⟩ :=
    next_token_loop_atom src t LS' hty hw hfirst _ p p h
  rw [parse_atom_token src q t (by omega)] at hq4
  have hcongr : (src.drop q).takeWhile (fun c => !strchr atom_separator c) =
      (src.drop q).takeWhile (fun c => !atom_stop.contains c) := by
    apply takeWhile_congr_mem
    intro x hx
    have hx0 : x ≠ 0 := h0 x (mem_of_mem_drop hx)
    have hb : (x == 0) = false := by simpa using hx0
    simp only [strchr, atom_stop_contains, hb, Bool.false_or]
  obtain ⟨v, hv⟩ : ∃ v, v = (src.drop q).takeWhile (fun c => !atom_stop.contains c) :=
    ⟨_, rfl⟩
  rw [hcongr, ← hv] at hq4
  have hsplit : src.drop q = v ++ (src.drop q).dropWhile (fun c => !atom_stop.contains c) := by
    rw [hv, List.takeWhile_append_dropWhile]
  have hpos : 0 < v.length := by
    obtain ⟨r, hr⟩ : ∃ r, src.drop q = src.getD q 0 :: r := by
      cases hd : src.drop q with
      | nil =>
        have := List.drop_eq_nil_iff.mp hd
        omega
      | cons x r => exact ⟨r, by rw [getD_of_drop hd]⟩
    rw [hv, hr, List.takeWhile_cons_of_pos (by rw [atom_stop_contains, hq3]; rfl)]
    simp
  have hle : v.length ≤ src.length - q := by
    have := congrArg List.length hsplit
    simp only [List.length_drop, List.length_append] at this
    omega
  rw [hq4]
  simp only
  refine ⟨hq1, by omega, by omega, ?_⟩
  rw [← hv, span, show q + v.length - q = v.length by omega, hsplit, List.take_left']
  rfl

/-- An instance of `atom_span_is_maximal_run`: the Atom `a` of `a#b `. -/
theorem atom_span_is_maximal_run_instance :
    (∀ x ∈ bytes "a#b ", x ≠ 0) ∧
    next_token ⟨bytes "a#b ", 0, ⟨TOKEN_EOF, 0, 0⟩⟩ =
      (true, ⟨bytes "a#b ", 1, ⟨TOKEN_ATOM, 0, 1⟩⟩) ∧
    (0 ≤ 0 ∧ 0 < 1 ∧ 1 ≤ (bytes "a#b ").length ∧
      span (bytes "a#b ") 0 (1 - 0) =
        ((bytes "a#b ").drop 0).takeWhile (fun c => !atom_stop.contains c)) :=
  ⟨by decide, by decide,
    atom_span_is_maximal_run (bytes "a#b ") 0 ⟨TOKEN_EOF, 0, 0⟩
      ⟨bytes "a#b ", 1, ⟨TOKEN_ATOM, 0, 1⟩⟩ (by decide) (by decide) rfl (by decide)
      (by decide)⟩

/-! ### Integer atoms -/

theorem foldl_positional_value (base : Nat) (digit : Nat → Nat) :
    ∀ (ds : List Nat) (a : Nat),
      ds.foldl (fun a d => a * base + digit d) a =
        a * base ^ ds.length + positional_value base digit ds := by
  intro ds
  induction ds with
  | nil => intro a; simp [positional_value]
  | cons d ds ih =>
    intro a
    rw [List.foldl_cons, ih, positional_value, List.length_cons, pow_succ]
    ring

theorem hex_integer_value :
    ∀ (cs : List Nat) (v : Nat), (∀ d ∈ cs, isxdigit d = true) →
      hex_integer cs v = some (v * 16 ^ cs.length + positional_value 16 hex_digit_value cs) := by
  intro cs
  induction cs with
  | nil => intro v _; simp [hex_integer, positional_value]
  | cons c cs ih =>
    intro v h
    have hc := h c (by simp)
    have hcs : ∀ d ∈ cs, isxdigit d = true := fun d hd => h d (by simp [hd])
    simp only [isxdigit, Bool.or_eq_true, Bool.and_eq_true, decide_eq_true_eq] at hc
    have e : ∀ w, w * 16 ^ cs.length + positional_value 16 hex_digit_value cs =
        v * 16 ^ (c :: cs).length + positional_value 16 hex_digit_value (c :: cs) ↔
        w * 16 ^ cs.length = (v * 16 + hex_digit_value c) * 16 ^ cs.length := by
      intro w
      rw [positional_value, List.length_cons, pow_succ]
      constructor
      · intro h'; linarith [h']
      · intro h'; linarith [h']
    rw [hex_integer]
    rcases hc with (hc | hc) | hc
    · rw [if_pos hc, ih _ hcs, Option.some.injEq, e]
      congr 1
      unfold hex_digit_value
      rw [if_pos hc.2]
    · rw [if_neg (by omega), if_pos hc, ih _ hcs, Option.some.injEq, e]
      congr 1
      unfold hex_digit_value
      rw [if_neg (by omega), if_pos hc.1]
    · rw [if_neg (by omega), if_neg (by omega), if_pos hc, ih _ hcs, Option.some.injEq, e]
      congr 1
      unfold hex_digit_value
      rw [if_neg (by omega), if_neg (by omega)]

theorem takeWhile_prefix (f : Nat → Bool) :
    ∀ (v rest : List Nat), (∀ d ∈ v, f d = true) → (∀ c ∈ rest.head?, f c = false) →
      (v ++ rest).takeWhile f = v := by
  intro v
  induction v with
  | nil =>
    intro rest _ hr
    cases rest with
    | nil => rfl
    | cons c r =>
      have := hr c (by simp)
      simp [List.takeWhile, this]
  | cons x v ih =>
    intro rest hv hr
    rw [List.cons_append, List.takeWhile_cons_of_pos (hv x (by simp)),
      ih rest (fun d hd => hv d (by simp [hd])) hr]

/-- C `strtoull` on a string of decimal digits that is followed by a byte
that is not a digit, or by nothing. -/
theorem strtoull_digits (x : Nat) (w rest : List Nat)
    (hd : ∀ d ∈ x :: w, isdigit d = true) (hr : ∀ c ∈ rest.head?, isdigit c = false) :
    strtoull (x :: w ++ rest) =
      (if 2 ^ 64 ≤ positional_value 10 (fun d => d - 48) (x :: w) then 2 ^ 64 - 1
        else positional_value 10 (fun d => d - 48) (x :: w), (x :: w).length) := by
  have hx := hd x (by simp)
  simp only [isdigit, Bool.and_eq_true, decide_eq_true_eq] at hx
  have hsp : isspace x = false := by
    simp only [isspace, Bool.or_eq_false_iff, beq_eq_false_iff_ne, ne_eq, Bool.and_eq_false_iff,
      decide_eq_false_iff_not]
    omega
  have e1 : (x :: w ++ rest).takeWhile isspace = [] := by
    rw [List.cons_append, List.takeWhile_cons_of_neg (by simp [hsp])]
  have e2 : sign_len (x :: w ++ rest) = 0 := by
    simp only [sign_len, List.cons_append, List.head?_cons, Option.some.injEq]
    rw [if_neg (by omega)]
  have e3 : (x :: w ++ rest).takeWhile isdigit = x :: w := takeWhile_prefix _ _ _ hd hr
  have e4 : (x :: w ++ rest).head? = some x := rfl
  simp only [strtoull, e1, List.length_nil, List.drop_zero, e2, e3, e4, Nat.zero_add]
  rw [if_neg (by simp)]
  have := foldl_positional_value 10 (fun d => d - 48) (x :: w) 0
  simp only [Nat.zero_mul, Nat.zero_add] at this
  rw [this, if_neg (show ¬ (some x = some 45) by simp; omega)]

theorem push_token_number_decimal (x y : Nat) (w rest : List Nat)
    (hd : ∀ d ∈ x :: y :: w, isdigit d = true) (hr : ∀ c ∈ rest.head?, isdigit c = false)
    (hv : positional_value 10 (fun d => d - 48) (x :: y :: w) < 2 ^ 64) :
    push_token_number (x :: y :: w ++ rest) 0 (x :: y :: w).length =
      some (Value.integer
        (to_lua_Integer (positional_value 10 (fun d => d - 48) (x :: y :: w)))) := by
  have hy := hd y (by simp)
  simp only [isdigit, Bool.and_eq_true, decide_eq_true_eq] at hy
  have e1 : (x :: y :: w ++ rest).getD (0 + 1) 0 = y := rfl
  have e0 : List.drop 0 (x :: y :: w ++ rest) = x :: y :: w ++ rest := rfl
  rw [push_token_number, if_neg (by simp)]
  simp only [e1, e0]
  rw [if_neg (by omega)]
  simp only
  rw [strtoull_digits x (y :: w) rest hd hr, if_pos rfl, if_neg (by omega)]

theorem push_token_number_hex (x : Nat) (hs rest : List Nat) (hx : x = 120 ∨ x = 88)
    (hne : hs ≠ []) (hd : ∀ d ∈ hs, isxdigit d = true) :
    push_token_number (48 :: x :: hs ++ rest) 0 (48 :: x :: hs).length =
      some (Value.integer (to_lua_Integer (positional_value 16 hex_digit_value hs))) := by
  have hlen : 0 < hs.length := List.length_pos.mpr hne
  have e0 : (48 :: x :: hs ++ rest).getD 0 0 = 48 := rfl
  have e1 : (48 :: x :: hs ++ rest).getD (0 + 1) 0 = x := rfl
  have e2 : span (48 :: x :: hs ++ rest) (0 + 2) ((48 :: x :: hs).length - 2) = hs := by
    simp [span]
  rw [push_token_number, if_neg (by simp only [List.length_cons]; omega)]
  simp only [e0, e1, e2]
  rw [if_pos ⟨by simp only [List.length_cons]; omega, trivial, hx⟩, hex_integer_value hs 0 hd]
  simp only [Nat.zero_mul, Nat.zero_add]

/-- Claim C11: an Atom of two or more decimal digits with value `v < 2^64`,
followed by a byte that is not a digit or by the end of the input (as every
Atom of the lexer is), is coerced to the Integer `v` when `v < 2^63` and to
`v - 2^64` otherwise; an Atom `0x` or `0X` followed by one or more hex digits
with value `v` is coerced to `v mod 2^64` read as a signed 64-bit number.
`18446744073709551615` and `0xFFFFFFFFFFFFFFFF` yield `-1`,
`9223372036854775808` yields `-2^63`. -/
theorem push_token_integer_atoms (LS : lex_state) (t : token) (text rest : List Nat)
    (ht : t.type = TOKEN_ATOM) (hsrc : LS.source.drop t.from_ = text ++ rest)
    (hto : t.to_ = t.from_ + text.length) :
    (2 ≤ text.length → (∀ d ∈ text, isdigit d = true) →
      (∀ c ∈ rest.head?, isdigit c = false) →
      positional_value 10 (fun d => d - 48) text < 2 ^ 64 →
      push_token LS t = Except.ok (Value.integer
        (if positional_value 10 (fun d => d - 48) text < 2 ^ 63
          then (positional_value 10 (fun d => d - 48) text : Int)
          else (positional_value 10 (fun d => d - 48) text : Int) - 2 ^ 64))) ∧
    (∀ (x : Nat) (hs : List Nat), text = 48 :: x :: hs → (x = 120 ∨ x = 88) → hs ≠ [] →
      (∀ d ∈ hs, isxdigit d = true) →
      push_token LS t = Except.ok (Value.integer
        (if positional_value 16 hex_digit_value hs % 2 ^ 64 < 2 ^ 63
          then ((positional_value 16 hex_digit_value hs % 2 ^ 64 : Nat) : Int)
          else ((positional_value 16 hex_digit_value hs % 2 ^ 64 : Nat) : Int) - 2 ^ 64))) ∧
    push_token ⟨bytes "18446744073709551615", 20, ⟨TOKEN_ATOM, 0, 20⟩⟩ ⟨TOKEN_ATOM, 0, 20⟩ =
      Except.ok (Value.integer (-1)) ∧
    push_token ⟨bytes "0xFFFFFFFFFFFFFFFF", 18, ⟨TOKEN_ATOM, 0, 18⟩⟩ ⟨TOKEN_ATOM, 0, 18⟩ =
      Except.ok (Value.integer (-1)) ∧
    push_token ⟨bytes "9223372036854775808", 19, ⟨TOKEN_ATOM, 0, 19⟩⟩ ⟨TOKEN_ATOM, 0, 19⟩ =
      Except.ok (Value.integer (-(2 ^ 63))) := by
  obtain ⟨ty, p, q⟩ := t
  simp only at ht hsrc hto
  subst ht hto
  have hplain : push_token LS ⟨TOKEN_ATOM, p, p + text.length⟩ =
      Except.ok (push_token_plain (text ++ rest) ⟨TOKEN_ATOM, 0, text.length⟩) := by
    rw [push_token, if_neg (by simp), if_neg (by simp), push_token_plain_shift, hsrc]
  refine ⟨?_, ?_, by decide, by decide, by decide⟩
  · intro hlen hd hr hv
    obtain ⟨x, y, w, rfl⟩ : ∃ x y w, text = x :: y :: w := by
      match text, hlen with
      | x :: y :: w, _ => exact ⟨x, y, w, rfl⟩
    have hx := hd x (by simp)
    simp only [isdigit, Bool.and_eq_true, decide_eq_true_eq] at hx
    have h0 : strchr (bytes "0123456789+-.") ((x :: y :: w ++ rest).getD 0 0) = true := by
      show strchr (bytes "0123456789+-.") x = true
      have : x = 48 ∨ x = 49 ∨ x = 50 ∨ x = 51 ∨ x = 52 ∨ x = 53 ∨ x = 54 ∨ x = 55 ∨ x = 56 ∨
          x = 57 := by omega
      rcases this with h | h | h | h | h | h | h | h | h | h <;> subst h <;> decide
    rw [hplain, push_token_plain]
    simp only [Nat.sub_zero, h0, if_true]
    rw [push_token_number_decimal x y w rest hd hr hv]
    simp only [to_lua_Integer, Nat.mod_eq_of_lt hv]
  · intro x hs htext hx hne hd
    subst htext
    have h0 : strchr (bytes "0123456789+-.") ((48 :: x :: hs ++ rest).getD 0 0) = true := by
      show strchr (bytes "0123456789+-.") 48 = true
      decide
    rw [hplain, push_token_plain]
    simp only [Nat.sub_zero, h0, if_true]
    rw [push_token_number_hex x hs rest hx hne hd]
    simp only [to_lua_Integer]

/-- Witness for claim C11: the Atoms `9223372036854775808` and `0Xff`, each
followed by a blank. -/
theorem push_token_integer_atoms_witness :
    (TOKEN_ATOM = TOKEN_ATOM ∧
      (bytes "9223372036854775808 ").drop 0 = bytes "9223372036854775808" ++ [32] ∧
      19 = 0 + (bytes "9223372036854775808").length) ∧
    push_token ⟨bytes "9223372036854775808 ", 19, ⟨TOKEN_ATOM, 0, 19⟩⟩ ⟨TOKEN_ATOM, 0, 19⟩ =
      Except.ok (Value.integer (-9223372036854775808)) ∧
    push_token ⟨bytes "0Xff ", 4, ⟨TOKEN_ATOM, 0, 4⟩⟩ ⟨TOKEN_ATOM, 0, 4⟩ =
      Except.ok (Value.integer 255) :=
  ⟨⟨rfl, rfl, rfl⟩,
    ((push_token_integer_atoms ⟨bytes "9223372036854775808 ", 19, ⟨TOKEN_ATOM, 0, 19⟩⟩
      ⟨TOKEN_ATOM, 0, 19⟩ (bytes "9223372036854775808") [32] rfl rfl rfl).1
      (by decide) (by decide) (by decide) (by decide)).trans (by decide),
    ((push_token_integer_atoms ⟨bytes "0Xff ", 4, ⟨TOKEN_ATOM, 0, 4⟩⟩
      ⟨TOKEN_ATOM, 0, 4⟩ (bytes "0Xff") [32] rfl rfl rfl).2.1 88 (bytes "ff") rfl
      (by decide) (by decide) (by decide)).trans (by decide)⟩

/-! ### Keyed documents at the root -/

/-- The call `read_key` at the blank that ends the input. -/
theorem read_key_final_blank {src : List Nat} {p : Nat} (t key : token)
    (h : src.drop p = [32]) :
    read_key ⟨src, p, t⟩ key =
      Except.ok (1, key, ⟨src, src.length, { t with type := TOKEN_EOF }⟩) := by
  rw [read_key, next_token_skip t h (by simp), next_token_end t (drop_succ_of_drop h)]
  simp

/-- The loop of the `:` branch of `parse_outer`, entered after the separator
of the entry with key `k` and value `v`, when every further entry uses the
separator `kv_sep`. -/
theorem parse_outer_pairs_entries (src : List Nat) (d kv_sep : Nat) :
    ∀ (es : List entry) (p : Nat) (t key : token) (k v : List Nat) (tbl : Table) (i : Int)
      (fuel : Nat),
      src.drop p = v ++ 32 :: root_entries es →
      span src key.from_ (key.to_ - key.from_) = k →
      atom_text v = true → (∀ e ∈ es, entry_ok e = true ∧ e.sep = kv_sep) →
      (∀ e ∈ tbl, ∀ j, i ≤ j → e.1 ≠ Key.idx j) → es.length + 2 ≤ fuel →
      ∃ LS', parse_outer_pairs fuel tbl ⟨src, p, t⟩ d key kv_sep i =
        some (Except.ok
          (tbl ++ (Key.idx i, Value.table (pair_entry k (scalar_value v))) ::
            pair_list_from (i + 1) es, LS')) := by
  intro es
  induction es with
  | nil =>
    intro p t key k v tbl i fuel h hk hv _ hfresh hf
    obtain ⟨f, rfl⟩ : ∃ f, fuel = f + 2 := ⟨fuel - 2, by simp at hf; omega⟩
    have h1 : src.drop p = v ++ 32 :: [] := by rw [h]; rfl
    have h2 : src.drop (p + v.length) = [32] := drop_add_of_drop h1
    refine ⟨⟨src, src.length, ⟨TOKEN_EOF, p, p + v.length⟩⟩, ?_⟩
    · rw [parse_outer_pairs, next_token_atom t h1 hv (by decide)]
      simp only
      rw [push_value_atom, push_token_plain_atom h1 hv (by decide) (by decide)]
      simp only
      rw [read_key_final_blank _ _ h2, pair_entry_eq _ key k _ hk]
      simp only [ne_eq, one_ne_zero, not_false_eq_true, if_true]
      rw [lua_seti_fresh tbl i _ (fun e he => hfresh e he i (le_refl _))]
      simp only [Value.isNil, Bool.false_eq_true, if_false, pair_list_from]
  | cons e es ih =>
    intro p t key k v tbl i fuel h hk hv hes hfresh hf
    obtain ⟨f, rfl⟩ : ∃ f, fuel = f + 2 := ⟨fuel - 2, by simp at hf; omega⟩
    obtain ⟨heo, hsep'⟩ := hes e (by simp)
    simp only [entry_ok, Bool.and_eq_true, Bool.or_eq_true, beq_iff_eq] at heo
    obtain ⟨⟨hek, hsep⟩, hev⟩ := heo
    have h1 : src.drop p = v ++ 32 :: (e.key ++ e.sep :: (e.value ++ 32 :: root_entries es)) := by
      rw [h]; simp [root_entries]
    have h2 := drop_add_of_drop h1
    have h3 : src.drop (p + v.length + 1) =
        e.key ++ e.sep :: (e.value ++ 32 :: root_entries es) := drop_succ_of_drop h2
    have h3' : src.drop (p + v.length + 1 + e.key.length) =
        e.sep :: (e.value ++ 32 :: root_entries es) := drop_add_of_drop h3
    have h4 := drop_succ_of_drop h3'
    have hb := getD_of_drop h3'
    obtain ⟨LS', hLS'⟩ := ih (p + v.length + 1 + e.key.length + 1)
      ⟨TOKEN_SYMBOL, p + v.length + 1 + e.key.length, p + v.length + 1 + e.key.length + 1⟩
      ⟨TOKEN_ATOM, p + v.length + 1, p + v.length + 1 + e.key.length⟩ e.key e.value
      (tbl ++ [(Key.idx i, Value.table (pair_entry k (scalar_value v)))]) (i + 1) (f + 1) h4
      (span_of_drop h3) hev (fun x hx => hes x (by simp [hx]))
      (by
        intro x hx j hj
        rcases List.mem_append.mp hx with hx | hx
        · exact hfresh x hx j (by omega)
        · simp only [List.mem_singleton] at hx
          subst hx
          simp only [ne_eq, Key.idx.injEq]
          omega)
      (by simp at hf ⊢; omega)
    refine ⟨LS', ?_⟩
    rw [parse_outer_pairs, next_token_atom t h1 hv (by decide)]
    simp only
    rw [push_value_atom, push_token_plain_atom h1 hv (by decide) (by decide)]
    simp only
    rw [read_key_space_entry _ _ h2 hek hsep, pair_entry_eq _ key k _ hk]
    simp only [ne_eq, not_true_eq_false, if_false, lex_state.byte, hb, hsep']
    rw [lua_seti_fresh tbl i _ (fun e he => hfresh e he i (le_refl _))]
    simp only [Value.isNil, Bool.false_eq_true, if_false]
    rw [hLS']
    simp only [pair_list_from, List.append_assoc, List.cons_append, List.nil_append]

/-- The loop of the map branch of `parse_outer`, entered after the separator
of the entry with key `k` and value `v`, when every further entry uses the
separator `kv_sep`. -/
theorem parse_outer_fields_entries (src : List Nat) (d kv_sep : Nat) :
    ∀ (es : List entry) (p : Nat) (t key : token) (k v : List Nat) (tbl : Table)
      (fuel : Nat),
      src.drop p = v ++ 32 :: root_entries es →
      span src key.from_ (key.to_ - key.from_) = k →
      atom_text v = true → (∀ e ∈ es, entry_ok e = true ∧ e.sep = kv_sep) →
      es.length + 2 ≤ fuel →
      ∃ LS', parse_outer_fields fuel tbl ⟨src, p, t⟩ d key kv_sep =
        some (Except.ok (map_store (lua_settable tbl k (scalar_value v)) es, LS')) := by
  intro es
  induction es with
  | nil =>
    intro p t key k v tbl fuel h hk hv _ hf
    obtain ⟨f, rfl⟩ : ∃ f, fuel = f + 2 := ⟨fuel - 2, by simp at hf; omega⟩
    have h1 : src.drop p = v ++ 32 :: [] := by rw [h]; rfl
    have h2 : src.drop (p + v.length) = [32] := drop_add_of_drop h1
    refine ⟨⟨src, src.length, ⟨TOKEN_EOF, p, p + v.length⟩⟩, ?_⟩
    · rw [parse_outer_fields, next_token_atom t h1 hv (by decide)]
      simp only
      rw [push_value_atom, push_token_plain_atom h1 hv (by decide) (by decide)]
      simp only
      rw [read_key_final_blank _ _ h2]
      simp only [ne_eq, one_ne_zero, not_false_eq_true, if_true, push_key, hk, map_store]
  | cons e es ih =>
    intro p t key k v tbl fuel h hk hv hes hf
    obtain ⟨f, rfl⟩ : ∃ f, fuel = f + 2 := ⟨fuel - 2, by simp at hf; omega⟩
    obtain ⟨heo, hsep'⟩ := hes e (by simp)
    simp only [entry_ok, Bool.and_eq_true, Bool.or_eq_true, beq_iff_eq] at heo
    obtain ⟨⟨hek, hsep⟩, hev⟩ := heo
    have h1 : src.drop p = v ++ 32 :: (e.key ++ e.sep :: (e.value ++ 32 :: root_entries es)) := by
      rw [h]; simp [root_entries]
    have h2 := drop_add_of_drop h1
    have h3 : src.drop (p + v.length + 1) =
        e.key ++ e.sep :: (e.value ++ 32 :: root_entries es) := drop_succ_of_drop h2
    have h3' : src.drop (p + v.length + 1 + e.key.length) =
        e.sep :: (e.value ++ 32 :: root_entries es) := drop_add_of_drop h3
    have h4 := drop_succ_of_drop h3'
    have hb := getD_of_drop h3'
    obtain ⟨LS', hLS'⟩ := ih (p + v.length + 1 + e.key.length + 1)
      ⟨TOKEN_SYMBOL, p + v.length + 1 + e.key.length, p + v.length + 1 + e.key.length + 1⟩
      ⟨TOKEN_ATOM, p + v.length + 1, p + v.length + 1 + e.key.length⟩ e.key e.value
      (lua_settable tbl k (scalar_value v)) (f + 1) h4
      (span_of_drop h3) hev (fun x hx => hes x (by simp [hx])) (by simp at hf ⊢; omega)
    refine ⟨LS', ?_⟩
    rw [parse_outer_fields, next_token_atom t h1 hv (by decide)]
    simp only
    rw [push_value_atom, push_token_plain_atom h1 hv (by decide) (by decide)]
    simp only
    rw [read_key_space_entry _ _ h2 hek hsep]
    simp only [ne_eq, not_true_eq_false, if_false, lex_state.byte, hb, hsep', push_key, hk]
    rw [hLS']
    simp only [map_store]

/-- A keyed root document whose entries all use the separator of the first
one: a pair list when that separator is `:`, a map otherwise. -/
theorem lparse_root_entries (e : entry) (es : List entry) (he : entry_ok e = true)
    (hes : ∀ x ∈ es, entry_ok x = true ∧ x.sep = e.sep) (fuel : Nat)
    (hf : es.length + 2 ≤ fuel) (t0 : token) :
    lparse fuel t0 (root_entries (e :: es)) =
      some (Except.ok (Value.table
        (if e.sep = 58 then pair_list_from 1 (e :: es) else map_store [] (e :: es)))) := by
  simp only [entry_ok, Bool.and_eq_true, Bool.or_eq_true, beq_iff_eq] at he
  obtain ⟨⟨hek, hsep⟩, hev⟩ := he
  obtain ⟨src, hsrc⟩ : ∃ src, src = root_entries (e :: es) := ⟨_, rfl⟩
  rw [← hsrc]
  have h0 : src.drop 0 = e.key ++ e.sep :: (e.value ++ 32 :: root_entries es) := by
    rw [hsrc]; simp [root_entries]
  have h1 : src.drop (0 + e.key.length) = e.sep :: (e.value ++ 32 :: root_entries es) :=
    drop_add_of_drop h0
  have h2 := drop_succ_of_drop h1
  have hb := getD_of_drop h1
  rw [lparse, parse_outer, read_key_entry t0 t0 h0 hek hsep]
  simp only [gt_iff_lt, lt_self_iff_false, if_false, lex_state.byte, hb]
  by_cases h58 : e.sep = 58
  · obtain ⟨LS', hLS'⟩ := parse_outer_pairs_entries src 1 e.sep es _
      ⟨TOKEN_SYMBOL, 0 + e.key.length, 0 + e.key.length + 1⟩
      ⟨TOKEN_ATOM, 0, 0 + e.key.length⟩ e.key e.value [] 1 fuel h2 (span_of_drop h0) hev hes
      (by simp) hf
    rw [if_pos h58, if_pos h58, hLS']
    simp only [pair_list_from, List.nil_append]
  · obtain ⟨LS', hLS'⟩ := parse_outer_fields_entries src 1 e.sep es _
      ⟨TOKEN_SYMBOL, 0 + e.key.length, 0 + e.key.length + 1⟩
      ⟨TOKEN_ATOM, 0, 0 + e.key.length⟩ e.key e.value [] fuel h2 (span_of_drop h0) hev hes hf
    rw [if_neg h58, if_neg h58, hLS']
    simp only [map_store]

theorem lua_set_keys (tbl : Table) (k : Key) (v : Value) :
    ∀ kv ∈ lua_set tbl k v, kv.1 = k ∨ ∃ kv' ∈ tbl, kv'.1 = kv.1 := by
  intro kv hkv
  unfold lua_set at hkv
  split at hkv
  · exact Or.inr ⟨kv, (List.mem_filter.mp hkv).1, rfl⟩
  · split at hkv
    · obtain ⟨a, ha, hak⟩ := List.mem_map.mp hkv
      by_cases hc : (a.1 == k) = true
      · rw [if_pos hc] at hak
        exact Or.inl (by rw [← hak])
      · rw [if_neg hc] at hak
        exact Or.inr ⟨a, ha, by rw [hak]⟩
    · rcases List.mem_append.mp hkv with h | h
      · exact Or.inr ⟨kv, h, rfl⟩
      · simp only [List.mem_singleton] at h
        exact Or.inl (by rw [h])

/-- Every key of the map of the entries is the raw text of the key of an
entry (or a key of the table the entries were stored into). -/
theorem map_store_keys : ∀ (es : List entry) (tbl : Table), ∀ kv ∈ map_store tbl es,
    (∃ kv' ∈ tbl, kv'.1 = kv.1) ∨ ∃ x ∈ es, kv.1 = Key.str x.key := by
  intro es
  induction es with
  | nil => intro tbl kv hkv; exact Or.inl ⟨kv, hkv, rfl⟩
  | cons e es ih =>
    intro tbl kv hkv
    rcases ih _ kv hkv with ⟨kv', hkv', hk⟩ | ⟨x, hx, hk⟩
    · rcases lua_set_keys tbl (Key.str e.key) _ kv' hkv' with h | ⟨kv'', h, h'⟩
      · exact Or.inr ⟨e, by simp, by rw [← hk, h]⟩
      · exact Or.inl ⟨kv'', h, by rw [h', hk]⟩
    · exact Or.inr ⟨x, by simp [hx], hk⟩

/-- Claim C19: a keyed root document `k1 s v1 k2 s v2 ... ` whose entries all
use the separator of the first one (Atom keys and values, a blank after each
entry) parses to a pair list when the separator is `:` - one `{key, value}`
entry per pair, in source order, equal keys kept - and to a map when it is `=`,
in which a repeated key keeps its last value.  The keys are the raw text of
the key Atoms: strings in the pair list, string keys in the map. -/
theorem root_kind_by_first_separator (e : entry) (es : List entry)
    (he : entry_ok e = true) (hes : ∀ x ∈ es, entry_ok x = true ∧ x.sep = e.sep) :
    (e.sep = 58 →
      Returns (root_entries (e :: es))
        (Except.ok (Value.table (pair_list_from 1 (e :: es)))) ∧
      (pair_list_from 1 (e :: es)).length = (e :: es).length ∧
      ∀ (i : Nat) (x : entry), (e :: es)[i]? = some x →
        ∃ ent, lua_get (pair_list_from 1 (e :: es)) (Key.idx ((i : Int) + 1)) =
            Value.table ent ∧
          lua_get ent (Key.idx 1) = Value.string x.key ∧
          lua_get ent (Key.idx 2) = scalar_value x.value) ∧
    (e.sep = 61 →
      Returns (root_entries (e :: es)) (Except.ok (Value.table (map_store [] (e :: es)))) ∧
      (∀ key, lua_get (map_store [] (e :: es)) (Key.str key) = last_value key (e :: es)) ∧
      ∀ kv ∈ map_store [] (e :: es), ∃ x ∈ e :: es, kv.1 = Key.str x.key) := by
  constructor
  · intro h58
    refine ⟨⟨es.length + 2, fun t0 => ?_⟩, pair_list_from_length _ _, ?_⟩
    · rw [lparse_root_entries e es he hes _ (le_refl _) t0, if_pos h58]
    · intro i x hx
      refine ⟨pair_entry x.key (scalar_value x.value), ?_, lua_get_pair_entry_key _ _,
        lua_get_pair_entry_value _ _⟩
      have := lua_get_pair_list_from (e :: es) 1 i x hx
      rw [show ((i : Int) + 1) = 1 + (i : Int) by omega]
      exact this
  · intro h61
    refine ⟨⟨es.length + 2, fun t0 => ?_⟩, fun key => lua_get_map_store_nil key _, ?_⟩
    · rw [lparse_root_entries e es he hes _ (le_refl _) t0, if_neg (by omega)]
    · intro kv hkv
      rcases map_store_keys (e :: es) [] kv hkv with ⟨kv', hkv', _⟩ | h
      · simp at hkv'
      · exact h

/-- Witness for claim C19: `1:2 true:x 1:3 ` is the pair list of three pairs
with the string keys `1`, `true`, `1`; `1=2 true=x 1=3 ` is the map with
`1 = 3` and `true = x`. -/
theorem root_kind_by_first_separator_witness :
    (entry_ok (entry.mk (bytes "1") 58 (bytes "2")) = true ∧
      ∀ x ∈ [entry.mk (bytes "true") 58 (bytes "x"), entry.mk (bytes "1") 58 (bytes "3")],
        entry_ok x = true ∧ x.sep = 58) ∧
    Returns (bytes "1:2 true:x 1:3 ")
      (Except.ok (Value.table
        [(Key.idx 1, Value.table
            [(Key.idx 1, Value.string (bytes "1")), (Key.idx 2, Value.integer 2)]),
          (Key.idx 2, Value.table
            [(Key.idx 1, Value.string (bytes "true")), (Key.idx 2, Value.string (bytes "x"))]),
          (Key.idx 3, Value.table
            [(Key.idx 1, Value.string (bytes "1")), (Key.idx 2, Value.integer 3)])])) ∧
    Returns (bytes "1=2 true=x 1=3 ")
      (Except.ok (Value.table
        [(Key.str (bytes "1"), Value.integer 3),
          (Key.str (bytes "true"), Value.string (bytes "x"))])) :=
  ⟨by decide,
    ((root_kind_by_first_separator (entry.mk (bytes "1") 58 (bytes "2"))
      [entry.mk (bytes "true") 58 (bytes "x"), entry.mk (bytes "1") 58 (bytes "3")]
      (by decide) (by decide)).1 rfl).1,
    ((root_kind_by_first_separator (entry.mk (bytes "1") 61 (bytes "2"))
      [entry.mk (bytes "true") 61 (bytes "x"), entry.mk (bytes "1") 61 (bytes "3")]
      (by decide) (by decide)).2 rfl).1⟩

/-! ### The span of an EscapedString -/

theorem parse_string_loop_escaped (o : Nat) :
    ∀ (n : Nat) (LS : lex_state) (ptr : Nat) (LS' : lex_state),
      LS.t.from_ ≤ ptr → (LS.t.type = TOKEN_ESCAPESTRING → LS.t.from_ + 2 ≤ ptr) →
      parse_string_loop o n LS ptr = (true, LS') → LS'.t.type = TOKEN_ESCAPESTRING →
      LS'.t.from_ + 2 ≤ LS'.t.to_ := by
  intro n
  induction n with
  | zero => intro LS ptr LS' _ _ h; simp [parse_string_loop] at h
  | succ n ih =>
    intro LS ptr LS' h1 h2 h hty
    rw [parse_string_loop] at h
    split at h
    · split at h
      · have := (Prod.mk.inj h).2
        subst this
        exact h2 hty
      · split at h
        · simp at h
        · split at h
          · exact ih _ (ptr + 2) LS' (by simp only; omega) (fun _ => by simp only; omega) h hty
          · exact ih _ (ptr + 1) LS' (by omega) (fun h' => by have := h2 h'; omega) h hty
    · simp at h

theorem next_token_loop_escaped (src : List Nat) (t : token) (LS' : lex_state)
    (hty : LS'.t.type = TOKEN_ESCAPESTRING) (hw : LS'.t ≠ t) :
    ∀ (n p0 ptr : Nat), next_token_loop n ⟨src, p0, t⟩ ptr = (true, LS') →
      LS'.t.from_ + 2 ≤ LS'.t.to_ := by
  intro n
  induction n with
  | zero =>
    intro p0 ptr h
    rw [next_token_loop] at h
    have := (Prod.mk.inj h).2
    subst this
    simp at hty
  | succ n ih =>
    intro p0 ptr h
    rw [next_token_loop] at h
    simp only [lex_state.sz, lex_state.byte] at h
    split at h
    next hlt =>
      split at h
      · obtain ⟨p', h1, _⟩ := skip_line_comment_loop_state src t (src.length - ptr) ptr ptr
        have h1' : (skip_line_comment ⟨src, ptr, t⟩).1 = ⟨src, p', t⟩ := h1
        rw [h1'] at h
        exact ih p' _ h
      · split at h
        · exact ih ptr (ptr + 1) h
        · split at h
          · have := (Prod.mk.inj h).2
            subst this
            simp at hty
          · split at h
            · have := (Prod.mk.inj h).2
              subst this
              simp at hty
            · split at h
              · have := (Prod.mk.inj h).2
                subst this
                have hcases : ∀ (m q : Nat),
                    parse_layer_loop ⟨src, ptr, t⟩ (src.getD ptr 0) m q = ⟨src, ptr, t⟩ ∨
                    (parse_layer_loop ⟨src, ptr, t⟩ (src.getD ptr 0) m q).t.type ≠
                      TOKEN_ESCAPESTRING := by
                  intro m
                  induction m with
                  | zero => intro q; exact Or.inl rfl
                  | succ m ihm =>
                    intro q
                    rw [parse_layer_loop]
                    split
                    · right
                      simp only
                      split <;> simp
                    · exact ihm (q + 1)
                rcases hcases (src.length - (ptr + 1)) (ptr + 1) with h' | h'
                · exact absurd (congrArg lex_state.t h') hw
                · exact absurd hty h'
              · split at h
                · exact parse_string_loop_escaped _ _ _ _ _ (by simp only; omega)
                    (fun h' => by simp at h') h hty
                · have := (Prod.mk.inj h).2
                  subst this
                  have : (parse_atom ⟨src, ptr, t⟩).t.type = TOKEN_ATOM := by
                    rw [parse_atom_token src ptr t (by omega)]
                  rw [this] at hty
                  simp at hty
    next =>
      have := (Prod.mk.inj h).2
      subst this
      simp at hty

/-- The first assertion of the decoder holds: an EscapedString token that
`next_token` writes has at least two bytes. -/
theorem escaped_string_span_nonempty (src : List Nat) (p : Nat) (t : token) (LS' : lex_state)
    (h : next_token ⟨src, p, t⟩ = (true, LS')) (hty : LS'.t.type = TOKEN_ESCAPESTRING)
    (hw : LS'.t ≠ t) : LS'.t.to_ - LS'.t.from_ > 0 := by
  have := next_token_loop_escaped src t LS' hty hw _ p p h
  omega

/-! ### Containers that are not closed -/

/-- A document that begins with an opening bracket: when the container never
returns, `lparse` never returns. -/
theorem lparse_container_diverges {src : List Nat} {b : Nat} {r : List Nat} (h : src = b :: r)
    (hb : b = 123 ∨ b = 91 ∨ b = 40)
    (hp : ∀ fuel, parse_list fuel [] ⟨src, 1, ⟨TOKEN_BRACKET, 0, 1⟩⟩ 2 = none) :
    Diverges src := by
  intro fuel t0
  have h0 : src.drop 0 = b :: r := h
  have hb' : src.getD 0 0 = b := getD_of_drop h0
  rw [lparse, parse_outer, read_key, next_token_bracket t0 h0 (by omega)]
  simp only [ne_eq, reduceCtorEq, not_false_eq_true, if_true, Nat.zero_add]
  rw [if_pos (by decide), if_neg (by decide)]
  cases fuel with
  | zero => rfl
  | succ f =>
    rw [parse_seq]
    cases f with
    | zero => rfl
    | succ g =>
      rw [push_value]
      simp only [lex_state.byte, hb', hp g]
      rcases hb with rfl | rfl | rfl <;> simp

/-- Claim C8 (failing inputs): on `(1,2`, the claim's own example, the parser
never returns; `[a:[b]` and `{a:{b}` end while the outer container is open
and are accepted: the keyed loop of `parse_map` tests the byte at the start of
the last token, which is the inner closing bracket, when the token is the end
of the input; `[a:1 ` fails with "Need key".  None of them fails with "Not
closed". -/
theorem unclosed_container_not_reported :
    Diverges (bytes "(1,2") ∧
    Returns (bytes "[a:[b]")
      (Except.ok (Value.table [(Key.idx 1, Value.table [(Key.idx 1,
        Value.table [(Key.idx 1, Value.string (bytes "a")),
          (Key.idx 2, Value.table [(Key.idx 1, Value.string (bytes "b"))])])])])) ∧
    Returns (123 :: (bytes "a:" ++ 123 :: (bytes "b" ++ [125])))
      (Except.ok (Value.table [(Key.idx 1, Value.table [(Key.str (bytes "a"),
        Value.table [(Key.idx 1, Value.string (bytes "b"))])])])) ∧
    Returns (bytes "[a:1 ") (Except.error (Error.raised 1 "Need key")) := by
  refine ⟨?_,
    Returns_of_eval 10 (fun t0 => first_token_bracket _ 91 (bytes "a:[b]") rfl
      (by decide) _ _) (by decide),
    Returns_of_eval 10 (fun t0 => first_token_bracket _ 123
      (bytes "a:" ++ 123 :: (bytes "b" ++ [125])) rfl (by decide) _ _) (by decide),
    Returns_of_eval 8 (fun t0 => first_token_bracket _ 91 (bytes "a:1 ") rfl
      (by decide) _ _) (by decide)⟩
  apply lparse_container_diverges (show bytes "(1,2" = 40 :: bytes "1,2" from rfl) (by decide)
  intro fuel
  have h0 : (bytes "(1,2").drop 0 = 40 :: bytes "1,2" := rfl
  have hn1 : next_token ⟨bytes "(1,2", 1, ⟨TOKEN_BRACKET, 0, 1⟩⟩ =
      (true, ⟨bytes "(1,2", 2, ⟨TOKEN_ATOM, 1, 2⟩⟩) := by decide
  have hn2 : next_token ⟨bytes "(1,2", 2, ⟨TOKEN_ATOM, 1, 2⟩⟩ =
      (true, ⟨bytes "(1,2", 3, ⟨TOKEN_ATOM, 3, 4⟩⟩) := by decide
  have hn3 : next_token ⟨bytes "(1,2", 3, ⟨TOKEN_ATOM, 3, 4⟩⟩ =
      (true, ⟨bytes "(1,2", 3, ⟨TOKEN_ATOM, 3, 4⟩⟩) := by decide
  cases fuel with
  | zero => rfl
  | succ f =>
    rw [parse_list_open f [] 1 1 2 h0 (by decide), if_pos rfl]
    cases f with
    | zero => rfl
    | succ g =>
      rw [parse_flat, hn1]
      simp only
      cases g with
      | zero => rfl
      | succ k =>
        rw [push_value_atom_token k _ 2 41 rfl]
        simp only
        exact parse_flat_stuck_next _ _ hn2 rfl hn3 _ _ _ _

end Datalist
